import Mathlib

/-! # Job registry of the notification manager

Source: `libnotificationmanager/jobsmodel_p.cpp`.

A shallow embedding of `JobsModelPrivate`: the visible job views, the pending
(delayed) job views, the owner map, the dirty-roles map, the two single-shot
timers and every signal or D-Bus broadcast the class sends, followed by theorems
about the embedded functions.

Conventions of the embedding

* A `Job *` is a `JobPtr` (an address); the objects live in `Model.jobs`, and
  `Model.live` lists the addresses that were allocated and not deleted.
* `QHash` containers are association lists with unique keys.  The iteration order
  of a `QHash` is unspecified, so no theorem below relies on that order.
* C++ `int` arithmetic is arithmetic on `Int` wrapped to 32 bits (`wrapInt`).
* Emitted signals and sent D-Bus messages are appended, in order, to `Model.events`.
* Code that may not return (a failed `Q_ASSERT`, an out-of-range `takeAt`)
  returns `none`.
* Sequences of calls are lists of `Op`, performed by `run`; `Reachable` holds of
  the states such sequences lead to from a fresh registry.
-/

namespace NotificationManager

/-! ## Types declared outside `jobsmodel_p.cpp` -/

/-- Modelled from the spec: the enum `Notifications::JobState` (`notifications.h` is
not part of the sources).  The registry only ever compares a state with
`JobStateStopped`, the single terminal state seen by consumers. -/
inductive JobState where
  | JobStateStopped
  | JobStateRunning
  | JobStateSuspended
deriving DecidableEq, Repr

/-- Modelled from the spec: the members of the enum `Notifications::Roles` that
`jobsmodel_p.cpp` uses as changed-field identifiers. -/
inductive Roles where
  | UpdatedRole
  | SummaryRole
  | JobStateRole
  | TimeoutRole
  | ClosableRole
  | PercentageRole
  | JobErrorRole
  | ExpiredRole
  | DismissedRole
  | BodyRole
deriving DecidableEq, Repr

/-- The part of `QUrl` the registry uses: `isValid()` and `toString()`. -/
structure QUrl where
  isValid : Bool
  toString : String
deriving DecidableEq, Repr

/-- Modelled from the spec: the attributes of class `Job` (`job.h` and `job_p.h` are
not part of the sources) that `jobsmodel_p.cpp` reads or writes. -/
structure Job where
  id : Int
  desktopEntry : String
  applicationName : String
  applicationIconName : String
  suspendable : Bool
  killable : Bool
  state : JobState
  percentage : Int
  summary : String
  destUrl : QUrl
  error : Int
  errorText : String
  expired : Bool
  dismissed : Bool
deriving DecidableEq, Repr

/-- Modelled from the spec: the constructor `Job(id)`; a fresh job is not stopped,
has percentage 0, no destination URL and no error. -/
def Job.create (id : Int) : Job :=
  { id := id, desktopEntry := "", applicationName := "", applicationIconName := "",
    suspendable := false, killable := false, state := JobState.JobStateRunning,
    percentage := 0, summary := "", destUrl := { isValid := false, toString := "" },
    error := 0, errorText := "", expired := false, dismissed := false }

/-- A `Job *`. -/
abbrev JobPtr := Nat

/-- Signals of `JobsModelPrivate` and the D-Bus broadcast of
`updateApplicationPercentage`, in the order they are sent.  `launcherEntryUpdate`
is the `com.canonical.Unity.LauncherEntry.Update` signal; its last field is the
integer `percentage`, the sent property `progress` being `percentage / 100.0`. -/
inductive Event where
  | jobViewAboutToBeAdded (row : Int) (job : JobPtr)
  | jobViewAdded (row : Int) (job : JobPtr)
  | jobViewAboutToBeRemoved (row : Int)
  | jobViewRemoved (row : Int)
  | jobViewChanged (row : Int) (job : JobPtr) (roles : List Roles)
  | jobUrlsChanged (urls : List String)
  | launcherEntryUpdate (uri : String) (countVisible : Bool) (count : Int)
      (progressVisible : Bool) (percentage : Int)
deriving DecidableEq, Repr

/-- The state of a `JobsModelPrivate` after a successful `init()`, together with the
heap of `Job` objects, the clock and the log of events sent so far.  A timer is
`none` when inactive and `some t` when it is active and expires at time `t` (ms). -/
structure Model where
  jobs : JobPtr → Job
  live : List JobPtr
  nextPtr : JobPtr
  m_jobViews : List JobPtr
  m_pendingJobViews : List JobPtr
  m_jobServices : List (JobPtr × String)
  m_pendingDirtyRoles : List (JobPtr × List Roles)
  m_highestJobId : Int
  watchedServices : Finset String
  now : Nat
  m_compressUpdatesTimer : Option Nat
  m_pendingJobViewsTimer : Option Nat
  events : List Event

/-- A freshly constructed and initialised registry whose id counter starts at
`highestJobId`. -/
def Model.initial (highestJobId : Int) : Model :=
  { jobs := fun _ => Job.create 0, live := [], nextPtr := 0, m_jobViews := [],
    m_pendingJobViews := [], m_jobServices := [], m_pendingDirtyRoles := [],
    m_highestJobId := highestJobId, watchedServices := ∅, now := 0,
    m_compressUpdatesTimer := none, m_pendingJobViewsTimer := none, events := [] }

/-! ## Library primitives -/

/-- Two's-complement wrap of a C++ `int` (32 bits). -/
def wrapInt (x : Int) : Int := (x + 2147483648) % 4294967296 - 2147483648

/-- `QVector::indexOf`: the first index holding `job`, or `-1`. -/
def indexOf (l : List JobPtr) (job : JobPtr) : Int :=
  if job ∈ l then (List.indexOf job l : Int) else -1

/-- `QHash::remove(key)`. -/
def QHash.remove {V : Type} (h : List (JobPtr × V)) (key : JobPtr) : List (JobPtr × V) :=
  h.filter (fun e => decide (e.1 ≠ key))

/-- `QHash::insert(key, value)`: replaces the value of an existing key. -/
def QHash.insert {V : Type} (h : List (JobPtr × V)) (key : JobPtr) (value : V) :
    List (JobPtr × V) :=
  QHash.remove h key ++ [(key, value)]

/-- The value returned by `QHash<Job *, QString>::take(key)`: the stored value, or a
default-constructed (empty) string when the key is absent. -/
def QHash.takeValue (h : List (JobPtr × String)) (key : JobPtr) : String :=
  (h.lookup key).getD ""

/-- `QHash::keys(value)`: the keys mapped to `value`. -/
def QHash.keys (h : List (JobPtr × String)) (value : String) : List JobPtr :=
  (h.filter (fun e => decide (e.2 = value))).map Prod.fst

/-- The statement `hash[key].append(role)`: `operator[]` creates an empty vector for
an absent key. -/
def QHash.appendRole :
    List (JobPtr × List Roles) → JobPtr → Roles → List (JobPtr × List Roles)
  | [], key, role => [(key, [role])]
  | (k, roles) :: rest, key, role =>
      if k = key then (k, roles ++ [role]) :: rest
      else (k, roles) :: QHash.appendRole rest key role

/-- The interval of `m_pendingJobViewsTimer` in milliseconds (`setInterval(500)`). -/
def pendingJobViewsInterval : Nat := 500

/-- The interval of `m_compressUpdatesTimer` (`setInterval(0)`). -/
def compressUpdatesInterval : Nat := 0

/-- `QTimer::start()` on a single-shot timer: starts the timer, or stops and restarts
it when it is already running; either way it expires one interval from now. -/
def QTimer.start (_timer : Option Nat) (now interval : Nat) : Option Nat :=
  some (now + interval)

/-- Emitting a signal or sending a D-Bus message. -/
def Model.emit (s : Model) (e : Event) : Model :=
  { s with events := s.events ++ [e] }

/-- Writing through a `Job *`. -/
def Model.modifyJob (s : Model) (job : JobPtr) (f : Job → Job) : Model :=
  { s with jobs := Function.update s.jobs job (f (s.jobs job)) }

/-- Time passing by `dt` milliseconds with no timer firing. -/
def Model.advance (s : Model) (dt : Nat) : Model :=
  { s with now := s.now + dt }

/-! ## `jobsmodel_p.cpp` -/

/-- The body of the loop of `updateApplicationPercentage` (lines 358-364) for one
element of `m_jobViews`, on the pair `(jobsPercentages, jobsCount)`. -/
def percentageStep (s : Model) (acc : Int × Int) (job : JobPtr) : Int × Int :=
  if (s.jobs job).state ≠ JobState.JobStateStopped then
    (wrapInt (acc.1 + (s.jobs job).percentage), wrapInt (acc.2 + 1))
  else acc

/-- `JobsModelPrivate::updateApplicationPercentage` (lines 349-383). -/
def updateApplicationPercentage (s : Model) (desktopEntry : String) : Model :=
  if desktopEntry = "" then s
  else
    let acc := s.m_jobViews.foldl (percentageStep s) (0, 0)
    let jobsPercentages := acc.1
    let jobsCount := acc.2
    let percentage := if jobsCount > 0 then Int.tdiv jobsPercentages jobsCount else 0
    s.emit (Event.launcherEntryUpdate ("application://" ++ desktopEntry)
      (decide (jobsCount > 0)) jobsCount (decide (jobsCount > 0)) percentage)

/-- `JobsModelPrivate::scheduleUpdate` (lines 400-404). -/
def scheduleUpdate (s : Model) (job : JobPtr) (role : Roles) : Model :=
  { s with
    m_pendingDirtyRoles := QHash.appendRole s.m_pendingDirtyRoles job role
    m_compressUpdatesTimer := QTimer.start s.m_compressUpdatesTimer s.now compressUpdatesInterval }

/-- The body of the loop of the `m_compressUpdatesTimer` handler (lines 53-67) for
one entry of `m_pendingDirtyRoles`. -/
def compressUpdatesStep (s : Model) (entry : JobPtr × List Roles) : Model :=
  let job := entry.1
  let roles := entry.2
  let row := indexOf s.m_jobViews job
  if row = -1 then s
  else
    let s1 := s.emit (Event.jobViewChanged row job roles)
    if Roles.PercentageRole ∈ roles then
      updateApplicationPercentage s1 (s1.jobs job).desktopEntry
    else s1

/-- The `timeout` handler of `m_compressUpdatesTimer` (lines 52-70), run when the
single-shot timer fires (which leaves the timer inactive). -/
def compressUpdatesTimeout (s : Model) : Model :=
  let s0 := { s with m_compressUpdatesTimer := none }
  let s1 := s0.m_pendingDirtyRoles.foldl compressUpdatesStep s0
  { s1 with m_pendingDirtyRoles := [] }

/-- The loop of `JobsModelPrivate::jobUrls` (lines 157-161 and 162-166) over one of
the two job lists, appending to `jobUrls`. -/
def jobUrlsLoop (s : Model) (jobUrls : List String) (jobList : List JobPtr) : List String :=
  jobList.foldl (fun acc job =>
    if (s.jobs job).state ≠ JobState.JobStateStopped ∧ (s.jobs job).destUrl.isValid = true then
      acc ++ [(s.jobs job).destUrl.toString]
    else acc) jobUrls

/-- `JobsModelPrivate::jobUrls` (lines 154-168). -/
def jobUrls (s : Model) : List String :=
  jobUrlsLoop s (jobUrlsLoop s [] s.m_jobViews) s.m_pendingJobViews

/-- `JobsModelPrivate::emitJobUrlsChanged` (lines 170-173). -/
def emitJobUrlsChanged (s : Model) : Model :=
  s.emit (Event.jobUrlsChanged (jobUrls s))

/-- `JobsModelPrivate::removeAt` (lines 324-345).  The result is `none` when the
`Q_ASSERT` on the row fails (the following `takeAt` is then out of range). -/
def removeAt (s : Model) (row : Int) : Option Model :=
  if 0 ≤ row ∧ row < (s.m_jobViews.length : Int) then
    match s.m_jobViews[row.toNat]? with
    | none => none
    | some job =>
      let s1 := s.emit (Event.jobViewAboutToBeRemoved row)
      let s2 := { s1 with m_jobViews := s1.m_jobViews.eraseIdx row.toNat }
      let s3 := { s2 with m_pendingDirtyRoles := QHash.remove s2.m_pendingDirtyRoles job }
      let s4 := { s3 with m_pendingJobViews := s3.m_pendingJobViews.erase job }
      let serviceName := QHash.takeValue s4.m_jobServices job
      let s5 := { s4 with m_jobServices := QHash.remove s4.m_jobServices job }
      let s6 :=
        if s5.m_jobServices.any (fun item => decide (item.2 = serviceName)) then s5
        else { s5 with watchedServices := s5.watchedServices.erase serviceName }
      let s7 := { s6 with live := s6.live.erase job }
      some (s7.emit (Event.jobViewRemoved row))
  else none

/-- `JobsModelPrivate::remove` (lines 316-322). -/
def remove (s : Model) (job : JobPtr) : Option Model :=
  let row := indexOf s.m_jobViews job
  if row > -1 then removeAt s row else some s

/-- `JobsModelPrivate::removeAt` (lines 324-345) once more, statement by statement as
in `removeAt`, returning besides the final state what a slot directly connected to the
model's signals sees: each emitted signal paired with the registry at the moment of the
`emit` (the state the running `removeAt` has produced so far). -/
def removeAtObserved (s : Model) (row : Int) : Option (Model × List (Event × Model)) :=
  if 0 ≤ row ∧ row < (s.m_jobViews.length : Int) then
    match s.m_jobViews[row.toNat]? with
    | none => none
    | some job =>
      let seen1 := [(Event.jobViewAboutToBeRemoved row, s)]
      let s1 := s.emit (Event.jobViewAboutToBeRemoved row)
      let s2 := { s1 with m_jobViews := s1.m_jobViews.eraseIdx row.toNat }
      let s3 := { s2 with m_pendingDirtyRoles := QHash.remove s2.m_pendingDirtyRoles job }
      let s4 := { s3 with m_pendingJobViews := s3.m_pendingJobViews.erase job }
      let serviceName := QHash.takeValue s4.m_jobServices job
      let s5 := { s4 with m_jobServices := QHash.remove s4.m_jobServices job }
      let s6 :=
        if s5.m_jobServices.any (fun item => decide (item.2 = serviceName)) then s5
        else { s5 with watchedServices := s5.watchedServices.erase serviceName }
      let s7 := { s6 with live := s6.live.erase job }
      let seen2 := seen1 ++ [(Event.jobViewRemoved row, s7)]
      some (s7.emit (Event.jobViewRemoved row), seen2)
  else none

/-- The body of the loop of the `m_pendingJobViewsTimer` handler (lines 76-89) for
one element of the copied pending list. -/
def pendingJobViewsStep (s : Model) (job : JobPtr) : Option Model :=
  if (s.jobs job).state = JobState.JobStateStopped then remove s job
  else
    let newRow : Int := s.m_jobViews.length
    let s1 := s.emit (Event.jobViewAboutToBeAdded newRow job)
    let s2 := { s1 with m_jobViews := s1.m_jobViews ++ [job] }
    let s3 := s2.emit (Event.jobViewAdded newRow job)
    some (updateApplicationPercentage s3 (s3.jobs job).desktopEntry)

/-- The loop of the `m_pendingJobViewsTimer` handler over the copy `pendingJobs`. -/
def pendingJobViewsLoop : Model → List JobPtr → Option Model
  | s, [] => some s
  | s, job :: rest =>
      match pendingJobViewsStep s job with
      | none => none
      | some s1 => pendingJobViewsLoop s1 rest

/-- The `timeout` handler of `m_pendingJobViewsTimer` (lines 74-92), run when the
single-shot timer fires (which leaves the timer inactive). -/
def pendingJobViewsTimeout (s : Model) : Option Model :=
  let s0 := { s with m_pendingJobViewsTimer := none }
  let pendingJobs := s0.m_pendingJobViews
  match pendingJobViewsLoop s0 pendingJobs with
  | none => none
  | some s1 => some { s1 with m_pendingJobViews := [] }

/-! ### The slots connected to a job's signals in `requestView` (lines 243-296) -/

/-- The slot connected to `Job::stateChanged` (lines 249-259). -/
def onStateChanged (s : Model) (job : JobPtr) : Model :=
  let s1 := scheduleUpdate s job Roles.JobStateRole
  let s2 := scheduleUpdate s1 job Roles.TimeoutRole
  let s3 := scheduleUpdate s2 job Roles.ClosableRole
  if (s3.jobs job).state = JobState.JobStateStopped then
    emitJobUrlsChanged (updateApplicationPercentage s3 (s3.jobs job).desktopEntry)
  else s3

/-- The slot connected to `Job::destUrlChanged` (lines 286-289). -/
def onDestUrlChanged (s : Model) (job : JobPtr) : Model :=
  emitJobUrlsChanged (scheduleUpdate s job Roles.BodyRole)

/-- The slot connected to `JobPrivate::closed` (lines 294-296). -/
def onClosed (s : Model) (job : JobPtr) : Option Model :=
  remove s job

/-! ### Setters of `Job`

Modelled from the spec (`job.cpp` is not part of the sources): a setter stores the
value and emits the field's change signal if, and only if, the value differs; the
signal runs the slot that `requestView` connected to it. -/

/-- Modelled from the spec: `Job::setState` of the missing `job.cpp`, with the slot
of lines 249-259 run on `stateChanged`. -/
def setState (s : Model) (job : JobPtr) (state : JobState) : Model :=
  if (s.jobs job).state = state then s
  else onStateChanged (s.modifyJob job (fun j => { j with state := state })) job

/-- Modelled from the spec: `Job::setPercentage` of the missing `job.cpp`, with the
slot of lines 260-262 run on `percentageChanged`. -/
def setPercentage (s : Model) (job : JobPtr) (percentage : Int) : Model :=
  if (s.jobs job).percentage = percentage then s
  else scheduleUpdate (s.modifyJob job (fun j => { j with percentage := percentage })) job
    Roles.PercentageRole

/-- Modelled from the spec: `Job::setError` of the missing `job.cpp`, with the slot of
lines 263-265 run on `errorChanged`. -/
def setError (s : Model) (job : JobPtr) (error : Int) : Model :=
  if (s.jobs job).error = error then s
  else scheduleUpdate (s.modifyJob job (fun j => { j with error := error })) job
    Roles.JobErrorRole

/-- Modelled from the spec: `Job::setErrorText` of the missing `job.cpp`, with the
slot of lines 290-292 run on `errorTextChanged`. -/
def setErrorText (s : Model) (job : JobPtr) (errorText : String) : Model :=
  if (s.jobs job).errorText = errorText then s
  else scheduleUpdate (s.modifyJob job (fun j => { j with errorText := errorText })) job
    Roles.BodyRole

/-- Modelled from the spec: `Job::setSummary` of the missing `job.cpp`, with the slot
of lines 246-248 run on `summaryChanged`. -/
def setSummary (s : Model) (job : JobPtr) (summary : String) : Model :=
  if (s.jobs job).summary = summary then s
  else scheduleUpdate (s.modifyJob job (fun j => { j with summary := summary })) job
    Roles.SummaryRole

/-- Modelled from the spec: `Job::setDestUrl` of the missing `job.cpp`, with the slot
of lines 286-289 run on `destUrlChanged`. -/
def setDestUrl (s : Model) (job : JobPtr) (destUrl : QUrl) : Model :=
  if (s.jobs job).destUrl = destUrl then s
  else onDestUrlChanged (s.modifyJob job (fun j => { j with destUrl := destUrl })) job

/-- Modelled from the spec: `Job::setExpired` of the missing `job.cpp`, with the slot
of lines 266-268 run on `expiredChanged`. -/
def setExpired (s : Model) (job : JobPtr) (expired : Bool) : Model :=
  if (s.jobs job).expired = expired then s
  else scheduleUpdate (s.modifyJob job (fun j => { j with expired := expired })) job
    Roles.ExpiredRole

/-- Modelled from the spec: `Job::setDismissed` of the missing `job.cpp`, with the
slot of lines 269-271 run on `dismissedChanged`. -/
def setDismissed (s : Model) (job : JobPtr) (dismissed : Bool) : Model :=
  if (s.jobs job).dismissed = dismissed then s
  else scheduleUpdate (s.modifyJob job (fun j => { j with dismissed := dismissed })) job
    Roles.DismissedRole

/-! ### Registration and client loss -/

/-- `JobsModelPrivate::requestView`, the five-argument overload (lines 207-314).
`immediate` is `hints.value("immediate").toBool()`, `serviceName` is
`message().service()` and `processName` is what `Utils::processNameFromDBusService`
answers for the caller.  The new job is allocated at address `s.nextPtr`; the
returned object path identifies that job. -/
def requestView (s : Model) (desktopEntry appName appIconName : String) (capabilities : Int)
    (immediate : Bool) (serviceName processName : String) : Model :=
  let highest := if s.m_highestJobId = 0 then wrapInt (s.m_highestJobId + 1) else s.m_highestJobId
  let job : JobPtr := s.nextPtr
  let j0 := Job.create highest
  let j1 := { j0 with desktopEntry := desktopEntry, applicationName := appName,
                      applicationIconName := appIconName }
  let j2 :=
    if j1.applicationName = "" then
      (if processName ≠ "" then { j1 with applicationName := processName } else j1)
    else j1
  let j3 := { j2 with suspendable := decide ((capabilities / 2) % 2 = 1),
                      killable := decide (capabilities % 2 = 1) }
  let s1 := { s with m_highestJobId := wrapInt (highest + 1), nextPtr := job + 1,
                     live := s.live ++ [job], jobs := Function.update s.jobs job j3 }
  let s2 :=
    if immediate then
      let newRow : Int := s1.m_jobViews.length
      let a := s1.emit (Event.jobViewAboutToBeAdded newRow job)
      let b := { a with m_jobViews := a.m_jobViews ++ [job] }
      let c := b.emit (Event.jobViewAdded newRow job)
      updateApplicationPercentage c (c.jobs job).desktopEntry
    else
      { s1 with m_pendingJobViews := s1.m_pendingJobViews ++ [job],
                m_pendingJobViewsTimer :=
                  QTimer.start s1.m_pendingJobViewsTimer s1.now pendingJobViewsInterval }
  { s2 with m_jobServices := QHash.insert s2.m_jobServices job serviceName,
            watchedServices := insert serviceName s2.watchedServices }

/-- The job object that `requestView` has built when it reaches line 298 (lines
217-241): a new `Job` with the id taken from the counter (after the skip of 0), the
given `desktopEntry` and icon name, the given application name or, when that is empty
and the caller's process name is known, the process name, and the two capability
flags. -/
def requestViewJob (s : Model) (desktopEntry appName appIconName : String)
    (capabilities : Int) (processName : String) : Job :=
  { Job.create (if s.m_highestJobId = 0 then wrapInt (s.m_highestJobId + 1)
      else s.m_highestJobId) with
    desktopEntry := desktopEntry
    applicationName := if appName = "" ∧ processName ≠ "" then processName else appName
    applicationIconName := appIconName
    suspendable := decide ((capabilities / 2) % 2 = 1)
    killable := decide (capabilities % 2 = 1) }

/-- The registry when `requestView` with the `immediate` hint reaches its call of
`updateApplicationPercentage` (line 304): the id counter is advanced, the job object
of `requestViewJob` is allocated at `s.nextPtr` and appended to the visible sequence,
and `jobViewAboutToBeAdded` and `jobViewAdded` were emitted for the new row. -/
def requestViewAdmitted (s : Model) (desktopEntry appName appIconName : String)
    (capabilities : Int) (processName : String) : Model :=
  { s with
    m_highestJobId :=
      wrapInt ((if s.m_highestJobId = 0 then wrapInt (s.m_highestJobId + 1)
        else s.m_highestJobId) + 1)
    nextPtr := s.nextPtr + 1
    live := s.live ++ [s.nextPtr]
    jobs := Function.update s.jobs s.nextPtr
      (requestViewJob s desktopEntry appName appIconName capabilities processName)
    m_jobViews := s.m_jobViews ++ [s.nextPtr]
    events := s.events ++
      [Event.jobViewAboutToBeAdded (s.m_jobViews.length : Int) s.nextPtr,
       Event.jobViewAdded (s.m_jobViews.length : Int) s.nextPtr] }

/-- The part of `KService` read by the three-argument `requestView`. -/
structure KService where
  desktopEntryName : String
  name : String
  icon : String
deriving DecidableEq, Repr

/-- `JobsModelPrivate::requestView`, the three-argument (JobViewServer V1) overload
(lines 185-205).  `serviceByStorageId` stands for `KService::serviceByStorageId`. -/
def requestViewV1 (s : Model) (serviceByStorageId : String → Option KService)
    (appName appIconName : String) (capabilities : Int) (serviceName processName : String) :
    Model :=
  let service :=
    match serviceByStorageId appName with
    | some found => some found
    | none => serviceByStorageId ("org.kde." ++ appName)
  match service with
  | some found =>
      requestView s found.desktopEntryName found.name found.icon capabilities false
        serviceName processName
  | none => requestView s "" appName appIconName capabilities false serviceName processName

/-- The error code set on the jobs of a vanished client (`KIO::ERR_SLAVE_DIED`). -/
def errSlaveDied : Int := 127

/-- The error text set on the jobs of a vanished client (the untranslated text). -/
def applicationClosedUnexpectedly : String := "Application closed unexpectedly."

/-- The body of the loop of `onServiceUnregistered` (lines 392-397) for one job. -/
def markFailed (s : Model) (job : JobPtr) : Model :=
  setState (setErrorText (setError s job errSlaveDied) job applicationClosedUnexpectedly) job
    JobState.JobStateStopped

/-- `JobsModelPrivate::onServiceUnregistered` (lines 385-398). -/
def onServiceUnregistered (s : Model) (serviceName : String) : Model :=
  let s1 := { s with watchedServices := s.watchedServices.erase serviceName }
  let jobList := QHash.keys s1.m_jobServices serviceName
  jobList.foldl markFailed s1

/-! ## Definitions used to state the properties -/

/-- The visible jobs that are not stopped (the non-terminal visible jobs). -/
def activeJobs (s : Model) : List JobPtr :=
  s.m_jobViews.filter (fun job => decide ((s.jobs job).state ≠ JobState.JobStateStopped))

/-- The visible jobs that are not stopped and whose display group (`desktopEntry`)
is `groupKey`. -/
def activeJobsOfGroup (s : Model) (groupKey : String) : List JobPtr :=
  s.m_jobViews.filter (fun job =>
    decide ((s.jobs job).state ≠ JobState.JobStateStopped ∧
      (s.jobs job).desktopEntry = groupKey))

/-- The sum of the percentages of the jobs of a list. -/
def percentageSum (s : Model) (jobList : List JobPtr) : Int :=
  (jobList.map (fun job => (s.jobs job).percentage)).sum

/-- The events sent between an earlier state `s` and a later state `t`. -/
def emitted (s t : Model) : List Event :=
  t.events.drop s.events.length

/-- Whether an event is the aggregate broadcast of `updateApplicationPercentage`. -/
def Event.isLauncherEntryUpdate : Event → Bool
  | Event.launcherEntryUpdate _ _ _ _ _ => true
  | _ => false

/-- The signals of the model among a list of events (everything but the aggregate
broadcasts). -/
def viewEvents (events : List Event) : List Event :=
  events.filter (fun e => !e.isLauncherEntryUpdate)

/-- A run of `scheduleUpdate(job, role)` calls, in order. -/
def scheduleUpdates (s : Model) (calls : List (JobPtr × Roles)) : Model :=
  calls.foldl (fun acc call => scheduleUpdate acc call.1 call.2) s

/-- The roles notified for `job` by a run of `scheduleUpdate` calls, in call order. -/
def rolesNotified (calls : List (JobPtr × Roles)) (job : JobPtr) : List Roles :=
  (calls.filter (fun call => decide (call.1 = job))).map Prod.snd

/-- Whether an event is a `jobViewChanged` signal for `job`. -/
def Event.isChangedOf (job : JobPtr) : Event → Bool
  | Event.jobViewChanged _ j _ => decide (j = job)
  | _ => false

/-- The `jobViewChanged` signals for `job` among a list of events. -/
def changedEventsOf (events : List Event) (job : JobPtr) : List Event :=
  events.filter (Event.isChangedOf job)

/-- The dirty-roles map has an entry for `job` that holds `role`. -/
def hasDirtyRole (s : Model) (job : JobPtr) (role : Roles) : Prop :=
  ∃ entry ∈ s.m_pendingDirtyRoles, entry.1 = job ∧ role ∈ entry.2

instance (s : Model) (job : JobPtr) (role : Roles) : Decidable (hasDirtyRole s job role) := by
  unfold hasDirtyRole
  infer_instance

/-- The pending jobs that are not stopped, in enqueue order. -/
def promotedJobs (s : Model) : List JobPtr :=
  s.m_pendingJobViews.filter (fun job => decide ((s.jobs job).state ≠ JobState.JobStateStopped))

/-- For each job of the list in turn one `jobViewAboutToBeAdded(row, job)` followed by
one `jobViewAdded(row, job)`, the rows counting up from `row`. -/
def addedEvents : Nat → List JobPtr → List Event
  | _, [] => []
  | row, job :: rest =>
      Event.jobViewAboutToBeAdded (row : Int) job :: Event.jobViewAdded (row : Int) job ::
        addedEvents (row + 1) rest

/-- The visible sequence, the pending list, the owner map, the watched clients, the
live jobs and the next free address are the same in both states. -/
def sameRegistry (s t : Model) : Prop :=
  t.m_jobViews = s.m_jobViews ∧ t.m_pendingJobViews = s.m_pendingJobViews ∧
  t.m_jobServices = s.m_jobServices ∧ t.watchedServices = s.watchedServices ∧
  t.live = s.live ∧ t.nextPtr = s.nextPtr

instance (s t : Model) : Decidable (sameRegistry s t) := by
  unfold sameRegistry
  infer_instance

/-- From `s` to `t` the registry is the same, every dirty role is kept and an armed
compress timer stays armed. -/
def onlyNotifies (s t : Model) : Prop :=
  sameRegistry s t ∧ (∀ job role, hasDirtyRole s job role → hasDirtyRole t job role) ∧
  (s.m_compressUpdatesTimer.isSome = true → t.m_compressUpdatesTimer.isSome = true)

/-- What `onServiceUnregistered` writes into a job: error 127, the fixed error text and
the stopped state. -/
def Job.failed (j : Job) : Job :=
  { j with error := errSlaveDied, errorText := applicationClosedUnexpectedly,
           state := JobState.JobStateStopped }

/-- A job counts for `jobUrls`: it is not stopped and its destination URL is valid. -/
def hasJobUrl (s : Model) (job : JobPtr) : Bool :=
  decide ((s.jobs job).state ≠ JobState.JobStateStopped) && (s.jobs job).destUrl.isValid

/-- The destination URL of a job as a string. -/
def destUrlString (s : Model) (job : JobPtr) : String :=
  (s.jobs job).destUrl.toString

/-- Some entry of the owner map other than those of `job` has the owner `client`
("another job is still owned by the client once the entry of `job` is taken out"). -/
def ownsAnotherJob (s : Model) (job : JobPtr) (client : String) : Prop :=
  ∃ entry ∈ QHash.remove s.m_jobServices job, entry.2 = client

instance (s : Model) (job : JobPtr) (client : String) :
    Decidable (ownsAnotherJob s job client) := by
  unfold ownsAnotherJob
  infer_instance

/-! ## Reachable states -/

/-- The list invariant of the registry: neither list holds a job twice, every listed
address was allocated, and no job is in both lists. -/
def wellFormed (s : Model) : Prop :=
  s.m_jobViews.Nodup ∧ s.m_pendingJobViews.Nodup ∧
  (∀ job ∈ s.m_jobViews, job < s.nextPtr) ∧
  (∀ job ∈ s.m_pendingJobViews, job < s.nextPtr) ∧
  (∀ job ∈ s.m_pendingJobViews, job ∉ s.m_jobViews)

/-- The states the registry can be in: those built from a fresh registry by
registrations, setter calls on live jobs, the two timer handlers, removals, client
losses and the passing of time. -/
inductive Reachable : Model → Prop where
  | initial (highestJobId : Int) : Reachable (Model.initial highestJobId)
  | requestView {s : Model} (h : Reachable s) (desktopEntry appName appIconName : String)
      (capabilities : Int) (immediate : Bool) (serviceName processName : String) :
      Reachable (requestView s desktopEntry appName appIconName capabilities immediate
        serviceName processName)
  | setState {s : Model} (h : Reachable s) (job : JobPtr) (hl : job ∈ s.live)
      (state : JobState) : Reachable (setState s job state)
  | setPercentage {s : Model} (h : Reachable s) (job : JobPtr) (hl : job ∈ s.live)
      (percentage : Int) : Reachable (setPercentage s job percentage)
  | setError {s : Model} (h : Reachable s) (job : JobPtr) (hl : job ∈ s.live)
      (error : Int) : Reachable (setError s job error)
  | setErrorText {s : Model} (h : Reachable s) (job : JobPtr) (hl : job ∈ s.live)
      (errorText : String) : Reachable (setErrorText s job errorText)
  | setSummary {s : Model} (h : Reachable s) (job : JobPtr) (hl : job ∈ s.live)
      (summary : String) : Reachable (setSummary s job summary)
  | setDestUrl {s : Model} (h : Reachable s) (job : JobPtr) (hl : job ∈ s.live)
      (destUrl : QUrl) : Reachable (setDestUrl s job destUrl)
  | setExpired {s : Model} (h : Reachable s) (job : JobPtr) (hl : job ∈ s.live)
      (expired : Bool) : Reachable (setExpired s job expired)
  | setDismissed {s : Model} (h : Reachable s) (job : JobPtr) (hl : job ∈ s.live)
      (dismissed : Bool) : Reachable (setDismissed s job dismissed)
  | compressUpdatesTimeout {s : Model} (h : Reachable s) :
      Reachable (compressUpdatesTimeout s)
  | pendingJobViewsTimeout {s t : Model} (h : Reachable s)
      (ht : pendingJobViewsTimeout s = some t) : Reachable t
  | removeAt {s t : Model} (h : Reachable s) (row : Int) (ht : removeAt s row = some t) :
      Reachable t
  | remove {s t : Model} (h : Reachable s) (job : JobPtr) (ht : remove s job = some t) :
      Reachable t
  | onServiceUnregistered {s : Model} (h : Reachable s) (serviceName : String) :
      Reachable (onServiceUnregistered s serviceName)
  | advance {s : Model} (h : Reachable s) (dt : Nat) : Reachable (s.advance dt)

/-! ## Example states -/

/-- Two visible running jobs of two different applications, at 20 % and 60 %. -/
def twoApplications : Model :=
  let a := requestView (Model.initial 1) "org.kde.dolphin" "Dolphin" "system-file-manager" 3 true
    ":1.10" ""
  let b := requestView a "org.kde.ark" "Ark" "ark" 3 true ":1.11" ""
  compressUpdatesTimeout (setPercentage (setPercentage b 0 20) 1 60)

/-- Three visible running jobs of one application, at 20 %, 40 % and 60 %. -/
def threeJobs : Model :=
  let a := requestView (Model.initial 1) "org.kde.dolphin" "Dolphin" "system-file-manager" 3 true
    ":1.10" ""
  let b := requestView a "org.kde.dolphin" "Dolphin" "system-file-manager" 3 true ":1.10" ""
  let c := requestView b "org.kde.dolphin" "Dolphin" "system-file-manager" 3 true ":1.10" ""
  setPercentage (setPercentage (setPercentage c 0 20) 1 40) 2 60

/-- The three jobs of `threeJobs` after each of them was stopped. -/
def threeJobsStopped : Model :=
  setState (setState (setState threeJobs 0 JobState.JobStateStopped) 1 JobState.JobStateStopped) 2
    JobState.JobStateStopped

/-- One job, registered without the `immediate` hint and still in the pending list. -/
def onePending : Model :=
  requestView (Model.initial 1) "org.kde.dolphin" "Dolphin" "system-file-manager" 3 false
    ":1.10" ""

/-- A run of notifications on the two visible jobs of `twoApplications`. -/
def mixedCalls : List (JobPtr × Roles) :=
  [(0, Roles.PercentageRole), (1, Roles.BodyRole), (0, Roles.SummaryRole),
   (0, Roles.PercentageRole)]

/-- The job of `onePending` after it reached the stopped state while still in the
pending list. -/
def stoppedWhilePending : Model :=
  setState onePending 0 JobState.JobStateStopped

/-- One visible job and three pending jobs of which the second was stopped. -/
def promotionExample : Model :=
  let a := requestView (Model.initial 1) "org.kde.dolphin" "Dolphin" "system-file-manager" 3 true
    ":1.10" ""
  let b := requestView a "org.kde.ark" "Ark" "ark" 3 false ":1.11" ""
  let c := requestView b "org.kde.ark" "Ark" "ark" 3 false ":1.11" ""
  let d := requestView c "" "wget" "" 1 false ":1.12" ""
  setState d 2 JobState.JobStateStopped

/-- The registry of `onePending` 100 ms after its job was queued: the
pending-admission timer was armed at time 0 and is still running. -/
def armedThenLater : Model :=
  onePending.advance 100

/-- Client `:1.20` owns three jobs (job 0 visible and already stopped with an error of
its own, job 1 visible and running, job 2 pending and running); client `:1.21` owns the
visible running job 3.  No update is waiting to be flushed. -/
def threeOwnedJobs : Model :=
  let a := requestView (Model.initial 1) "org.kde.dolphin" "Dolphin" "system-file-manager" 3 true
    ":1.20" ""
  let b := requestView a "org.kde.dolphin" "Dolphin" "system-file-manager" 3 true ":1.20" ""
  let c := requestView b "org.kde.dolphin" "Dolphin" "system-file-manager" 3 false ":1.20" ""
  let d := requestView c "org.kde.ark" "Ark" "ark" 3 true ":1.21" ""
  let e := setState (setErrorText (setError d 0 1) 0 "Could not read file.") 0
    JobState.JobStateStopped
  compressUpdatesTimeout e

/-- One visible running job with a valid destination URL. -/
def oneVisibleWithUrl : Model :=
  let a := requestView (Model.initial 1) "org.kde.dolphin" "Dolphin" "system-file-manager" 3 true
    ":1.10" ""
  compressUpdatesTimeout
    (setDestUrl a 0 { isValid := true, toString := "file:///home/user/image.iso" })

/-! ## Runs of operations -/

/-- The operations on the registry: a registration, a setter call on a job, the firing
of one of the two timers, a removal, the loss of a client, and time passing. -/
inductive Op where
  | requestView (desktopEntry appName appIconName : String) (capabilities : Int)
      (immediate : Bool) (serviceName processName : String)
  | setState (job : JobPtr) (state : JobState)
  | setPercentage (job : JobPtr) (percentage : Int)
  | setError (job : JobPtr) (error : Int)
  | setErrorText (job : JobPtr) (errorText : String)
  | setSummary (job : JobPtr) (summary : String)
  | setDestUrl (job : JobPtr) (destUrl : QUrl)
  | setExpired (job : JobPtr) (expired : Bool)
  | setDismissed (job : JobPtr) (dismissed : Bool)
  | compressUpdatesTimeout
  | pendingJobViewsTimeout
  | removeAt (row : Int)
  | remove (job : JobPtr)
  | onServiceUnregistered (serviceName : String)
  | advance (dt : Nat)
deriving DecidableEq, Repr

/-- One operation on a state; `none` when the operation cannot be performed there (a
setter call on a job that is not live) or does not return. -/
def applyOp (s : Model) : Op → Option Model
  | Op.requestView desktopEntry appName appIconName capabilities immediate serviceName
      processName =>
      some (requestView s desktopEntry appName appIconName capabilities immediate serviceName
        processName)
  | Op.setState job state => if job ∈ s.live then some (setState s job state) else none
  | Op.setPercentage job percentage =>
      if job ∈ s.live then some (setPercentage s job percentage) else none
  | Op.setError job error => if job ∈ s.live then some (setError s job error) else none
  | Op.setErrorText job errorText =>
      if job ∈ s.live then some (setErrorText s job errorText) else none
  | Op.setSummary job summary => if job ∈ s.live then some (setSummary s job summary) else none
  | Op.setDestUrl job destUrl => if job ∈ s.live then some (setDestUrl s job destUrl) else none
  | Op.setExpired job expired => if job ∈ s.live then some (setExpired s job expired) else none
  | Op.setDismissed job dismissed =>
      if job ∈ s.live then some (setDismissed s job dismissed) else none
  | Op.compressUpdatesTimeout => some (compressUpdatesTimeout s)
  | Op.pendingJobViewsTimeout => pendingJobViewsTimeout s
  | Op.removeAt row => removeAt s row
  | Op.remove job => remove s job
  | Op.onServiceUnregistered serviceName => some (onServiceUnregistered s serviceName)
  | Op.advance dt => some (s.advance dt)

/-- A run of operations, in order. -/
def run : Model → List Op → Option Model
  | s, [] => some s
  | s, op :: rest =>
      match applyOp s op with
      | none => none
      | some t => run t rest

/-- Whether an operation is a `requestView` call. -/
def Op.isRequestView : Op → Bool
  | Op.requestView _ _ _ _ _ _ _ => true
  | _ => false

/-- The number of `requestView` calls in a run. -/
def requestCount (ops : List Op) : Nat :=
  (ops.filter Op.isRequestView).length

/-- A job is registered without the `immediate` hint, stops while it is pending, and
the pending-admission timer expires. -/
def stoppedBeforeExpiry : List Op :=
  [Op.requestView "org.kde.dolphin" "Dolphin" "system-file-manager" 3 false ":1.10" "",
   Op.setState 0 JobState.JobStateStopped,
   Op.pendingJobViewsTimeout]

/-! ## Invariants kept along runs -/

/-- From `s` to `t` no job was created and no id was rewritten: the next free address,
the id counter and the id of every job object are the same. -/
def keepsIds (s t : Model) : Prop :=
  t.nextPtr = s.nextPtr ∧ t.m_highestJobId = s.m_highestJobId ∧
  ∀ p, (t.jobs p).id = (s.jobs p).id

/-- The ids issued so far, in a registry whose `nextPtr`-th job is the next to be
created: before the first `requestView` the counter is 0 or 1; afterwards, below the
overflow of `int`, the counter is one more than the number of jobs created; and the
job created by the call number `p + 1` (at address `p`) has the id `p + 1`. -/
def idsIssued (s : Model) : Prop :=
  ((s.nextPtr = 0 ∧ (s.m_highestJobId = 0 ∨ s.m_highestJobId = 1)) ∨
    (0 < s.nextPtr ∧
      ((s.nextPtr : Int) + 1 < 2147483648 → s.m_highestJobId = (s.nextPtr : Int) + 1))) ∧
  ∀ p, p < s.nextPtr → (p : Int) + 1 < 2147483648 → (s.jobs p).id = (p : Int) + 1

/-- From `s` to `t` the dirty-roles map gained entries for `job` at most: every key of
the map of `t` is `job` or a key of the map of `s`. -/
def dirtiesOnly (s t : Model) (job : JobPtr) : Prop :=
  ∀ k ∈ t.m_pendingDirtyRoles.map Prod.fst, k = job ∨ k ∈ s.m_pendingDirtyRoles.map Prod.fst

/-- The bookkeeping invariant of the live jobs: no address is live twice, every live
address was allocated, and the owner map and the dirty-roles map have entries for live
jobs only. -/
def liveInvariant (s : Model) : Prop :=
  s.live.Nodup ∧ (∀ job ∈ s.live, job < s.nextPtr) ∧
  (∀ entry ∈ s.m_jobServices, entry.1 ∈ s.live) ∧
  (∀ entry ∈ s.m_pendingDirtyRoles, entry.1 ∈ s.live)

/-- A job is registered without the `immediate` hint and its percentage changes while
it is still in the pending list. -/
def percentageWhilePending : List Op :=
  [Op.requestView "org.kde.dolphin" "Dolphin" "system-file-manager" 3 false ":1.10" "",
   Op.setPercentage 0 50]

/-! # Theorems -/

/-! ## Aggregate progress of an application -/

theorem wrapInt_of_range (x : Int) (h0 : -2147483648 ≤ x) (h1 : x < 2147483648) :
    wrapInt x = x := by
  unfold wrapInt
  omega

/-- Without overflow the loop of `updateApplicationPercentage` adds up the
percentages of the non-stopped jobs of the list and counts them. -/
theorem percentageLoop_eq (s : Model) (l : List JobPtr) (acc : Int × Int)
    (hr : ∀ job ∈ l, 0 ≤ (s.jobs job).percentage ∧ (s.jobs job).percentage ≤ 100)
    (h1 : 0 ≤ acc.1) (h2 : 0 ≤ acc.2)
    (hb1 : acc.1 + 100 * (l.length : Int) < 2147483648)
    (hb2 : acc.2 + (l.length : Int) < 2147483648) :
    l.foldl (percentageStep s) acc =
      (acc.1 + percentageSum s
          (l.filter (fun job => decide ((s.jobs job).state ≠ JobState.JobStateStopped))),
       acc.2 + ((l.filter (fun job =>
          decide ((s.jobs job).state ≠ JobState.JobStateStopped))).length : Int)) := by
  induction l generalizing acc with
  | nil => simp [percentageSum]
  | cons job rest ih =>
    have hj := hr job (List.mem_cons_self _ _)
    have hrest : ∀ x ∈ rest, 0 ≤ (s.jobs x).percentage ∧ (s.jobs x).percentage ≤ 100 :=
      fun x hx => hr x (List.mem_cons_of_mem _ hx)
    simp only [List.length_cons, Nat.cast_add, Nat.cast_one] at hb1 hb2
    rw [List.foldl_cons]
    by_cases hst : (s.jobs job).state = JobState.JobStateStopped
    · have hstep : percentageStep s acc job = acc := by simp [percentageStep, hst]
      rw [hstep, ih acc hrest h1 h2 (by omega) (by omega)]
      simp [List.filter_cons, hst]
    · have hstep : percentageStep s acc job =
          (acc.1 + (s.jobs job).percentage, acc.2 + 1) := by
        simp only [percentageStep, ne_eq, hst, not_false_eq_true, if_true]
        rw [wrapInt_of_range _ (by omega) (by omega), wrapInt_of_range _ (by omega) (by omega)]
      rw [hstep, ih _ hrest (by simp only; omega) (by simp only; omega)
        (by simp only; omega) (by simp only; omega)]
      simp only [List.filter_cons, ne_eq, hst, not_false_eq_true, decide_True, if_true,
        percentageSum, List.map_cons, List.sum_cons, List.length_cons, Nat.cast_add,
        Nat.cast_one, Prod.mk.injEq]
      constructor <;> ring

/-- The sum of percentages in the range 0..100 is between 0 and 100 times the number
of jobs. -/
theorem percentageSum_bounds (s : Model) (l : List JobPtr)
    (hr : ∀ job ∈ l, 0 ≤ (s.jobs job).percentage ∧ (s.jobs job).percentage ≤ 100) :
    0 ≤ percentageSum s l ∧ percentageSum s l ≤ 100 * (l.length : Int) := by
  induction l with
  | nil => simp [percentageSum]
  | cons job rest ih =>
    have hj := hr job (List.mem_cons_self _ _)
    have := ih (fun x hx => hr x (List.mem_cons_of_mem _ hx))
    simp only [percentageSum, List.map_cons, List.sum_cons, List.length_cons, Nat.cast_add,
      Nat.cast_one] at *
    omega

/-- C1 (the code departs from the claim): with one running job of `org.kde.dolphin` at
20 % and one running job of `org.kde.ark` at 60 % visible, exactly one non-stopped
visible job has the group key `org.kde.dolphin` and the percentages of that group sum
to 20, yet `updateApplicationPercentage("org.kde.dolphin")` broadcasts count 2 and
percentage 40: the job of the other group is counted and summed too. -/
theorem updateApplicationPercentage_mixes_groups :
    activeJobsOfGroup twoApplications "org.kde.dolphin" = [0] ∧
    percentageSum twoApplications (activeJobsOfGroup twoApplications "org.kde.dolphin") = 20 ∧
    emitted twoApplications (updateApplicationPercentage twoApplications "org.kde.dolphin") =
      [Event.launcherEntryUpdate "application://org.kde.dolphin" true 2 true 40] := by
  decide

/-- What `updateApplicationPercentage` sends for a non-empty group key when the
percentages are in the range 0..100 and `int` does not overflow: the count and the
truncated average of all non-stopped visible jobs. -/
theorem updateApplicationPercentage_eq (s : Model) (g : String) (hg : g ≠ "")
    (hrange : ∀ job ∈ s.m_jobViews,
      0 ≤ (s.jobs job).percentage ∧ (s.jobs job).percentage ≤ 100)
    (hlen : s.m_jobViews.length ≤ 21474836) :
    updateApplicationPercentage s g =
      s.emit (Event.launcherEntryUpdate ("application://" ++ g)
        (decide (0 < (activeJobs s).length)) ((activeJobs s).length : Int)
        (decide (0 < (activeJobs s).length))
        (percentageSum s (activeJobs s) / ((activeJobs s).length : Int))) := by
  have hloop := percentageLoop_eq s s.m_jobViews (0, 0) hrange (le_refl _) (le_refl _)
    (by simp only; omega) (by simp only; omega)
  have hsum := percentageSum_bounds s (activeJobs s)
    (fun job hjob => hrange job (List.mem_of_mem_filter hjob))
  simp only [zero_add] at hloop
  unfold updateApplicationPercentage
  rw [if_neg hg]
  simp only [hloop]
  change (s.emit (Event.launcherEntryUpdate ("application://" ++ g)
        (decide (((activeJobs s).length : Int) > 0)) ((activeJobs s).length : Int)
        (decide (((activeJobs s).length : Int) > 0))
        (if ((activeJobs s).length : Int) > 0 then
          Int.tdiv (percentageSum s (activeJobs s)) ((activeJobs s).length : Int) else 0))) = _
  by_cases hpos : 0 < (activeJobs s).length
  · have hposInt : ((activeJobs s).length : Int) > 0 := by exact_mod_cast hpos
    rw [if_pos hposInt, Int.tdiv_eq_ediv hsum.1 (le_of_lt hposInt)]
    simp [hpos]
  · have hzero : (activeJobs s).length = 0 := by omega
    simp [hzero]

/-- C2: when every visible job has the non-empty group key `g` (percentages in the
documented range 0..100, no `int` overflow), `updateApplicationPercentage(g)` sends
exactly one broadcast for `g`; with at least one non-stopped visible job it carries
count-visible = true, progress-visible = true, count = the number of non-stopped
visible jobs and percentage = floor(sum of their percentages / count); with no
non-stopped visible job it carries count-visible = false, progress-visible = false,
count = 0 and percentage 0 (progress 0). -/
theorem updateApplicationPercentage_single_group (s : Model) (g : String) (hg : g ≠ "")
    (_hgroup : ∀ job ∈ s.m_jobViews, (s.jobs job).desktopEntry = g)
    (hrange : ∀ job ∈ s.m_jobViews,
      0 ≤ (s.jobs job).percentage ∧ (s.jobs job).percentage ≤ 100)
    (hlen : s.m_jobViews.length ≤ 21474836) :
    (activeJobs s ≠ [] →
      updateApplicationPercentage s g =
        s.emit (Event.launcherEntryUpdate ("application://" ++ g) true
          ((activeJobs s).length : Int) true
          ⌊((percentageSum s (activeJobs s) : Int) : ℚ) /
            (((activeJobs s).length : Nat) : ℚ)⌋)) ∧
    (activeJobs s = [] →
      updateApplicationPercentage s g =
        s.emit (Event.launcherEntryUpdate ("application://" ++ g) false 0 false 0)) := by
  have h := updateApplicationPercentage_eq s g hg hrange hlen
  constructor
  · intro hne
    have hpos : 0 < (activeJobs s).length := List.length_pos.mpr hne
    rw [h, Rat.floor_intCast_div_natCast]
    simp [hpos]
  · intro hnil
    rw [h, hnil]
    simp

/-- C2 at the documented example: three running jobs of one application at 20 %,
40 % and 60 % give count 3 and percentage 40; once all three are stopped the
broadcast carries count-visible = false, count 0 and percentage 0. -/
theorem updateApplicationPercentage_single_group_witness :
    updateApplicationPercentage threeJobs "org.kde.dolphin" =
      threeJobs.emit (Event.launcherEntryUpdate "application://org.kde.dolphin" true 3 true 40) ∧
    updateApplicationPercentage threeJobsStopped "org.kde.dolphin" =
      threeJobsStopped.emit
        (Event.launcherEntryUpdate "application://org.kde.dolphin" false 0 false 0) := by
  constructor
  · have h := (updateApplicationPercentage_single_group threeJobs "org.kde.dolphin"
      (by decide) (by decide) (by decide) (by decide)).1 (by decide)
    have hlen : (activeJobs threeJobs).length = 3 := by decide
    have hsum : percentageSum threeJobs (activeJobs threeJobs) = 120 := by decide
    have huri : "application://" ++ "org.kde.dolphin" = "application://org.kde.dolphin" := by
      decide
    rw [h, hlen, hsum, huri]
    norm_num
  · exact (updateApplicationPercentage_single_group threeJobsStopped "org.kde.dolphin"
      (by decide) (by decide) (by decide) (by decide)).2 (by decide)

/-! ## Frame lemmas -/

theorem updateApplicationPercentage_frame (u : Model) (g : String) :
    ∃ E, updateApplicationPercentage u g = { u with events := u.events ++ E } ∧
      ∀ e ∈ E, e.isLauncherEntryUpdate = true := by
  unfold updateApplicationPercentage
  by_cases hg : g = ""
  · exact ⟨[], by simp [hg], by simp⟩
  · rw [if_neg hg]
    exact ⟨[_], rfl, by simp [Event.isLauncherEntryUpdate]⟩

theorem indexOf_eq_neg_one_iff (l : List JobPtr) (job : JobPtr) :
    indexOf l job = -1 ↔ job ∉ l := by
  unfold indexOf
  by_cases h : job ∈ l
  · simp only [h, if_true, not_true_eq_false, iff_false]
    omega
  · simp [h]

theorem changedEventsOf_launcher (E : List Event) (job : JobPtr)
    (h : ∀ e ∈ E, e.isLauncherEntryUpdate = true) : changedEventsOf E job = [] := by
  unfold changedEventsOf
  rw [List.filter_eq_nil_iff]
  intro e he
  have := h e he
  cases e <;> simp_all [Event.isLauncherEntryUpdate, Event.isChangedOf]

theorem changedEventsOf_append (E F : List Event) (job : JobPtr) :
    changedEventsOf (E ++ F) job = changedEventsOf E job ++ changedEventsOf F job := by
  simp [changedEventsOf]

theorem emitted_of_events_eq (s t : Model) (E : List Event) (h : t.events = s.events ++ E) :
    emitted s t = E := by
  simp [emitted, h]

/-! ## Coalescing of updates -/

/-- One iteration of the flush loop only appends events; among them is one
`jobViewChanged` for the entry's job when that job is visible, and none otherwise. -/
theorem compressUpdatesStep_spec (u : Model) (entry : JobPtr × List Roles) :
    ∃ E, compressUpdatesStep u entry = { u with events := u.events ++ E } ∧
      ∀ job, changedEventsOf E job =
        if entry.1 = job ∧ job ∈ u.m_jobViews then
          [Event.jobViewChanged (indexOf u.m_jobViews job) job entry.2]
        else [] := by
  unfold compressUpdatesStep
  by_cases hrow : indexOf u.m_jobViews entry.1 = -1
  · refine ⟨[], by simp [hrow], ?_⟩
    intro job
    have hnot := (indexOf_eq_neg_one_iff _ _).1 hrow
    have : ¬ (entry.1 = job ∧ job ∈ u.m_jobViews) := by
      rintro ⟨rfl, hmem⟩
      exact hnot hmem
    simp [this, changedEventsOf]
  · have hmem : entry.1 ∈ u.m_jobViews := by
      by_contra hc
      exact hrow ((indexOf_eq_neg_one_iff _ _).2 hc)
    simp only [hrow, if_false]
    have hchanged : ∀ job, changedEventsOf
        [Event.jobViewChanged (indexOf u.m_jobViews entry.1) entry.1 entry.2] job =
        if entry.1 = job ∧ job ∈ u.m_jobViews then
          [Event.jobViewChanged (indexOf u.m_jobViews job) job entry.2]
        else [] := by
      intro job
      by_cases hj : entry.1 = job
      · subst hj
        simp [changedEventsOf, Event.isChangedOf, hmem]
      · simp [changedEventsOf, Event.isChangedOf, hj]
    by_cases hp : Roles.PercentageRole ∈ entry.2
    · simp only [hp, if_true]
      obtain ⟨F, hF, hFl⟩ := updateApplicationPercentage_frame
        (u.emit (Event.jobViewChanged (indexOf u.m_jobViews entry.1) entry.1 entry.2))
        (((u.emit (Event.jobViewChanged (indexOf u.m_jobViews entry.1) entry.1
          entry.2)).jobs entry.1).desktopEntry)
      refine ⟨[Event.jobViewChanged (indexOf u.m_jobViews entry.1) entry.1 entry.2] ++ F,
        ?_, ?_⟩
      · rw [hF]
        simp [Model.emit]
      · intro job
        rw [changedEventsOf_append, hchanged job, changedEventsOf_launcher F job hFl]
        simp
    · simp only [hp, if_false]
      exact ⟨[Event.jobViewChanged (indexOf u.m_jobViews entry.1) entry.1 entry.2],
        by simp [Model.emit], hchanged⟩

theorem lookup_cons_eq {V : Type} (job k : JobPtr) (v : V) (rest : List (JobPtr × V)) :
    List.lookup job ((k, v) :: rest) = if job = k then some v else rest.lookup job := by
  by_cases h : job = k
  · subst h
    simp [List.lookup_cons]
  · have hb : (job == k) = false := by simpa using h
    simp [List.lookup_cons, hb, h]

/-- The flush loop over a dirty-roles map with unique keys only appends events; for
each job they hold one `jobViewChanged` when the job has an entry and is visible, and
none otherwise. -/
theorem compressUpdatesLoop_spec (D : List (JobPtr × List Roles)) (u : Model)
    (hD : (D.map Prod.fst).Nodup) :
    ∃ E, D.foldl compressUpdatesStep u = { u with events := u.events ++ E } ∧
      ∀ job, changedEventsOf E job =
        match D.lookup job with
        | some roles =>
            if job ∈ u.m_jobViews then
              [Event.jobViewChanged (indexOf u.m_jobViews job) job roles]
            else []
        | none => [] := by
  induction D generalizing u with
  | nil => exact ⟨[], by simp, by simp [changedEventsOf]⟩
  | cons entry rest ih =>
    obtain ⟨k, roles⟩ := entry
    simp only [List.map_cons, List.nodup_cons] at hD
    obtain ⟨E1, hE1, hc1⟩ := compressUpdatesStep_spec u (k, roles)
    obtain ⟨E2, hE2, hc2⟩ := ih { u with events := u.events ++ E1 } hD.2
    refine ⟨E1 ++ E2, ?_, ?_⟩
    · rw [List.foldl_cons, hE1, hE2]
      simp
    · intro job
      rw [changedEventsOf_append, hc1 job, hc2 job]
      by_cases hj : k = job
      · subst hj
        have hnone : rest.lookup k = none := by
          rw [List.lookup_eq_none_iff]
          intro e he
          simp only [bne_iff_ne, ne_eq]
          intro hk
          apply hD.1
          rw [hk]
          exact List.mem_map_of_mem _ he
        simp [lookup_cons_eq, hnone]
      · have hne : ¬ job = k := fun h => hj h.symm
        simp [lookup_cons_eq, hne, hj]

theorem appendRole_keys (D : List (JobPtr × List Roles)) (k : JobPtr) (r : Roles) :
    (QHash.appendRole D k r).map Prod.fst =
      if k ∈ D.map Prod.fst then D.map Prod.fst else D.map Prod.fst ++ [k] := by
  induction D with
  | nil => simp [QHash.appendRole]
  | cons entry rest ih =>
    obtain ⟨k', roles⟩ := entry
    by_cases h : k' = k
    · simp [QHash.appendRole, h]
    · have h' : ¬ k = k' := fun e => h e.symm
      simp only [QHash.appendRole, h, if_false, List.map_cons, ih, List.mem_cons, h', false_or]
      split <;> simp

theorem appendRole_lookup (D : List (JobPtr × List Roles)) (k : JobPtr) (r : Roles)
    (job : JobPtr) :
    (QHash.appendRole D k r).lookup job =
      if job = k then some ((D.lookup k).getD [] ++ [r]) else D.lookup job := by
  induction D with
  | nil =>
    by_cases h : job = k
    · simp [QHash.appendRole, lookup_cons_eq, h]
    · simp [QHash.appendRole, lookup_cons_eq, h]
  | cons entry rest ih =>
    obtain ⟨k', roles⟩ := entry
    by_cases h : k' = k
    · subst h
      by_cases hj : job = k'
      · simp [QHash.appendRole, lookup_cons_eq, hj]
      · simp [QHash.appendRole, lookup_cons_eq, hj]
    · have h' : ¬ k = k' := fun e => h e.symm
      by_cases hj : job = k'
      · subst hj
        simp [QHash.appendRole, lookup_cons_eq, h]
      · simp [QHash.appendRole, lookup_cons_eq, h, h', hj, ih]

theorem scheduleUpdates_frame (s : Model) (calls : List (JobPtr × Roles)) :
    (scheduleUpdates s calls).m_jobViews = s.m_jobViews ∧
    (scheduleUpdates s calls).events = s.events ∧
    (scheduleUpdates s calls).jobs = s.jobs ∧
    (scheduleUpdates s calls).m_pendingDirtyRoles =
      calls.foldl (fun d call => QHash.appendRole d call.1 call.2) s.m_pendingDirtyRoles := by
  unfold scheduleUpdates
  induction calls generalizing s with
  | nil => simp
  | cons call rest ih =>
    simp only [List.foldl_cons]
    obtain ⟨h1, h2, h3, h4⟩ := ih (scheduleUpdate s call.1 call.2)
    exact ⟨h1, h2, h3, h4⟩

/-- The dirty-roles map built from the empty map by a run of `scheduleUpdate` calls
has unique keys and maps each notified job to its notified roles, in call order. -/
theorem appendRoles_spec (calls : List (JobPtr × Roles)) :
    ((calls.foldl (fun d call => QHash.appendRole d call.1 call.2) []).map Prod.fst).Nodup ∧
    (∀ job,
      job ∈ (calls.foldl (fun d call => QHash.appendRole d call.1 call.2) []).map Prod.fst ↔
      job ∈ calls.map Prod.fst) ∧
    ∀ job, (calls.foldl (fun d call => QHash.appendRole d call.1 call.2) []).lookup job =
      if job ∈ calls.map Prod.fst then some (rolesNotified calls job) else none := by
  induction calls using List.reverseRecOn with
  | nil => simp
  | append_singleton init call ih =>
    obtain ⟨hnd, hkeys, hlook⟩ := ih
    obtain ⟨k, r⟩ := call
    simp only [List.foldl_append, List.foldl_cons, List.foldl_nil]
    refine ⟨?_, ?_, ?_⟩
    · rw [appendRole_keys]
      split
      · exact hnd
      · rename_i hk
        rw [List.nodup_append]
        exact ⟨hnd, by simp, by simpa using hk⟩
    · intro job
      rw [appendRole_keys]
      split
      · rename_i hk
        have hk' := (hkeys k).1 hk
        constructor
        · intro h
          have := (hkeys job).1 h
          simp only [List.map_append, List.mem_append]
          exact Or.inl this
        · intro h
          simp only [List.map_append, List.mem_append, List.map_cons, List.map_nil,
            List.mem_singleton] at h
          rcases h with h | h
          · exact (hkeys job).2 h
          · rw [h]; exact hk
      · simp only [List.map_append, List.mem_append, List.map_cons, List.map_nil,
          List.mem_singleton]
        rw [hkeys job]
    · intro job
      rw [appendRole_lookup]
      by_cases hj : job = k
      · subst hj
        rw [hlook job]
        by_cases hin : job ∈ init.map Prod.fst
        · simp [hin, rolesNotified]
        · have hnil : rolesNotified init job = [] := by
            simp only [rolesNotified, List.map_eq_nil_iff, List.filter_eq_nil_iff]
            intro e he
            simp only [decide_eq_true_eq]
            intro hej
            apply hin
            rw [← hej]
            exact List.mem_map_of_mem _ he
          simp only [rolesNotified] at hnil
          simp [hin, rolesNotified, hnil]
      · rw [hlook job]
        have hk : ¬ k = job := fun e => hj e.symm
        have hiff : job ∈ List.map Prod.fst (init ++ [(k, r)]) ↔
            job ∈ List.map Prod.fst init := by
          simp [hj]
        by_cases hin : job ∈ List.map Prod.fst init
        · simp [hj, hk, rolesNotified, hin, hiff.2 hin]
        · have hin' : job ∉ List.map Prod.fst (init ++ [(k, r)]) := fun h => hin (hiff.1 h)
          rw [if_neg hin, if_neg hj, if_neg hin']

/-- The events of a flush after a run of `scheduleUpdate` calls on a registry whose
dirty-roles map was empty. -/
theorem compressUpdatesTimeout_after_calls (s : Model) (calls : List (JobPtr × Roles))
    (hclean : s.m_pendingDirtyRoles = []) :
    (compressUpdatesTimeout (scheduleUpdates s calls)).m_pendingDirtyRoles = [] ∧
    ∀ job, changedEventsOf (emitted (scheduleUpdates s calls)
        (compressUpdatesTimeout (scheduleUpdates s calls))) job =
      if job ∈ calls.map Prod.fst ∧ job ∈ s.m_jobViews then
        [Event.jobViewChanged (indexOf s.m_jobViews job) job (rolesNotified calls job)]
      else [] := by
  obtain ⟨hv, _, _, hd⟩ := scheduleUpdates_frame s calls
  rw [hclean] at hd
  obtain ⟨hnd, _, hlook⟩ := appendRoles_spec calls
  rw [← hd] at hnd hlook
  obtain ⟨E, hE, hc⟩ := compressUpdatesLoop_spec (scheduleUpdates s calls).m_pendingDirtyRoles
    { scheduleUpdates s calls with m_compressUpdatesTimer := none } hnd
  have hflush : compressUpdatesTimeout (scheduleUpdates s calls) =
      { scheduleUpdates s calls with
        m_compressUpdatesTimer := none
        events := (scheduleUpdates s calls).events ++ E
        m_pendingDirtyRoles := [] } := by
    unfold compressUpdatesTimeout
    simp only [hE]
  refine ⟨by rw [hflush], ?_⟩
  intro job
  rw [emitted_of_events_eq _ _ E (by rw [hflush]), hc job, hlook job]
  simp only [hv]
  by_cases h1 : job ∈ calls.map Prod.fst
  · by_cases h2 : job ∈ s.m_jobViews
    · simp [h1, h2]
    · simp [h1, h2]
  · simp [h1]

theorem mem_rolesNotified (calls : List (JobPtr × Roles)) (job : JobPtr) (role : Roles) :
    role ∈ rolesNotified calls job ↔ (job, role) ∈ calls := by
  unfold rolesNotified
  simp only [List.mem_map, List.mem_filter, decide_eq_true_eq]
  constructor
  · rintro ⟨⟨j, r⟩, ⟨hmem, hj⟩, hr⟩
    simp only at hj hr
    rw [← hj, ← hr]
    exact hmem
  · intro h
    exact ⟨(job, role), ⟨h, rfl⟩, rfl⟩

/-- C3 (amended): after any run of `scheduleUpdate(job, role)` calls on a registry
whose dirty-roles map was empty (the state left by the previous flush), the flush
emits, for every job that was notified and is in the visible sequence, exactly one
`jobViewChanged` signal, carrying the job's row and exactly the roles notified for that
job (as a set: their union); it emits no `jobViewChanged` for a job that is not in the
visible sequence (such as a job still in the pending list) nor for a job that was not
notified; and the dirty-roles map is empty afterwards. -/
theorem compressUpdatesTimeout_coalesces (s : Model) (calls : List (JobPtr × Roles))
    (hclean : s.m_pendingDirtyRoles = []) (job : JobPtr) :
    (job ∈ calls.map Prod.fst → job ∈ s.m_jobViews →
      ∃ roles,
        changedEventsOf (emitted (scheduleUpdates s calls)
          (compressUpdatesTimeout (scheduleUpdates s calls))) job =
          [Event.jobViewChanged (indexOf s.m_jobViews job) job roles] ∧
        (∀ role, role ∈ roles ↔ (job, role) ∈ calls) ∧
        roles = rolesNotified calls job) ∧
    (job ∉ s.m_jobViews →
      changedEventsOf (emitted (scheduleUpdates s calls)
        (compressUpdatesTimeout (scheduleUpdates s calls))) job = []) ∧
    (job ∉ calls.map Prod.fst →
      changedEventsOf (emitted (scheduleUpdates s calls)
        (compressUpdatesTimeout (scheduleUpdates s calls))) job = []) ∧
    (compressUpdatesTimeout (scheduleUpdates s calls)).m_pendingDirtyRoles = [] := by
  obtain ⟨hempty, hev⟩ := compressUpdatesTimeout_after_calls s calls hclean
  refine ⟨?_, ?_, ?_, hempty⟩
  · intro h1 h2
    refine ⟨rolesNotified calls job, ?_, fun role => mem_rolesNotified calls job role, rfl⟩
    rw [hev job, if_pos ⟨h1, h2⟩]
  · intro h2
    rw [hev job, if_neg (fun h => h2 h.2)]
  · intro h1
    rw [hev job, if_neg (fun h => h1 h.1)]

/-- C3 (amended) at an example: four notifications with mixed roles on two visible
jobs give one `jobViewChanged` for job 0, at row 0, with the three roles notified for
it. -/
theorem compressUpdatesTimeout_coalesces_witness :
    twoApplications.m_pendingDirtyRoles = [] ∧
    ∃ roles,
      changedEventsOf (emitted (scheduleUpdates twoApplications mixedCalls)
        (compressUpdatesTimeout (scheduleUpdates twoApplications mixedCalls))) 0 =
        [Event.jobViewChanged (indexOf twoApplications.m_jobViews 0) 0 roles] ∧
      (∀ role, role ∈ roles ↔ ((0 : JobPtr), role) ∈ mixedCalls) ∧
      roles = rolesNotified mixedCalls 0 :=
  ⟨by decide,
   (compressUpdatesTimeout_coalesces twoApplications mixedCalls (by decide) 0).1
     (by decide) (by decide)⟩

/-- C3 (counterexample): a job that is still in the pending list is notified once
(`scheduleUpdate(job, PercentageRole)`) on a registry with an empty dirty-roles map;
the following flush emits nothing at all, so no `jobViewChanged` is emitted for the
affected job. -/
theorem compressUpdatesTimeout_skips_pending_job :
    onePending.m_pendingDirtyRoles = [] ∧
    onePending.m_pendingJobViews = [0] ∧
    (scheduleUpdates onePending [(0, Roles.PercentageRole)]).m_pendingDirtyRoles =
      [(0, [Roles.PercentageRole])] ∧
    emitted (scheduleUpdates onePending [(0, Roles.PercentageRole)])
      (compressUpdatesTimeout (scheduleUpdates onePending [(0, Roles.PercentageRole)])) = [] := by
  decide

/-! ## Expiry of the pending-admission timer -/

/-- C4 (the code departs from the claim): a job registered without the `immediate`
hint is stopped before the pending-admission timer expires.  At expiry no event is
emitted for it and it does not enter the visible sequence, as claimed; but
`remove(job)` looks the job up in the visible sequence only, finds nothing and
returns, so after the expiry the job still has its entry in the owner map
(`m_jobServices`), its client is still watched and the job was not deleted (it is
still live), although it is in neither list. -/
theorem pendingJobViewsTimeout_keeps_stopped_job :
    stoppedWhilePending.m_pendingJobViews = [0] ∧
    (stoppedWhilePending.jobs 0).state = JobState.JobStateStopped ∧
    (pendingJobViewsTimeout stoppedWhilePending).map (emitted stoppedWhilePending) = some [] ∧
    (pendingJobViewsTimeout stoppedWhilePending).map Model.m_jobViews = some [] ∧
    (pendingJobViewsTimeout stoppedWhilePending).map Model.m_pendingJobViews = some [] ∧
    (pendingJobViewsTimeout stoppedWhilePending).map Model.m_jobServices = some [(0, ":1.10")] ∧
    (pendingJobViewsTimeout stoppedWhilePending).map Model.live = some [0] ∧
    (pendingJobViewsTimeout stoppedWhilePending).map Model.watchedServices = some {":1.10"} := by
  decide

theorem viewEvents_append (E F : List Event) :
    viewEvents (E ++ F) = viewEvents E ++ viewEvents F := by
  simp [viewEvents]

theorem viewEvents_launcher (E : List Event) (h : ∀ e ∈ E, e.isLauncherEntryUpdate = true) :
    viewEvents E = [] := by
  unfold viewEvents
  rw [List.filter_eq_nil_iff]
  intro e he
  simp [h e he]

theorem remove_of_not_mem (u : Model) (job : JobPtr) (h : job ∉ u.m_jobViews) :
    remove u job = some u := by
  unfold remove
  simp [(indexOf_eq_neg_one_iff _ _).2 h]

/-- The loop of the pending-admission handler appends the non-stopped jobs of its list
to the visible sequence and sends their add signals, provided no stopped job of the
list is visible. -/
theorem pendingJobViewsLoop_spec (L : List JobPtr) (u : Model)
    (h : ∀ job ∈ L, (u.jobs job).state = JobState.JobStateStopped → job ∉ u.m_jobViews) :
    ∃ E, pendingJobViewsLoop u L =
        some { u with
          m_jobViews := u.m_jobViews ++
            L.filter (fun job => decide ((u.jobs job).state ≠ JobState.JobStateStopped))
          events := u.events ++ E } ∧
      viewEvents E = addedEvents u.m_jobViews.length
        (L.filter (fun job => decide ((u.jobs job).state ≠ JobState.JobStateStopped))) := by
  induction L generalizing u with
  | nil => exact ⟨[], by simp [pendingJobViewsLoop], by simp [viewEvents, addedEvents]⟩
  | cons job rest ih =>
    have hrest : ∀ x ∈ rest,
        (u.jobs x).state = JobState.JobStateStopped → x ∉ u.m_jobViews :=
      fun x hx => h x (List.mem_cons_of_mem _ hx)
    by_cases hst : (u.jobs job).state = JobState.JobStateStopped
    · have hstep : pendingJobViewsStep u job = some u := by
        unfold pendingJobViewsStep
        rw [if_pos hst]
        exact remove_of_not_mem u job (h job (List.mem_cons_self _ _) hst)
      obtain ⟨E, hE, hv⟩ := ih u hrest
      refine ⟨E, ?_, ?_⟩
      · simp only [pendingJobViewsLoop, hstep, hE]
        simp [List.filter_cons, hst]
      · rw [hv]
        simp [List.filter_cons, hst]
    · obtain ⟨F, hF, hFl⟩ := updateApplicationPercentage_frame
        ({ u.emit (Event.jobViewAboutToBeAdded (u.m_jobViews.length : Int) job) with
            m_jobViews := u.m_jobViews ++ [job] }.emit
          (Event.jobViewAdded (u.m_jobViews.length : Int) job))
        (u.jobs job).desktopEntry
      have hstep : pendingJobViewsStep u job =
          some { u with
            m_jobViews := u.m_jobViews ++ [job]
            events := u.events ++ ([Event.jobViewAboutToBeAdded (u.m_jobViews.length : Int) job,
              Event.jobViewAdded (u.m_jobViews.length : Int) job] ++ F) } := by
        unfold pendingJobViewsStep
        rw [if_neg hst]
        simp only [Model.emit] at hF ⊢
        rw [hF]
        simp
      have hrest' : ∀ x ∈ rest, (u.jobs x).state = JobState.JobStateStopped →
          x ∉ u.m_jobViews ++ [job] := by
        intro x hx hxs hmem
        rcases List.mem_append.1 hmem with hm | hm
        · exact hrest x hx hxs hm
        · have : x = job := by simpa using hm
          rw [this] at hxs
          exact hst hxs
      obtain ⟨E, hE, hv⟩ := ih { u with
            m_jobViews := u.m_jobViews ++ [job]
            events := u.events ++ ([Event.jobViewAboutToBeAdded (u.m_jobViews.length : Int) job,
              Event.jobViewAdded (u.m_jobViews.length : Int) job] ++ F) } hrest'
      refine ⟨[Event.jobViewAboutToBeAdded (u.m_jobViews.length : Int) job,
              Event.jobViewAdded (u.m_jobViews.length : Int) job] ++ F ++ E, ?_, ?_⟩
      · simp only [pendingJobViewsLoop, hstep, hE]
        simp [List.filter_cons, hst]
      · rw [viewEvents_append, viewEvents_append, viewEvents_launcher F hFl, hv]
        simp [List.filter_cons, hst, viewEvents, addedEvents, Event.isLauncherEntryUpdate]

/-- C5: on expiry of the pending-admission timer (no stopped pending job being in the
visible sequence as well, which holds in every reachable state by
`reachable_wellFormed`) the handler returns; the pending
jobs that are not stopped are appended to the visible sequence in enqueue order; the
model's signals sent are, for each such job in turn, one `jobViewAboutToBeAdded(row,
job)` followed by one `jobViewAdded(row, job)` with `row` the length of the visible
sequence just before the job is appended, so the job sits at index `row` afterwards;
jobs already visible keep their rows; and the pending list is empty afterwards. -/
theorem pendingJobViewsTimeout_promotes (s : Model)
    (hdisj : ∀ job ∈ s.m_pendingJobViews,
      (s.jobs job).state = JobState.JobStateStopped → job ∉ s.m_jobViews) :
    ∃ t, pendingJobViewsTimeout s = some t ∧
      t.m_jobViews = s.m_jobViews ++ promotedJobs s ∧
      t.m_pendingJobViews = [] ∧
      viewEvents (emitted s t) = addedEvents s.m_jobViews.length (promotedJobs s) ∧
      (∀ i, i < s.m_jobViews.length → t.m_jobViews[i]? = s.m_jobViews[i]?) ∧
      (∀ k, k < (promotedJobs s).length →
        t.m_jobViews[s.m_jobViews.length + k]? = (promotedJobs s)[k]?) := by
  obtain ⟨E, hE, hv⟩ := pendingJobViewsLoop_spec s.m_pendingJobViews
    { s with m_pendingJobViewsTimer := none } hdisj
  have ht : pendingJobViewsTimeout s =
      some { s with
        m_pendingJobViewsTimer := none
        m_jobViews := s.m_jobViews ++ promotedJobs s
        events := s.events ++ E
        m_pendingJobViews := [] } := by
    simp only [pendingJobViewsTimeout, hE]
    rfl
  refine ⟨_, ht, rfl, rfl, ?_, ?_, ?_⟩
  · rw [emitted_of_events_eq s _ E rfl]
    exact hv
  · intro i hi
    exact List.getElem?_append_left hi
  · intro k _
    show (s.m_jobViews ++ promotedJobs s)[s.m_jobViews.length + k]? = _
    rw [List.getElem?_append_right (by omega)]
    simp

/-- C5 at an example: with job 0 visible and jobs 1, 2, 3 pending, job 2 stopped, the
expiry appends jobs 1 and 3 at rows 1 and 2 with one add pair each and empties the
pending list. -/
theorem pendingJobViewsTimeout_promotes_witness :
    ∃ t, pendingJobViewsTimeout promotionExample = some t ∧
      t.m_jobViews = [0, 1, 3] ∧
      t.m_pendingJobViews = [] ∧
      viewEvents (emitted promotionExample t) =
        [Event.jobViewAboutToBeAdded 1 1, Event.jobViewAdded 1 1,
         Event.jobViewAboutToBeAdded 2 3, Event.jobViewAdded 2 3] := by
  obtain ⟨t, ht, hv, hp, he, _, _⟩ :=
    pendingJobViewsTimeout_promotes promotionExample (by decide)
  refine ⟨t, ht, ?_, hp, ?_⟩
  · rw [hv]
    decide
  · rw [he]
    decide

/-! ## The pending-admission timer -/

/-- C6 (amended): a `requestView` call without the `immediate` hint always (re)starts
the pending-admission timer, whether it was idle or already armed: afterwards the timer
expires 500 ms after the call.  A call with the `immediate` hint leaves the timer as it
was. -/
theorem requestView_restarts_pendingJobViewsTimer (s : Model)
    (desktopEntry appName appIconName : String) (capabilities : Int)
    (serviceName processName : String) :
    (requestView s desktopEntry appName appIconName capabilities false serviceName
        processName).m_pendingJobViewsTimer = some (s.now + 500) ∧
    (requestView s desktopEntry appName appIconName capabilities true serviceName
        processName).m_pendingJobViewsTimer = s.m_pendingJobViewsTimer := by
  constructor
  · simp [requestView, QTimer.start, pendingJobViewsInterval]
  · simp only [requestView, if_true]
    generalize hu : updateApplicationPercentage _ _ = u
    obtain ⟨E, hE, _⟩ := updateApplicationPercentage_frame _ _
    rw [hE] at hu
    rw [← hu]
    simp [Model.emit]

/-- C6 (counterexample): the timer was armed at time 0 to expire at 500 ms; a second
`requestView` without the `immediate` hint at time 100 ms, while the timer is armed,
moves the expiry to 600 ms. -/
theorem requestView_moves_armed_expiry :
    armedThenLater.m_pendingJobViewsTimer = some 500 ∧
    armedThenLater.now = 100 ∧
    (requestView armedThenLater "org.kde.ark" "Ark" "ark" 3 false ":1.11"
      "").m_pendingJobViewsTimer = some 600 := by
  decide

/-! ## Fields left alone by the primitive operations -/

@[simp] theorem updateApplicationPercentage_jobs (u : Model) (g : String) :
    (updateApplicationPercentage u g).jobs = u.jobs := by
  unfold updateApplicationPercentage; split <;> rfl

@[simp] theorem updateApplicationPercentage_m_jobViews (u : Model) (g : String) :
    (updateApplicationPercentage u g).m_jobViews = u.m_jobViews := by
  unfold updateApplicationPercentage; split <;> rfl

@[simp] theorem updateApplicationPercentage_m_pendingJobViews (u : Model) (g : String) :
    (updateApplicationPercentage u g).m_pendingJobViews = u.m_pendingJobViews := by
  unfold updateApplicationPercentage; split <;> rfl

@[simp] theorem updateApplicationPercentage_m_jobServices (u : Model) (g : String) :
    (updateApplicationPercentage u g).m_jobServices = u.m_jobServices := by
  unfold updateApplicationPercentage; split <;> rfl

@[simp] theorem updateApplicationPercentage_m_pendingDirtyRoles (u : Model) (g : String) :
    (updateApplicationPercentage u g).m_pendingDirtyRoles = u.m_pendingDirtyRoles := by
  unfold updateApplicationPercentage; split <;> rfl

@[simp] theorem updateApplicationPercentage_watchedServices (u : Model) (g : String) :
    (updateApplicationPercentage u g).watchedServices = u.watchedServices := by
  unfold updateApplicationPercentage; split <;> rfl

@[simp] theorem updateApplicationPercentage_live (u : Model) (g : String) :
    (updateApplicationPercentage u g).live = u.live := by
  unfold updateApplicationPercentage; split <;> rfl

@[simp] theorem updateApplicationPercentage_nextPtr (u : Model) (g : String) :
    (updateApplicationPercentage u g).nextPtr = u.nextPtr := by
  unfold updateApplicationPercentage; split <;> rfl

@[simp] theorem updateApplicationPercentage_m_compressUpdatesTimer (u : Model) (g : String) :
    (updateApplicationPercentage u g).m_compressUpdatesTimer = u.m_compressUpdatesTimer := by
  unfold updateApplicationPercentage; split <;> rfl


theorem onlyNotifies_refl (s : Model) : onlyNotifies s s :=
  ⟨⟨rfl, rfl, rfl, rfl, rfl, rfl⟩, fun _ _ h => h, fun h => h⟩

theorem onlyNotifies_trans {s t u : Model} (h1 : onlyNotifies s t) (h2 : onlyNotifies t u) :
    onlyNotifies s u := by
  obtain ⟨⟨a1, a2, a3, a4, a5, a6⟩, b, c⟩ := h1
  obtain ⟨⟨d1, d2, d3, d4, d5, d6⟩, e, f⟩ := h2
  exact ⟨⟨d1.trans a1, d2.trans a2, d3.trans a3, d4.trans a4, d5.trans a5, d6.trans a6⟩,
    fun job role h => e job role (b job role h), fun h => f (c h)⟩

theorem appendRole_mem_self (D : List (JobPtr × List Roles)) (k : JobPtr) (r : Roles) :
    ∃ entry ∈ QHash.appendRole D k r, entry.1 = k ∧ r ∈ entry.2 := by
  induction D with
  | nil => exact ⟨(k, [r]), by simp [QHash.appendRole], rfl, by simp⟩
  | cons entry rest ih =>
    obtain ⟨k', roles⟩ := entry
    by_cases h : k' = k
    · exact ⟨(k', roles ++ [r]), by simp [QHash.appendRole, h], h, by simp⟩
    · obtain ⟨e, he, h1, h2⟩ := ih
      exact ⟨e, by simp [QHash.appendRole, h, he], h1, h2⟩

theorem appendRole_mem_mono (D : List (JobPtr × List Roles)) (k : JobPtr) (r : Roles)
    (job : JobPtr) (role : Roles) (h : ∃ entry ∈ D, entry.1 = job ∧ role ∈ entry.2) :
    ∃ entry ∈ QHash.appendRole D k r, entry.1 = job ∧ role ∈ entry.2 := by
  induction D with
  | nil => simp at h
  | cons entry rest ih =>
    obtain ⟨k', roles⟩ := entry
    obtain ⟨e, he, h1, h2⟩ := h
    by_cases hk : k' = k
    · rcases List.mem_cons.1 he with heq | hmem
      · subst heq
        exact ⟨(k', roles ++ [r]), by simp [QHash.appendRole, hk], h1,
          List.mem_append_left _ h2⟩
      · exact ⟨e, by simp [QHash.appendRole, hk, hmem], h1, h2⟩
    · rcases List.mem_cons.1 he with heq | hmem
      · subst heq
        exact ⟨(k', roles), by simp [QHash.appendRole, hk], h1, h2⟩
      · obtain ⟨e', he', h1', h2'⟩ := ih ⟨e, hmem, h1, h2⟩
        exact ⟨e', by simp [QHash.appendRole, hk, he'], h1', h2'⟩

theorem scheduleUpdate_onlyNotifies (s : Model) (job : JobPtr) (role : Roles) :
    onlyNotifies s (scheduleUpdate s job role) :=
  ⟨⟨rfl, rfl, rfl, rfl, rfl, rfl⟩,
    fun j x h => appendRole_mem_mono s.m_pendingDirtyRoles job role j x h, fun _ => rfl⟩

theorem scheduleUpdate_hasDirtyRole (s : Model) (job : JobPtr) (role : Roles) :
    hasDirtyRole (scheduleUpdate s job role) job role :=
  appendRole_mem_self s.m_pendingDirtyRoles job role

theorem modifyJob_onlyNotifies (s : Model) (job : JobPtr) (f : Job → Job) :
    onlyNotifies s (s.modifyJob job f) :=
  ⟨⟨rfl, rfl, rfl, rfl, rfl, rfl⟩, fun _ _ h => h, fun h => h⟩

theorem updateApplicationPercentage_onlyNotifies (s : Model) (g : String) :
    onlyNotifies s (updateApplicationPercentage s g) :=
  ⟨⟨by simp, by simp, by simp, by simp, by simp, by simp⟩,
    fun _ _ h => by simpa [hasDirtyRole] using h, fun h => by simpa using h⟩

theorem emitJobUrlsChanged_onlyNotifies (s : Model) : onlyNotifies s (emitJobUrlsChanged s) :=
  ⟨⟨rfl, rfl, rfl, rfl, rfl, rfl⟩, fun _ _ h => h, fun h => h⟩

theorem onStateChanged_onlyNotifies (s : Model) (job : JobPtr) :
    onlyNotifies s (onStateChanged s job) := by
  have h3 : onlyNotifies s (scheduleUpdate (scheduleUpdate (scheduleUpdate s job
      Roles.JobStateRole) job Roles.TimeoutRole) job Roles.ClosableRole) :=
    onlyNotifies_trans (onlyNotifies_trans (scheduleUpdate_onlyNotifies _ _ _)
      (scheduleUpdate_onlyNotifies _ _ _)) (scheduleUpdate_onlyNotifies _ _ _)
  unfold onStateChanged
  simp only
  split
  · exact onlyNotifies_trans h3 (onlyNotifies_trans
      (updateApplicationPercentage_onlyNotifies _ _) (emitJobUrlsChanged_onlyNotifies _))
  · exact h3

theorem onStateChanged_jobs (s : Model) (job : JobPtr) :
    (onStateChanged s job).jobs = s.jobs := by
  unfold onStateChanged
  simp only
  split
  · simp [emitJobUrlsChanged, Model.emit, scheduleUpdate]
  · rfl

theorem onStateChanged_hasDirtyRole (s : Model) (job : JobPtr) :
    hasDirtyRole (onStateChanged s job) job Roles.JobStateRole ∧
    (onStateChanged s job).m_compressUpdatesTimer.isSome = true := by
  have h1 : hasDirtyRole (scheduleUpdate (scheduleUpdate (scheduleUpdate s job
      Roles.JobStateRole) job Roles.TimeoutRole) job Roles.ClosableRole) job
      Roles.JobStateRole :=
    (scheduleUpdate_onlyNotifies _ _ _).2.1 _ _
      ((scheduleUpdate_onlyNotifies _ _ _).2.1 _ _ (scheduleUpdate_hasDirtyRole s job _))
  unfold onStateChanged
  simp only
  split
  · exact ⟨(onlyNotifies_trans (updateApplicationPercentage_onlyNotifies _ _)
      (emitJobUrlsChanged_onlyNotifies _)).2.1 _ _ h1,
      (onlyNotifies_trans (updateApplicationPercentage_onlyNotifies _ _)
      (emitJobUrlsChanged_onlyNotifies _)).2.2 rfl⟩
  · exact ⟨h1, rfl⟩

/-! ## Loss of a client -/

theorem setError_spec (s : Model) (job : JobPtr) (error : Int) :
    onlyNotifies s (setError s job error) ∧
    (setError s job error).jobs =
      Function.update s.jobs job { s.jobs job with error := error } := by
  unfold setError
  split
  · rename_i h
    refine ⟨onlyNotifies_refl s, ?_⟩
    have : ({ s.jobs job with error := error } : Job) = s.jobs job := by rw [← h]
    rw [this, Function.update_eq_self]
  · exact ⟨onlyNotifies_trans (modifyJob_onlyNotifies _ _ _) (scheduleUpdate_onlyNotifies _ _ _),
      rfl⟩

theorem setErrorText_spec (s : Model) (job : JobPtr) (errorText : String) :
    onlyNotifies s (setErrorText s job errorText) ∧
    (setErrorText s job errorText).jobs =
      Function.update s.jobs job { s.jobs job with errorText := errorText } := by
  unfold setErrorText
  split
  · rename_i h
    refine ⟨onlyNotifies_refl s, ?_⟩
    have : ({ s.jobs job with errorText := errorText } : Job) = s.jobs job := by rw [← h]
    rw [this, Function.update_eq_self]
  · exact ⟨onlyNotifies_trans (modifyJob_onlyNotifies _ _ _) (scheduleUpdate_onlyNotifies _ _ _),
      rfl⟩

theorem setState_spec (s : Model) (job : JobPtr) (state : JobState) :
    onlyNotifies s (setState s job state) ∧
    (setState s job state).jobs =
      Function.update s.jobs job { s.jobs job with state := state } ∧
    ((s.jobs job).state ≠ state →
      hasDirtyRole (setState s job state) job Roles.JobStateRole ∧
      (setState s job state).m_compressUpdatesTimer.isSome = true) := by
  unfold setState
  split
  · rename_i h
    refine ⟨onlyNotifies_refl s, ?_, fun hne => absurd h hne⟩
    have : ({ s.jobs job with state := state } : Job) = s.jobs job := by rw [← h]
    rw [this, Function.update_eq_self]
  · exact ⟨onlyNotifies_trans (modifyJob_onlyNotifies _ _ _) (onStateChanged_onlyNotifies _ _),
      by rw [onStateChanged_jobs]; rfl, fun _ => onStateChanged_hasDirtyRole _ _⟩

/-- One iteration of the loop of `onServiceUnregistered`: the job gets error 127, the
fixed text and the stopped state, nothing else is written, and a job that was not
stopped gets the job-state role in the dirty-roles map. -/
theorem markFailed_spec (s : Model) (job : JobPtr) :
    onlyNotifies s (markFailed s job) ∧
    (markFailed s job).jobs = Function.update s.jobs job (s.jobs job).failed ∧
    ((s.jobs job).state ≠ JobState.JobStateStopped →
      hasDirtyRole (markFailed s job) job Roles.JobStateRole ∧
      (markFailed s job).m_compressUpdatesTimer.isSome = true) := by
  obtain ⟨a1, a2⟩ := setError_spec s job errSlaveDied
  obtain ⟨b1, b2⟩ := setErrorText_spec (setError s job errSlaveDied) job
    applicationClosedUnexpectedly
  obtain ⟨c1, c2, c3⟩ := setState_spec
    (setErrorText (setError s job errSlaveDied) job applicationClosedUnexpectedly) job
    JobState.JobStateStopped
  refine ⟨onlyNotifies_trans (onlyNotifies_trans a1 b1) c1, ?_, ?_⟩
  · unfold markFailed
    rw [c2, b2, a2]
    simp [Job.failed]
  · intro hne
    apply c3
    rw [b2, a2]
    simpa using hne

/-- The loop of `onServiceUnregistered` over a list of jobs. -/
theorem markFailedLoop_spec (L : List JobPtr) (s : Model) :
    onlyNotifies s (L.foldl markFailed s) ∧
    (∀ p, (L.foldl markFailed s).jobs p = if p ∈ L then (s.jobs p).failed else s.jobs p) ∧
    (∀ p ∈ L, (s.jobs p).state ≠ JobState.JobStateStopped →
      hasDirtyRole (L.foldl markFailed s) p Roles.JobStateRole ∧
      (L.foldl markFailed s).m_compressUpdatesTimer.isSome = true) := by
  induction L generalizing s with
  | nil => exact ⟨onlyNotifies_refl s, by simp, by simp⟩
  | cons job rest ih =>
    obtain ⟨m1, m2, m3⟩ := markFailed_spec s job
    obtain ⟨i1, i2, i3⟩ := ih (markFailed s job)
    rw [List.foldl_cons]
    refine ⟨onlyNotifies_trans m1 i1, ?_, ?_⟩
    · intro p
      rw [i2 p, m2]
      by_cases hp : p = job
      · subst hp
        by_cases hr : p ∈ rest
        · simp [hr, Job.failed]
        · simp [hr]
      · by_cases hr : p ∈ rest
        · simp [hr, hp, Function.update_noteq hp]
        · simp [hr, hp, Function.update_noteq hp]
    · intro p hp hne
      by_cases hpj : p = job
      · subst hpj
        obtain ⟨d, t⟩ := m3 hne
        exact ⟨i1.2.1 _ _ d, i1.2.2 t⟩
      · have hr : p ∈ rest := by
          rcases List.mem_cons.1 hp with h | h
          · exact absurd h hpj
          · exact h
        apply i3 p hr
        rw [m2, Function.update_noteq hpj]
        exact hne

/-- The flush loop only appends events, and for every entry of the dirty-roles map
whose job is visible they hold the `jobViewChanged` signal of that entry. -/
theorem compressUpdatesLoop_mem (D : List (JobPtr × List Roles)) (u : Model) :
    ∃ E, D.foldl compressUpdatesStep u = { u with events := u.events ++ E } ∧
      ∀ entry ∈ D, entry.1 ∈ u.m_jobViews →
        Event.jobViewChanged (indexOf u.m_jobViews entry.1) entry.1 entry.2 ∈ E := by
  induction D generalizing u with
  | nil => exact ⟨[], by simp, by simp⟩
  | cons first rest ih =>
    obtain ⟨E1, hE1, hc1⟩ := compressUpdatesStep_spec u first
    obtain ⟨E2, hE2, hm2⟩ := ih { u with events := u.events ++ E1 }
    refine ⟨E1 ++ E2, ?_, ?_⟩
    · rw [List.foldl_cons, hE1, hE2]
      simp
    · intro entry he hvis
      rcases List.mem_cons.1 he with heq | hmem
      · subst heq
        have := hc1 entry.1
        rw [if_pos ⟨rfl, hvis⟩] at this
        have hin : Event.jobViewChanged (indexOf u.m_jobViews entry.1) entry.1 entry.2 ∈
            changedEventsOf E1 entry.1 := by
          rw [this]
          exact List.mem_singleton_self _
        exact List.mem_append_left _ (List.mem_of_mem_filter hin)
      · exact List.mem_append_right _ (hm2 entry hmem hvis)

theorem mem_keys_iff (h : List (JobPtr × String)) (value : String) (job : JobPtr) :
    job ∈ QHash.keys h value ↔ (job, value) ∈ h := by
  unfold QHash.keys
  simp only [List.mem_map, List.mem_filter, decide_eq_true_eq]
  constructor
  · rintro ⟨⟨j, v⟩, ⟨hmem, hv⟩, hj⟩
    simp only at hv hj
    rw [← hv, ← hj]
    exact hmem
  · intro hmem
    exact ⟨(job, value), ⟨hmem, rfl⟩, rfl⟩

/-- C7: `onServiceUnregistered(C)` leaves the visible sequence, the pending list, the
owner map and the set of live jobs exactly as they were (no job is removed or deleted);
every job owned by `C`, visible or pending, that was not stopped before the call is
afterwards stopped with error code 127 and the fixed error text, has the job-state role
in the dirty-roles map with the compress timer armed, and, when it is visible, the next
flush emits a `jobViewChanged` signal for its row whose roles include the job-state
role. -/
theorem onServiceUnregistered_fails_jobs (s : Model) (C : String) :
    (onServiceUnregistered s C).m_jobViews = s.m_jobViews ∧
    (onServiceUnregistered s C).m_pendingJobViews = s.m_pendingJobViews ∧
    (onServiceUnregistered s C).m_jobServices = s.m_jobServices ∧
    (onServiceUnregistered s C).live = s.live ∧
    ∀ job, (job, C) ∈ s.m_jobServices → (s.jobs job).state ≠ JobState.JobStateStopped →
      (((onServiceUnregistered s C).jobs job).state = JobState.JobStateStopped ∧
        ((onServiceUnregistered s C).jobs job).error = 127 ∧
        ((onServiceUnregistered s C).jobs job).errorText = "Application closed unexpectedly.") ∧
      hasDirtyRole (onServiceUnregistered s C) job Roles.JobStateRole ∧
      (onServiceUnregistered s C).m_compressUpdatesTimer.isSome = true ∧
      (job ∈ s.m_jobViews →
        ∃ roles, Roles.JobStateRole ∈ roles ∧
          Event.jobViewChanged (indexOf s.m_jobViews job) job roles ∈
            emitted (onServiceUnregistered s C)
              (compressUpdatesTimeout (onServiceUnregistered s C))) := by
  obtain ⟨⟨⟨v, p, o, _, l, _⟩, _, _⟩, hjobs, hdirty⟩ := markFailedLoop_spec
    (QHash.keys s.m_jobServices C) { s with watchedServices := s.watchedServices.erase C }
  have ht : onServiceUnregistered s C = (QHash.keys s.m_jobServices C).foldl markFailed
      { s with watchedServices := s.watchedServices.erase C } := rfl
  rw [← ht] at v p o l hjobs hdirty
  refine ⟨v, p, o, l, ?_⟩
  intro job howner hne
  have hmem : job ∈ QHash.keys s.m_jobServices C := (mem_keys_iff _ _ _).2 howner
  obtain ⟨hd, htimer⟩ := hdirty job hmem hne
  refine ⟨?_, hd, htimer, ?_⟩
  · rw [hjobs job, if_pos hmem]
    exact ⟨rfl, rfl, rfl⟩
  · intro hvis
    obtain ⟨entry, hentry, hkey, hrole⟩ := hd
    obtain ⟨E, hE, hin⟩ := compressUpdatesLoop_mem
      (onServiceUnregistered s C).m_pendingDirtyRoles
      { onServiceUnregistered s C with m_compressUpdatesTimer := none }
    have hflush : (compressUpdatesTimeout (onServiceUnregistered s C)).events =
        (onServiceUnregistered s C).events ++ E := by
      unfold compressUpdatesTimeout
      simp only [hE]
    rw [emitted_of_events_eq _ _ E hflush]
    have hvis' : entry.1 ∈ (onServiceUnregistered s C).m_jobViews := by
      rw [hkey, v]
      exact hvis
    have hev := hin entry hentry hvis'
    rw [hkey] at hev
    refine ⟨entry.2, hrole, ?_⟩
    have hv' : ({ onServiceUnregistered s C with
        m_compressUpdatesTimer := none } : Model).m_jobViews = s.m_jobViews := v
    rw [hv'] at hev
    exact hev

/-- C7 at the documented example: client `:1.20` owns three jobs, one of them already
stopped; after its disappearance the running visible job 1 is stopped with error 127
and the fixed text, no job left the registry, and the next flush announces the change
of job 1 at row 1. -/
theorem onServiceUnregistered_fails_jobs_witness :
    ((1, ":1.20") ∈ threeOwnedJobs.m_jobServices ∧
      (threeOwnedJobs.jobs 1).state ≠ JobState.JobStateStopped ∧
      1 ∈ threeOwnedJobs.m_jobViews) ∧
    (((onServiceUnregistered threeOwnedJobs ":1.20").jobs 1).state = JobState.JobStateStopped ∧
      ((onServiceUnregistered threeOwnedJobs ":1.20").jobs 1).error = 127 ∧
      ((onServiceUnregistered threeOwnedJobs ":1.20").jobs 1).errorText =
        "Application closed unexpectedly.") ∧
    (onServiceUnregistered threeOwnedJobs ":1.20").m_jobViews = [0, 1, 3] ∧
    (onServiceUnregistered threeOwnedJobs ":1.20").m_pendingJobViews = [2] ∧
    ∃ roles, Roles.JobStateRole ∈ roles ∧
      Event.jobViewChanged (indexOf threeOwnedJobs.m_jobViews 1) 1 roles ∈
        emitted (onServiceUnregistered threeOwnedJobs ":1.20")
          (compressUpdatesTimeout (onServiceUnregistered threeOwnedJobs ":1.20")) := by
  have h := onServiceUnregistered_fails_jobs threeOwnedJobs ":1.20"
  obtain ⟨hv, hp, _, _, hjob⟩ := h
  obtain ⟨hfields, _, _, hflush⟩ := hjob 1 (by decide) (by decide)
  exact ⟨by decide, hfields, by rw [hv]; decide, by rw [hp]; decide, hflush (by decide)⟩

/-! ## The list of destination URLs -/

theorem jobUrlsLoop_eq (s : Model) (acc : List String) (l : List JobPtr) :
    jobUrlsLoop s acc l = acc ++ (l.filter (hasJobUrl s)).map (destUrlString s) := by
  unfold jobUrlsLoop
  induction l generalizing acc with
  | nil => simp
  | cons job rest ih =>
    rw [List.foldl_cons]
    by_cases h1 : (s.jobs job).state = JobState.JobStateStopped
    · simp [ih, h1, List.filter_cons, hasJobUrl]
    · by_cases h2 : (s.jobs job).destUrl.isValid = true
      · simp [ih, h1, h2, List.filter_cons, hasJobUrl, destUrlString]
      · simp [ih, h1, h2, List.filter_cons, hasJobUrl]

/-- C8: `jobUrls()` returns exactly the destination URLs, as strings, of the jobs that
are not stopped and have a valid destination URL, first over the visible sequence in
row order and then over the pending list in enqueue order; so each entry of either
list contributes one string when the job is not stopped and its URL is valid, and
nothing otherwise. -/
theorem jobUrls_eq (s : Model) :
    jobUrls s =
      (s.m_jobViews.filter (hasJobUrl s)).map (destUrlString s) ++
      (s.m_pendingJobViews.filter (hasJobUrl s)).map (destUrlString s) ∧
    (jobUrls s).length =
      (s.m_jobViews.filter (hasJobUrl s)).length +
      (s.m_pendingJobViews.filter (hasJobUrl s)).length ∧
    (∀ job, hasJobUrl s job = true ↔
      ((s.jobs job).state ≠ JobState.JobStateStopped ∧
        (s.jobs job).destUrl.isValid = true)) := by
  have h : jobUrls s =
      (s.m_jobViews.filter (hasJobUrl s)).map (destUrlString s) ++
      (s.m_pendingJobViews.filter (hasJobUrl s)).map (destUrlString s) := by
    unfold jobUrls
    rw [jobUrlsLoop_eq, jobUrlsLoop_eq]
    simp
  refine ⟨h, ?_, ?_⟩
  · rw [h]
    simp
  · intro job
    simp [hasJobUrl]

/-- C9 (the code departs from the claim): with one visible running job whose
destination URL is valid, `jobUrls()` holds that URL; `removeAt(0)` returns, `jobUrls()`
is empty afterwards, and the only signals emitted are `jobViewAboutToBeRemoved(0)` and
`jobViewRemoved(0)`: no `jobUrlsChanged`.  Stopping the same job instead, which empties
`jobUrls()` as well, does emit `jobUrlsChanged` with the new (empty) list. -/
theorem removeAt_changes_jobUrls_silently :
    jobUrls oneVisibleWithUrl = ["file:///home/user/image.iso"] ∧
    (removeAt oneVisibleWithUrl 0).map jobUrls = some [] ∧
    (removeAt oneVisibleWithUrl 0).map (emitted oneVisibleWithUrl) =
      some [Event.jobViewAboutToBeRemoved 0, Event.jobViewRemoved 0] ∧
    jobUrls (setState oneVisibleWithUrl 0 JobState.JobStateStopped) = [] ∧
    emitted oneVisibleWithUrl (setState oneVisibleWithUrl 0 JobState.JobStateStopped) =
      [Event.launcherEntryUpdate "application://org.kde.dolphin" false 0 false 0,
       Event.jobUrlsChanged []] := by
  decide

/-! ## Removal and the watched clients -/

theorem remove_eq_removeAt (s : Model) (job : JobPtr) (h : job ∈ s.m_jobViews) :
    remove s job = removeAt s (List.indexOf job s.m_jobViews : Int) ∧
    s.m_jobViews[List.indexOf job s.m_jobViews]? = some job := by
  constructor
  · unfold remove indexOf
    simp only [h, if_true]
    rw [if_pos (by omega)]
  · have hlt : List.indexOf job s.m_jobViews < s.m_jobViews.length :=
      List.indexOf_lt_length.2 h
    rw [List.getElem?_eq_getElem hlt]
    simp

/-- C10: removing the visible job `job` (at row `row`, through `removeAt(row)` or
`remove(job)`) whose owner is `C` returns and takes the job's entry out of the owner
map; if another entry of the owner map still has owner `C` the set of watched clients
is unchanged, otherwise `C` is taken out of it; so a watched `C` stops being watched if
and only if no other entry has owner `C`. -/
theorem removeAt_watchedServices (s : Model) (row : Nat) (job : JobPtr) (C : String)
    (hjob : s.m_jobViews[row]? = some job)
    (howner : s.m_jobServices.lookup job = some C) :
    ∃ t, removeAt s (row : Int) = some t ∧
      (row = List.indexOf job s.m_jobViews → remove s job = some t) ∧
      t.m_jobServices = QHash.remove s.m_jobServices job ∧
      (ownsAnotherJob s job C → t.watchedServices = s.watchedServices) ∧
      (¬ ownsAnotherJob s job C → t.watchedServices = s.watchedServices.erase C) ∧
      (C ∈ s.watchedServices → (C ∉ t.watchedServices ↔ ¬ ownsAnotherJob s job C)) := by
  have hlt : row < s.m_jobViews.length := by
    by_contra hc
    rw [List.getElem?_eq_none (by omega)] at hjob
    exact Option.noConfusion hjob
  have hvis : job ∈ s.m_jobViews := List.getElem?_mem hjob
  have htake : QHash.takeValue s.m_jobServices job = C := by
    simp [QHash.takeValue, howner]
  have hrange : (0 : Int) ≤ (row : Int) ∧ (row : Int) < (s.m_jobViews.length : Int) :=
    ⟨by omega, by exact_mod_cast hlt⟩
  by_cases hother : ownsAnotherJob s job C
  · have hany : (QHash.remove s.m_jobServices job).any
        (fun item => decide (item.2 = C)) = true := by
      rw [List.any_eq_true]
      obtain ⟨entry, he, hc⟩ := hother
      exact ⟨entry, he, by simpa using hc⟩
    have hrem : removeAt s (row : Int) = some
        ({ s with
            m_jobViews := s.m_jobViews.eraseIdx row
            m_pendingDirtyRoles := QHash.remove s.m_pendingDirtyRoles job
            m_pendingJobViews := s.m_pendingJobViews.erase job
            m_jobServices := QHash.remove s.m_jobServices job
            live := s.live.erase job
            events := s.events ++ [Event.jobViewAboutToBeRemoved (row : Int),
              Event.jobViewRemoved (row : Int)] } : Model) := by
      unfold removeAt
      rw [if_pos hrange]
      simp [hjob, Model.emit, htake, hany]
    refine ⟨_, hrem, ?_, rfl, fun _ => rfl, fun h => absurd hother h, ?_⟩
    · intro hrow
      rw [(remove_eq_removeAt s job hvis).1, ← hrow, hrem]
    · intro hw
      simp [hother, hw]
  · have hany : (QHash.remove s.m_jobServices job).any
        (fun item => decide (item.2 = C)) = false := by
      rw [Bool.eq_false_iff]
      intro hc
      rw [List.any_eq_true] at hc
      obtain ⟨entry, he, hc⟩ := hc
      exact hother ⟨entry, he, by simpa using hc⟩
    have hrem : removeAt s (row : Int) = some
        ({ s with
            m_jobViews := s.m_jobViews.eraseIdx row
            m_pendingDirtyRoles := QHash.remove s.m_pendingDirtyRoles job
            m_pendingJobViews := s.m_pendingJobViews.erase job
            m_jobServices := QHash.remove s.m_jobServices job
            watchedServices := s.watchedServices.erase C
            live := s.live.erase job
            events := s.events ++ [Event.jobViewAboutToBeRemoved (row : Int),
              Event.jobViewRemoved (row : Int)] } : Model) := by
      unfold removeAt
      rw [if_pos hrange]
      simp [hjob, Model.emit, htake, hany]
    refine ⟨_, hrem, ?_, rfl, fun h => absurd h hother, fun _ => rfl, ?_⟩
    · intro hrow
      rw [(remove_eq_removeAt s job hvis).1, ← hrow, hrem]
    · intro _
      simp [hother]

/-- C10 at an example: job 3 (row 2) is the only job of client `:1.21`, so removing it
stops the watch on `:1.21`; job 1 (row 1) is one of three jobs of client `:1.20`, so
removing it leaves the watched clients unchanged. -/
theorem removeAt_watchedServices_witness :
    (threeOwnedJobs.m_jobViews[2]? = some 3 ∧
      threeOwnedJobs.m_jobServices.lookup 3 = some ":1.21" ∧
      threeOwnedJobs.watchedServices = {":1.20", ":1.21"}) ∧
    (∃ t, removeAt threeOwnedJobs 2 = some t ∧ t.watchedServices = {":1.20"}) ∧
    (∃ t, removeAt threeOwnedJobs 1 = some t ∧ t.watchedServices = {":1.20", ":1.21"}) := by
  obtain ⟨t, ht, _, _, _, hlast, _⟩ :=
    removeAt_watchedServices threeOwnedJobs 2 3 ":1.21" (by decide) (by decide)
  obtain ⟨u, hu, _, _, hmore, _, _⟩ :=
    removeAt_watchedServices threeOwnedJobs 1 1 ":1.20" (by decide) (by decide)
  refine ⟨by decide, ⟨t, by simpa using ht, ?_⟩, ⟨u, by simpa using hu, ?_⟩⟩
  · rw [hlast (by decide)]
    decide
  · rw [hmore (by decide)]
    decide

/-! ## The list invariant holds in every reachable state -/

theorem setPercentage_onlyNotifies (s : Model) (job : JobPtr) (percentage : Int) :
    onlyNotifies s (setPercentage s job percentage) := by
  unfold setPercentage
  split
  · exact onlyNotifies_refl s
  · exact onlyNotifies_trans (modifyJob_onlyNotifies _ _ _) (scheduleUpdate_onlyNotifies _ _ _)

theorem setSummary_onlyNotifies (s : Model) (job : JobPtr) (summary : String) :
    onlyNotifies s (setSummary s job summary) := by
  unfold setSummary
  split
  · exact onlyNotifies_refl s
  · exact onlyNotifies_trans (modifyJob_onlyNotifies _ _ _) (scheduleUpdate_onlyNotifies _ _ _)

theorem setExpired_onlyNotifies (s : Model) (job : JobPtr) (expired : Bool) :
    onlyNotifies s (setExpired s job expired) := by
  unfold setExpired
  split
  · exact onlyNotifies_refl s
  · exact onlyNotifies_trans (modifyJob_onlyNotifies _ _ _) (scheduleUpdate_onlyNotifies _ _ _)

theorem setDismissed_onlyNotifies (s : Model) (job : JobPtr) (dismissed : Bool) :
    onlyNotifies s (setDismissed s job dismissed) := by
  unfold setDismissed
  split
  · exact onlyNotifies_refl s
  · exact onlyNotifies_trans (modifyJob_onlyNotifies _ _ _) (scheduleUpdate_onlyNotifies _ _ _)

theorem setDestUrl_onlyNotifies (s : Model) (job : JobPtr) (destUrl : QUrl) :
    onlyNotifies s (setDestUrl s job destUrl) := by
  unfold setDestUrl onDestUrlChanged
  split
  · exact onlyNotifies_refl s
  · exact onlyNotifies_trans (modifyJob_onlyNotifies _ _ _)
      (onlyNotifies_trans (scheduleUpdate_onlyNotifies _ _ _) (emitJobUrlsChanged_onlyNotifies _))

theorem compressUpdatesTimeout_sameRegistry (s : Model) :
    sameRegistry s (compressUpdatesTimeout s) := by
  obtain ⟨E, hE, _⟩ := compressUpdatesLoop_mem s.m_pendingDirtyRoles
    { s with m_compressUpdatesTimer := none }
  unfold compressUpdatesTimeout
  simp only [hE]
  exact ⟨rfl, rfl, rfl, rfl, rfl, rfl⟩

theorem removeAt_lists (s t : Model) (row : Int) (h : removeAt s row = some t) :
    t.m_jobViews = s.m_jobViews.eraseIdx row.toNat ∧
    (∃ job, t.m_pendingJobViews = s.m_pendingJobViews.erase job) ∧
    t.nextPtr = s.nextPtr := by
  unfold removeAt at h
  split at h
  · split at h
    · exact Option.noConfusion h
    · rename_i job _
      simp only [Option.some.injEq] at h
      subst h
      refine ⟨?_, ⟨job, ?_⟩, ?_⟩
      · simp only [Model.emit]
        split <;> rfl
      · simp only [Model.emit]
        split <;> rfl
      · simp only [Model.emit]
        split <;> rfl
  · exact Option.noConfusion h

theorem wellFormed_of_sameRegistry {s t : Model} (h : sameRegistry s t) (hs : wellFormed s) :
    wellFormed t := by
  obtain ⟨v, p, _, _, _, n⟩ := h
  unfold wellFormed
  rw [v, p, n]
  exact hs

theorem wellFormed_removeAt {s t : Model} (row : Int) (h : removeAt s row = some t)
    (hs : wellFormed s) : wellFormed t := by
  obtain ⟨hv, ⟨job, hp⟩, hn⟩ := removeAt_lists s t row h
  obtain ⟨n1, n2, b1, b2, d⟩ := hs
  unfold wellFormed
  rw [hv, hp, hn]
  have sv := List.eraseIdx_sublist s.m_jobViews row.toNat
  have sp := List.erase_sublist job s.m_pendingJobViews
  exact ⟨n1.sublist sv, n2.sublist sp, fun x hx => b1 x (sv.subset hx),
    fun x hx => b2 x (sp.subset hx), fun x hx hx' => d x (sp.subset hx) (sv.subset hx')⟩

theorem wellFormed_pendingJobViewsTimeout {s t : Model} (h : pendingJobViewsTimeout s = some t)
    (hs : wellFormed s) : wellFormed t := by
  obtain ⟨n1, n2, b1, b2, d⟩ := hs
  obtain ⟨E, hE, _⟩ := pendingJobViewsLoop_spec s.m_pendingJobViews
    { s with m_pendingJobViewsTimer := none } (fun job hj _ => d job hj)
  unfold pendingJobViewsTimeout at h
  simp only [hE, Option.some.injEq] at h
  subst h
  have sp := List.filter_sublist (p := fun job =>
    decide ((s.jobs job).state ≠ JobState.JobStateStopped)) s.m_pendingJobViews
  refine ⟨?_, List.nodup_nil, ?_, by simp, by simp⟩
  · show (s.m_jobViews ++ _).Nodup
    rw [List.nodup_append]
    refine ⟨n1, n2.sublist sp, ?_⟩
    intro x hx hx'
    exact d x (sp.subset hx') hx
  · intro x hx
    rcases List.mem_append.1 hx with h1 | h1
    · exact b1 x h1
    · exact b2 x (sp.subset h1)

theorem wellFormed_requestView (s : Model) (desktopEntry appName appIconName : String)
    (capabilities : Int) (immediate : Bool) (serviceName processName : String)
    (hs : wellFormed s) :
    wellFormed (requestView s desktopEntry appName appIconName capabilities immediate
      serviceName processName) := by
  obtain ⟨n1, n2, b1, b2, d⟩ := hs
  have f1 : s.nextPtr ∉ s.m_jobViews := fun h => Nat.lt_irrefl _ (b1 _ h)
  have f2 : s.nextPtr ∉ s.m_pendingJobViews := fun h => Nat.lt_irrefl _ (b2 _ h)
  cases immediate with
  | true =>
    simp only [wellFormed, requestView, if_true, updateApplicationPercentage_m_jobViews,
      updateApplicationPercentage_m_pendingJobViews, updateApplicationPercentage_nextPtr,
      Model.emit]
    refine ⟨?_, n2, ?_, ?_, ?_⟩
    · rw [List.nodup_append]
      exact ⟨n1, List.nodup_singleton _, by simpa using f1⟩
    · intro x hx
      rcases List.mem_append.1 hx with h1 | h1
      · exact Nat.lt_succ_of_lt (b1 x h1)
      · have : x = s.nextPtr := by simpa using h1
        rw [this]
        exact Nat.lt_succ_self _
    · intro x hx
      exact Nat.lt_succ_of_lt (b2 x hx)
    · intro x hx hx'
      rcases List.mem_append.1 hx' with h1 | h1
      · exact d x hx h1
      · have : x = s.nextPtr := by simpa using h1
        exact f2 (this ▸ hx)
  | false =>
    simp only [wellFormed, requestView, Bool.false_eq_true, if_false]
    refine ⟨n1, ?_, ?_, ?_, ?_⟩
    · rw [List.nodup_append]
      exact ⟨n2, List.nodup_singleton _, by simpa using f2⟩
    · intro x hx
      exact Nat.lt_succ_of_lt (b1 x hx)
    · intro x hx
      rcases List.mem_append.1 hx with h1 | h1
      · exact Nat.lt_succ_of_lt (b2 x h1)
      · have : x = s.nextPtr := by simpa using h1
        rw [this]
        exact Nat.lt_succ_self _
    · intro x hx hx'
      rcases List.mem_append.1 hx with h1 | h1
      · exact d x h1 hx'
      · have : x = s.nextPtr := by simpa using h1
        exact f1 (this ▸ hx')

/-- Every reachable state satisfies the list invariant; in particular no job is in
both the pending list and the visible sequence. -/
theorem reachable_wellFormed {s : Model} (h : Reachable s) : wellFormed s := by
  induction h with
  | initial id => exact ⟨List.nodup_nil, List.nodup_nil, by simp [Model.initial],
      by simp [Model.initial], by simp [Model.initial]⟩
  | requestView _ d a i c im sv pn ih => exact wellFormed_requestView _ d a i c im sv pn ih
  | setState _ job _ v ih => exact wellFormed_of_sameRegistry (setState_spec _ job v).1.1 ih
  | setPercentage _ job _ v ih =>
    exact wellFormed_of_sameRegistry (setPercentage_onlyNotifies _ job v).1 ih
  | setError _ job _ v ih => exact wellFormed_of_sameRegistry (setError_spec _ job v).1.1 ih
  | setErrorText _ job _ v ih =>
    exact wellFormed_of_sameRegistry (setErrorText_spec _ job v).1.1 ih
  | setSummary _ job _ v ih =>
    exact wellFormed_of_sameRegistry (setSummary_onlyNotifies _ job v).1 ih
  | setDestUrl _ job _ v ih =>
    exact wellFormed_of_sameRegistry (setDestUrl_onlyNotifies _ job v).1 ih
  | setExpired _ job _ v ih =>
    exact wellFormed_of_sameRegistry (setExpired_onlyNotifies _ job v).1 ih
  | setDismissed _ job _ v ih =>
    exact wellFormed_of_sameRegistry (setDismissed_onlyNotifies _ job v).1 ih
  | compressUpdatesTimeout _ ih =>
    exact wellFormed_of_sameRegistry (compressUpdatesTimeout_sameRegistry _) ih
  | pendingJobViewsTimeout _ ht ih => exact wellFormed_pendingJobViewsTimeout ht ih
  | removeAt _ row ht ih => exact wellFormed_removeAt row ht ih
  | remove _ job ht ih =>
    unfold remove at ht
    simp only at ht
    split at ht
    · exact wellFormed_removeAt _ ht ih
    · simp only [Option.some.injEq] at ht
      exact ht ▸ ih
  | @onServiceUnregistered s _ serviceName ih =>
    have h1 : wellFormed { s with watchedServices := s.watchedServices.erase serviceName } := ih
    exact wellFormed_of_sameRegistry (markFailedLoop_spec _ _).1.1 h1
  | advance _ dt ih => exact ih

/-! ## What `removeAt` returns -/

/-- The state returned by `removeAt(row)` for a row that holds `job`. -/
theorem removeAt_eq (s : Model) (row : Nat) (job : JobPtr)
    (hjob : s.m_jobViews[row]? = some job) :
    removeAt s (row : Int) = some
      ({ s with
          m_jobViews := s.m_jobViews.eraseIdx row
          m_pendingDirtyRoles := QHash.remove s.m_pendingDirtyRoles job
          m_pendingJobViews := s.m_pendingJobViews.erase job
          m_jobServices := QHash.remove s.m_jobServices job
          watchedServices :=
            if (QHash.remove s.m_jobServices job).any
                (fun item => decide (item.2 = QHash.takeValue s.m_jobServices job)) then
              s.watchedServices
            else s.watchedServices.erase (QHash.takeValue s.m_jobServices job)
          live := s.live.erase job
          events := s.events ++ [Event.jobViewAboutToBeRemoved (row : Int),
            Event.jobViewRemoved (row : Int)] } : Model) := by
  have hlt : row < s.m_jobViews.length := by
    by_contra hc
    rw [List.getElem?_eq_none (by omega)] at hjob
    exact Option.noConfusion hjob
  have hrange : (0 : Int) ≤ (row : Int) ∧ (row : Int) < (s.m_jobViews.length : Int) :=
    ⟨by omega, by exact_mod_cast hlt⟩
  unfold removeAt
  rw [if_pos hrange]
  simp only [Int.toNat_ofNat, hjob, Model.emit]
  split <;> simp

theorem not_mem_eraseIdx_of_nodup (l : List JobPtr) (i : Nat) (a : JobPtr)
    (h : l[i]? = some a) (hn : l.Nodup) : a ∉ l.eraseIdx i := by
  induction l generalizing i with
  | nil => simp at h
  | cons x xs ih =>
    rw [List.nodup_cons] at hn
    cases i with
    | zero =>
      have hx : x = a := by simpa using h
      rw [← hx]
      simpa using hn.1
    | succ k =>
      have hk : xs[k]? = some a := by simpa using h
      have hmem : a ∈ xs := List.getElem?_mem hk
      have hne : a ≠ x := fun e => hn.1 (e ▸ hmem)
      simp only [List.eraseIdx_cons_succ, List.mem_cons, not_or]
      exact ⟨hne, ih k hk hn.2⟩

/-! ## Removing a job twice -/

/-- C11: for a visible job `job` (the visible sequence holding no job twice, as in
every reachable state) `remove(job)` returns and emits exactly the pair
`jobViewAboutToBeRemoved(row)`, `jobViewRemoved(row)` for the job's row; the job is
then absent from the visible sequence, and a second `remove(job)` returns the state
unchanged: no event, and the visible sequence, pending list, owner map, dirty-roles map
and watched set exactly as the first call left them. -/
theorem remove_twice (s : Model) (job : JobPtr) (hvis : job ∈ s.m_jobViews)
    (hnodup : s.m_jobViews.Nodup) :
    ∃ t, remove s job = some t ∧
      emitted s t = [Event.jobViewAboutToBeRemoved (indexOf s.m_jobViews job),
        Event.jobViewRemoved (indexOf s.m_jobViews job)] ∧
      job ∉ t.m_jobViews ∧
      remove t job = some t := by
  obtain ⟨hrem, hat⟩ := remove_eq_removeAt s job hvis
  have heq := removeAt_eq s (List.indexOf job s.m_jobViews) job hat
  have hrow : indexOf s.m_jobViews job = (List.indexOf job s.m_jobViews : Int) := by
    simp [indexOf, hvis]
  have habsent : job ∉ s.m_jobViews.eraseIdx (List.indexOf job s.m_jobViews) :=
    not_mem_eraseIdx_of_nodup _ _ _ hat hnodup
  refine ⟨_, hrem.trans heq, ?_, habsent, remove_of_not_mem _ job habsent⟩
  rw [emitted_of_events_eq s _ _ rfl, hrow]

/-- C11 at an example: job 1 of `threeOwnedJobs` sits at row 1 of the visible sequence
`[0, 1, 3]`; the first `remove` emits the pair for row 1, the second changes nothing. -/
theorem remove_twice_witness :
    ((1 : JobPtr) ∈ threeOwnedJobs.m_jobViews ∧ threeOwnedJobs.m_jobViews.Nodup) ∧
    ∃ t, remove threeOwnedJobs 1 = some t ∧
      emitted threeOwnedJobs t = [Event.jobViewAboutToBeRemoved 1, Event.jobViewRemoved 1] ∧
      (1 : JobPtr) ∉ t.m_jobViews ∧
      remove t 1 = some t := by
  obtain ⟨t, ht, hev, habs, hsecond⟩ := remove_twice threeOwnedJobs 1 (by decide) (by decide)
  have hrow : indexOf threeOwnedJobs.m_jobViews 1 = 1 := by decide
  rw [hrow] at hev
  exact ⟨by decide, t, ht, hev, habs, hsecond⟩

/-! ## Immediate admission -/

theorem lookup_remove_self {V : Type} (h : List (JobPtr × V)) (key : JobPtr) :
    (QHash.remove h key).lookup key = none := by
  rw [List.lookup_eq_none_iff]
  intro e he
  have := (List.mem_filter.1 he).2
  simp only [ne_eq, decide_not, Bool.not_eq_true', decide_eq_false_iff_not] at this
  simp only [bne_iff_ne, ne_eq]
  exact fun h => this h.symm

theorem lookup_insert_self {V : Type} (h : List (JobPtr × V)) (key : JobPtr) (value : V) :
    (QHash.insert h key value).lookup key = some value := by
  unfold QHash.insert
  rw [List.lookup_append, lookup_remove_self, lookup_cons_eq]
  simp

@[simp] theorem updateApplicationPercentage_m_pendingJobViewsTimer (u : Model) (g : String) :
    (updateApplicationPercentage u g).m_pendingJobViewsTimer = u.m_pendingJobViewsTimer := by
  unfold updateApplicationPercentage; split <;> rfl

@[simp] theorem updateApplicationPercentage_m_highestJobId (u : Model) (g : String) :
    (updateApplicationPercentage u g).m_highestJobId = u.m_highestJobId := by
  unfold updateApplicationPercentage; split <;> rfl

/-- The three-way statement of `requestView` with the `immediate` hint: the result is
`updateApplicationPercentage`, with the given `desktopEntry`, run on
`requestViewAdmitted`, followed by the two writes of lines 310-311. -/
theorem requestView_immediate_eq (s : Model) (desktopEntry appName appIconName : String)
    (capabilities : Int) (serviceName processName : String) :
    requestView s desktopEntry appName appIconName capabilities true serviceName processName =
      { updateApplicationPercentage
          (requestViewAdmitted s desktopEntry appName appIconName capabilities processName)
          desktopEntry with
        m_jobServices := QHash.insert s.m_jobServices s.nextPtr serviceName
        watchedServices := insert serviceName s.watchedServices } := by
  unfold requestView requestViewAdmitted requestViewJob
  by_cases h1 : appName = "" <;> by_cases h2 : processName = "" <;>
    simp [h1, h2, Model.emit, Job.create]

/-- C13: a `requestView` call with the `immediate` hint appends the new job (allocated
at `s.nextPtr`) to the visible sequence, so that it sits at index `n`, the previous
length; the pending list and the pending-admission timer are unchanged; the call is
exactly: build the job object `requestViewJob`, emit `jobViewAboutToBeAdded(n, job)`
and `jobViewAdded(n, job)` around the append (the state `requestViewAdmitted`), run
`updateApplicationPercentage` with the job's `desktopEntry` on that state, and enter
job -> caller into the owner map and the caller into the watched clients; so the events
of the call are the two add signals followed by whatever that aggregate recompute
sends. -/
theorem requestView_immediate (s : Model) (desktopEntry appName appIconName : String)
    (capabilities : Int) (serviceName processName : String) :
    (requestView s desktopEntry appName appIconName capabilities true serviceName
      processName).m_jobViews = s.m_jobViews ++ [s.nextPtr] ∧
    (requestView s desktopEntry appName appIconName capabilities true serviceName
      processName).m_jobViews[s.m_jobViews.length]? = some s.nextPtr ∧
    (requestView s desktopEntry appName appIconName capabilities true serviceName
      processName).m_pendingJobViews = s.m_pendingJobViews ∧
    (requestView s desktopEntry appName appIconName capabilities true serviceName
      processName).m_pendingJobViewsTimer = s.m_pendingJobViewsTimer ∧
    (requestView s desktopEntry appName appIconName capabilities true serviceName processName =
        { updateApplicationPercentage
            (requestViewAdmitted s desktopEntry appName appIconName capabilities processName)
            desktopEntry with
          m_jobServices := QHash.insert s.m_jobServices s.nextPtr serviceName
          watchedServices := insert serviceName s.watchedServices } ∧
      ((requestViewAdmitted s desktopEntry appName appIconName capabilities processName).jobs
        s.nextPtr).desktopEntry = desktopEntry ∧
      emitted s (requestView s desktopEntry appName appIconName capabilities true serviceName
          processName) =
        [Event.jobViewAboutToBeAdded (s.m_jobViews.length : Int) s.nextPtr,
         Event.jobViewAdded (s.m_jobViews.length : Int) s.nextPtr] ++
        emitted
          (requestViewAdmitted s desktopEntry appName appIconName capabilities processName)
          (updateApplicationPercentage
            (requestViewAdmitted s desktopEntry appName appIconName capabilities processName)
            desktopEntry)) ∧
    (requestView s desktopEntry appName appIconName capabilities true serviceName
      processName).m_jobServices = QHash.insert s.m_jobServices s.nextPtr serviceName ∧
    (requestView s desktopEntry appName appIconName capabilities true serviceName
      processName).m_jobServices.lookup s.nextPtr = some serviceName := by
  have heq := requestView_immediate_eq s desktopEntry appName appIconName capabilities
    serviceName processName
  have hv : (requestView s desktopEntry appName appIconName capabilities true serviceName
      processName).m_jobViews = s.m_jobViews ++ [s.nextPtr] := by
    simp [requestView, Model.emit]
  have ho : (requestView s desktopEntry appName appIconName capabilities true serviceName
      processName).m_jobServices = QHash.insert s.m_jobServices s.nextPtr serviceName := by
    simp [requestView, Model.emit]
  refine ⟨hv, ?_, ?_, ?_, ⟨heq, ?_, ?_⟩, ho, ?_⟩
  · rw [hv]
    simp
  · simp [requestView, Model.emit]
  · simp [requestView, Model.emit]
  · simp [requestViewAdmitted, requestViewJob]
  · obtain ⟨E, hE, _⟩ := updateApplicationPercentage_frame
      (requestViewAdmitted s desktopEntry appName appIconName capabilities processName)
      desktopEntry
    rw [heq, hE]
    simp [emitted, requestViewAdmitted]
  · rw [ho]
    exact lookup_insert_self _ _ _

/-- C13 at an example: on the empty registry an immediate `requestView` for
`org.kde.dolphin` emits the two add signals for row 0 and then the aggregate broadcast
computed with the new job counted: count 1, percentage 0. -/
theorem requestView_immediate_witness :
    emitted (Model.initial 1)
      (requestView (Model.initial 1) "org.kde.dolphin" "Dolphin" "system-file-manager" 3 true
        ":1.10" "") =
      [Event.jobViewAboutToBeAdded 0 0, Event.jobViewAdded 0 0,
       Event.launcherEntryUpdate "application://org.kde.dolphin" true 1 true 0] := by
  have h := (requestView_immediate (Model.initial 1) "org.kde.dolphin" "Dolphin"
    "system-file-manager" 3 ":1.10" "").2.2.2.2.1.2.2
  rw [h]
  decide

/-! ## The row passed to `removeAt` -/

theorem remove_returns (s : Model) (job : JobPtr) :
    ∃ t, remove s job = some t ∧ (job ∉ s.m_jobViews → t = s) := by
  by_cases h : job ∈ s.m_jobViews
  · obtain ⟨hrem, hat⟩ := remove_eq_removeAt s job h
    exact ⟨_, hrem.trans (removeAt_eq s _ job hat), fun hn => absurd h hn⟩
  · exact ⟨s, remove_of_not_mem s job h, fun _ => rfl⟩

/-- C14 (amended): the range of the row is a precondition of `removeAt`, stated by its
`Q_ASSERT`, not an error reported to the caller: for a row with `row < 0` or
`row >= length` of the visible sequence the call does not return (there is no state,
changed or unchanged, handed back and no error value); for a row in range it returns.
`remove(job)` looks the job up first, so it always returns, and it returns the state
unchanged when the job is not in the visible sequence. -/
theorem removeAt_row_precondition (s : Model) (row : Int) :
    ((row < 0 ∨ (s.m_jobViews.length : Int) ≤ row) → removeAt s row = none) ∧
    ((0 ≤ row ∧ row < (s.m_jobViews.length : Int)) → ∃ t, removeAt s row = some t) ∧
    (∀ job, ∃ t, remove s job = some t ∧ (job ∉ s.m_jobViews → t = s)) := by
  refine ⟨?_, ?_, fun job => remove_returns s job⟩
  · intro h
    unfold removeAt
    rw [if_neg (by omega)]
  · intro h
    have hlt : row.toNat < s.m_jobViews.length := by omega
    have hjob : s.m_jobViews[row.toNat]? = some (s.m_jobViews[row.toNat]) :=
      List.getElem?_eq_getElem hlt
    have hcast : ((row.toNat : Nat) : Int) = row := Int.toNat_of_nonneg h.1
    have := removeAt_eq s row.toNat _ hjob
    rw [hcast] at this
    exact ⟨_, this⟩

/-- C14 at examples: with three visible jobs, `removeAt(1)` returns while
`removeAt(3)` and `removeAt(-1)` do not; on the empty registry `removeAt(0)` does not
return. -/
theorem removeAt_row_precondition_witness :
    ((0 : Int) ≤ 1 ∧ (1 : Int) < (threeOwnedJobs.m_jobViews.length : Int)) ∧
    (∃ t, removeAt threeOwnedJobs 1 = some t) ∧
    removeAt threeOwnedJobs 3 = none ∧
    removeAt threeOwnedJobs (-1) = none ∧
    removeAt (Model.initial 1) 0 = none := by
  refine ⟨by decide, (removeAt_row_precondition threeOwnedJobs 1).2.1 (by decide),
    (removeAt_row_precondition threeOwnedJobs 3).1 (by decide),
    (removeAt_row_precondition threeOwnedJobs (-1)).1 (by decide),
    (removeAt_row_precondition (Model.initial 1) 0).1 (by decide)⟩

/-- C14 (counterexample): with the visible sequence `[0, 1, 3]` the call `removeAt(3)`
fails its `Q_ASSERT`: it hands no state back to its caller, so it neither reports an
invalid index nor returns with the registry unchanged. -/
theorem removeAt_out_of_range_does_not_return :
    threeOwnedJobs.m_jobViews = [0, 1, 3] ∧
    (removeAt threeOwnedJobs 3).isSome = false ∧
    (removeAt threeOwnedJobs (-1)).isSome = false := by
  decide

/-! ## What a removal does -/

/-- The observing embedding of `removeAt` returns the state that `removeAt` returns,
for every state and row. -/
theorem removeAtObserved_fst (s : Model) (row : Int) :
    (removeAtObserved s row).map Prod.fst = removeAt s row := by
  unfold removeAtObserved removeAt
  split
  · split <;> rfl
  · rfl

/-- What the observing embedding of `removeAt` returns for a row that holds `job`: the
first signal is seen with the registry as it was passed in, the second with the
registry that carries every mutation. -/
theorem removeAtObserved_eq (s : Model) (row : Nat) (job : JobPtr)
    (hjob : s.m_jobViews[row]? = some job) :
    removeAtObserved s (row : Int) = some
      (({ s with
          m_jobViews := s.m_jobViews.eraseIdx row
          m_pendingDirtyRoles := QHash.remove s.m_pendingDirtyRoles job
          m_pendingJobViews := s.m_pendingJobViews.erase job
          m_jobServices := QHash.remove s.m_jobServices job
          watchedServices :=
            if (QHash.remove s.m_jobServices job).any
                (fun item => decide (item.2 = QHash.takeValue s.m_jobServices job)) then
              s.watchedServices
            else s.watchedServices.erase (QHash.takeValue s.m_jobServices job)
          live := s.live.erase job
          events := s.events ++ [Event.jobViewAboutToBeRemoved (row : Int),
            Event.jobViewRemoved (row : Int)] } : Model),
       [(Event.jobViewAboutToBeRemoved (row : Int), s),
        (Event.jobViewRemoved (row : Int),
          ({ s with
            m_jobViews := s.m_jobViews.eraseIdx row
            m_pendingDirtyRoles := QHash.remove s.m_pendingDirtyRoles job
            m_pendingJobViews := s.m_pendingJobViews.erase job
            m_jobServices := QHash.remove s.m_jobServices job
            watchedServices :=
              if (QHash.remove s.m_jobServices job).any
                  (fun item => decide (item.2 = QHash.takeValue s.m_jobServices job)) then
                s.watchedServices
              else s.watchedServices.erase (QHash.takeValue s.m_jobServices job)
            live := s.live.erase job
            events := s.events ++ [Event.jobViewAboutToBeRemoved (row : Int)] } : Model))]) := by
  have hlt : row < s.m_jobViews.length := by
    by_contra hc
    rw [List.getElem?_eq_none (by omega)] at hjob
    exact Option.noConfusion hjob
  have hrange : (0 : Int) ≤ (row : Int) ∧ (row : Int) < (s.m_jobViews.length : Int) :=
    ⟨by omega, by exact_mod_cast hlt⟩
  unfold removeAtObserved
  rw [if_pos hrange]
  simp only [Int.toNat_ofNat, hjob, Model.emit]
  split <;> simp

/-- C15: for a row in range holding `job` (the pending list holding no job twice, as
in every reachable state) `removeAt(row)` returns, and the two signals are all it
emits.  A slot connected to the signals sees `jobViewAboutToBeRemoved(row)` with the
registry exactly as it was passed in (nothing is mutated yet) and `jobViewRemoved(row)`
with the registry `mutated`, from which the returned state differs by the log entry of
that signal only (every mutation is done).  Afterwards the visible sequence is the old
one with the element at `row` deleted: entries before `row` keep their index and
entries after it move down by one; and the removed job has no entry in the dirty-roles
map, is not in the pending list, has no entry in the owner map and is deleted. -/
theorem removeAt_effects (s : Model) (row : Nat) (job : JobPtr)
    (hjob : s.m_jobViews[row]? = some job) (hpending : s.m_pendingJobViews.Nodup) :
    ∃ mutated t : Model,
      removeAt s (row : Int) = some t ∧
      t = mutated.emit (Event.jobViewRemoved (row : Int)) ∧
      mutated.events = (s.emit (Event.jobViewAboutToBeRemoved (row : Int))).events ∧
      emitted s t = [Event.jobViewAboutToBeRemoved (row : Int),
        Event.jobViewRemoved (row : Int)] ∧
      t.m_jobViews = s.m_jobViews.eraseIdx row ∧
      t.m_jobViews.length + 1 = s.m_jobViews.length ∧
      (∀ i, i < row → t.m_jobViews[i]? = s.m_jobViews[i]?) ∧
      (∀ i, row ≤ i → t.m_jobViews[i]? = s.m_jobViews[i + 1]?) ∧
      (∀ entry ∈ t.m_pendingDirtyRoles, entry.1 ≠ job) ∧
      job ∉ t.m_pendingJobViews ∧
      (∀ entry ∈ t.m_jobServices, entry.1 ≠ job) ∧
      t.live = s.live.erase job ∧
      removeAtObserved s (row : Int) =
        some (t, [(Event.jobViewAboutToBeRemoved (row : Int), s),
                  (Event.jobViewRemoved (row : Int), mutated)]) ∧
      mutated.m_jobViews = t.m_jobViews ∧
      mutated.m_pendingDirtyRoles = t.m_pendingDirtyRoles ∧
      mutated.m_pendingJobViews = t.m_pendingJobViews ∧
      mutated.m_jobServices = t.m_jobServices ∧
      mutated.watchedServices = t.watchedServices ∧
      mutated.live = t.live := by
  have hlt : row < s.m_jobViews.length := by
    by_contra hc
    rw [List.getElem?_eq_none (by omega)] at hjob
    exact Option.noConfusion hjob
  have hkey : ∀ {V : Type} (h : List (JobPtr × V)), ∀ entry ∈ QHash.remove h job,
      entry.1 ≠ job := by
    intro V h entry he
    have := (List.mem_filter.1 he).2
    simpa using this
  refine ⟨{ s with
      m_jobViews := s.m_jobViews.eraseIdx row
      m_pendingDirtyRoles := QHash.remove s.m_pendingDirtyRoles job
      m_pendingJobViews := s.m_pendingJobViews.erase job
      m_jobServices := QHash.remove s.m_jobServices job
      watchedServices :=
        if (QHash.remove s.m_jobServices job).any
            (fun item => decide (item.2 = QHash.takeValue s.m_jobServices job)) then
          s.watchedServices
        else s.watchedServices.erase (QHash.takeValue s.m_jobServices job)
      live := s.live.erase job
      events := s.events ++ [Event.jobViewAboutToBeRemoved (row : Int)] }, _,
    removeAt_eq s row job hjob, ?_, rfl, ?_, rfl, ?_, ?_, ?_, hkey _, ?_, hkey _, rfl,
    removeAtObserved_eq s row job hjob, rfl, rfl, rfl, rfl, rfl, rfl⟩
  · simp [Model.emit]
  · exact emitted_of_events_eq s _ _ rfl
  · show (s.m_jobViews.eraseIdx row).length + 1 = s.m_jobViews.length
    rw [List.length_eraseIdx, if_pos hlt]
    omega
  · intro i hi
    show (s.m_jobViews.eraseIdx row)[i]? = _
    rw [List.getElem?_eraseIdx, if_pos hi]
  · intro i hi
    show (s.m_jobViews.eraseIdx row)[i]? = _
    rw [List.getElem?_eraseIdx, if_neg (by omega)]
  · exact hpending.not_mem_erase

/-- C15 at an example: removing row 1 of the visible sequence `[0, 1, 3]` emits the
pair for row 1 and leaves `[0, 3]`: job 0 keeps row 0, job 3 moves from row 2 to
row 1; `jobViewAboutToBeRemoved(1)` is seen with the visible sequence still `[0, 1, 3]`
and job 1 still owned and live, `jobViewRemoved(1)` with the visible sequence `[0, 3]`
and job 1 gone from the owner map and the live jobs. -/
theorem removeAt_effects_witness :
    (threeOwnedJobs.m_jobViews[1]? = some 1 ∧ threeOwnedJobs.m_pendingJobViews.Nodup) ∧
    ∃ mutated t, removeAt threeOwnedJobs 1 = some t ∧
      emitted threeOwnedJobs t = [Event.jobViewAboutToBeRemoved 1, Event.jobViewRemoved 1] ∧
      t.m_jobViews = [0, 3] ∧
      (∀ entry ∈ t.m_jobServices, entry.1 ≠ 1) ∧
      removeAtObserved threeOwnedJobs 1 =
        some (t, [(Event.jobViewAboutToBeRemoved 1, threeOwnedJobs),
                  (Event.jobViewRemoved 1, mutated)]) ∧
      threeOwnedJobs.m_jobViews = [0, 1, 3] ∧
      threeOwnedJobs.live = [0, 1, 2, 3] ∧
      mutated.m_jobViews = [0, 3] ∧
      mutated.live = [0, 2, 3] := by
  obtain ⟨mutated, t, ht, _, _, hev, hv, _, _, _, _, _, ho, hl, hobs, hmv, _, _, _, _, hml⟩ :=
    removeAt_effects threeOwnedJobs 1 1 (by decide) (by decide)
  refine ⟨by decide, mutated, t, by simpa using ht, by simpa using hev, ?_, ho,
    by simpa using hobs, by decide, by decide, ?_, ?_⟩
  · rw [hv]
    decide
  · rw [hmv, hv]
    decide
  · rw [hml, hl]
    decide

/-! ## Runs stay within the reachable states -/

theorem applyOp_reachable {s t : Model} (h : Reachable s) (op : Op)
    (ht : applyOp s op = some t) : Reachable t := by
  cases op with
  | requestView d a i c im sv pn =>
    simp only [applyOp, Option.some.injEq] at ht
    exact ht ▸ Reachable.requestView h d a i c im sv pn
  | setState job v =>
    simp only [applyOp] at ht
    split at ht
    · rename_i hl
      simp only [Option.some.injEq] at ht
      exact ht ▸ Reachable.setState h job hl v
    · exact Option.noConfusion ht
  | setPercentage job v =>
    simp only [applyOp] at ht
    split at ht
    · rename_i hl
      simp only [Option.some.injEq] at ht
      exact ht ▸ Reachable.setPercentage h job hl v
    · exact Option.noConfusion ht
  | setError job v =>
    simp only [applyOp] at ht
    split at ht
    · rename_i hl
      simp only [Option.some.injEq] at ht
      exact ht ▸ Reachable.setError h job hl v
    · exact Option.noConfusion ht
  | setErrorText job v =>
    simp only [applyOp] at ht
    split at ht
    · rename_i hl
      simp only [Option.some.injEq] at ht
      exact ht ▸ Reachable.setErrorText h job hl v
    · exact Option.noConfusion ht
  | setSummary job v =>
    simp only [applyOp] at ht
    split at ht
    · rename_i hl
      simp only [Option.some.injEq] at ht
      exact ht ▸ Reachable.setSummary h job hl v
    · exact Option.noConfusion ht
  | setDestUrl job v =>
    simp only [applyOp] at ht
    split at ht
    · rename_i hl
      simp only [Option.some.injEq] at ht
      exact ht ▸ Reachable.setDestUrl h job hl v
    · exact Option.noConfusion ht
  | setExpired job v =>
    simp only [applyOp] at ht
    split at ht
    · rename_i hl
      simp only [Option.some.injEq] at ht
      exact ht ▸ Reachable.setExpired h job hl v
    · exact Option.noConfusion ht
  | setDismissed job v =>
    simp only [applyOp] at ht
    split at ht
    · rename_i hl
      simp only [Option.some.injEq] at ht
      exact ht ▸ Reachable.setDismissed h job hl v
    · exact Option.noConfusion ht
  | compressUpdatesTimeout =>
    simp only [applyOp, Option.some.injEq] at ht
    exact ht ▸ Reachable.compressUpdatesTimeout h
  | pendingJobViewsTimeout => exact Reachable.pendingJobViewsTimeout h ht
  | removeAt row => exact Reachable.removeAt h row ht
  | remove job => exact Reachable.remove h job ht
  | onServiceUnregistered sv =>
    simp only [applyOp, Option.some.injEq] at ht
    exact ht ▸ Reachable.onServiceUnregistered h sv
  | advance dt =>
    simp only [applyOp, Option.some.injEq] at ht
    exact ht ▸ Reachable.advance h dt

theorem run_reachable {s t : Model} (h : Reachable s) (ops : List Op)
    (ht : run s ops = some t) : Reachable t := by
  induction ops generalizing s with
  | nil =>
    simp only [run, Option.some.injEq] at ht
    exact ht ▸ h
  | cons op rest ih =>
    simp only [run] at ht
    split at ht
    · exact Option.noConfusion ht
    · rename_i u hu
      exact ih (applyOp_reachable h op hu) ht

/-- C16 (the code departs from the claim): a job is registered without the `immediate`
hint, stops while pending, and the pending-admission timer expires.  The state reached
is a reachable state in which job 0 is live (it was not deleted) and is in neither the
visible sequence nor the pending list. -/
theorem reachable_live_job_in_neither_list :
    ∃ t, run (Model.initial 1) stoppedBeforeExpiry = some t ∧ Reachable t ∧
      t.live = [0] ∧ t.m_jobViews = [] ∧ t.m_pendingJobViews = [] := by
  have hl : (run (Model.initial 1) stoppedBeforeExpiry).map Model.live = some [0] := by decide
  have hv : (run (Model.initial 1) stoppedBeforeExpiry).map Model.m_jobViews = some [] := by
    decide
  have hp : (run (Model.initial 1) stoppedBeforeExpiry).map Model.m_pendingJobViews =
      some [] := by decide
  cases h : run (Model.initial 1) stoppedBeforeExpiry with
  | none =>
    rw [h] at hl
    exact Option.noConfusion hl
  | some t =>
    rw [h] at hl hv hp
    simp only [Option.map_some', Option.some.injEq] at hl hv hp
    exact ⟨t, rfl, run_reachable (Reachable.initial 1) _ h, hl, hv, hp⟩

/-! ## Job ids -/

theorem keepsIds_refl (s : Model) : keepsIds s s := ⟨rfl, rfl, fun _ => rfl⟩

theorem keepsIds_trans {s t u : Model} (h1 : keepsIds s t) (h2 : keepsIds t u) :
    keepsIds s u :=
  ⟨h2.1.trans h1.1, h2.2.1.trans h1.2.1, fun p => (h2.2.2 p).trans (h1.2.2 p)⟩

theorem scheduleUpdate_keepsIds (s : Model) (job : JobPtr) (role : Roles) :
    keepsIds s (scheduleUpdate s job role) := ⟨rfl, rfl, fun _ => rfl⟩

theorem modifyJob_keepsIds (s : Model) (job : JobPtr) (f : Job → Job)
    (hf : ∀ j, (f j).id = j.id) : keepsIds s (s.modifyJob job f) := by
  refine ⟨rfl, rfl, fun p => ?_⟩
  by_cases hp : p = job
  · subst hp
    simp [Model.modifyJob, hf]
  · simp [Model.modifyJob, Function.update_noteq hp]

theorem updateApplicationPercentage_keepsIds (s : Model) (g : String) :
    keepsIds s (updateApplicationPercentage s g) :=
  ⟨by simp, by simp, fun p => by simp⟩

theorem emitJobUrlsChanged_keepsIds (s : Model) : keepsIds s (emitJobUrlsChanged s) :=
  ⟨rfl, rfl, fun _ => rfl⟩

theorem onStateChanged_keepsIds (s : Model) (job : JobPtr) :
    keepsIds s (onStateChanged s job) := by
  have h3 : keepsIds s (scheduleUpdate (scheduleUpdate (scheduleUpdate s job
      Roles.JobStateRole) job Roles.TimeoutRole) job Roles.ClosableRole) :=
    ⟨rfl, rfl, fun _ => rfl⟩
  unfold onStateChanged
  simp only
  split
  · exact keepsIds_trans h3 (keepsIds_trans (updateApplicationPercentage_keepsIds _ _)
      (emitJobUrlsChanged_keepsIds _))
  · exact h3

theorem setState_keepsIds (s : Model) (job : JobPtr) (state : JobState) :
    keepsIds s (setState s job state) := by
  unfold setState
  split
  · exact keepsIds_refl s
  · refine keepsIds_trans ?_ (onStateChanged_keepsIds _ _)
    exact modifyJob_keepsIds s job _ (fun _ => rfl)

theorem setPercentage_keepsIds (s : Model) (job : JobPtr) (percentage : Int) :
    keepsIds s (setPercentage s job percentage) := by
  unfold setPercentage
  split
  · exact keepsIds_refl s
  · refine keepsIds_trans ?_ (scheduleUpdate_keepsIds _ _ _)
    exact modifyJob_keepsIds s job _ (fun _ => rfl)

theorem setError_keepsIds (s : Model) (job : JobPtr) (error : Int) :
    keepsIds s (setError s job error) := by
  unfold setError
  split
  · exact keepsIds_refl s
  · refine keepsIds_trans ?_ (scheduleUpdate_keepsIds _ _ _)
    exact modifyJob_keepsIds s job _ (fun _ => rfl)

theorem setErrorText_keepsIds (s : Model) (job : JobPtr) (errorText : String) :
    keepsIds s (setErrorText s job errorText) := by
  unfold setErrorText
  split
  · exact keepsIds_refl s
  · refine keepsIds_trans ?_ (scheduleUpdate_keepsIds _ _ _)
    exact modifyJob_keepsIds s job _ (fun _ => rfl)

theorem setSummary_keepsIds (s : Model) (job : JobPtr) (summary : String) :
    keepsIds s (setSummary s job summary) := by
  unfold setSummary
  split
  · exact keepsIds_refl s
  · refine keepsIds_trans ?_ (scheduleUpdate_keepsIds _ _ _)
    exact modifyJob_keepsIds s job _ (fun _ => rfl)

theorem setDestUrl_keepsIds (s : Model) (job : JobPtr) (destUrl : QUrl) :
    keepsIds s (setDestUrl s job destUrl) := by
  unfold setDestUrl onDestUrlChanged
  split
  · exact keepsIds_refl s
  · refine keepsIds_trans ?_
      (keepsIds_trans (scheduleUpdate_keepsIds _ _ _) (emitJobUrlsChanged_keepsIds _))
    exact modifyJob_keepsIds s job _ (fun _ => rfl)

theorem setExpired_keepsIds (s : Model) (job : JobPtr) (expired : Bool) :
    keepsIds s (setExpired s job expired) := by
  unfold setExpired
  split
  · exact keepsIds_refl s
  · refine keepsIds_trans ?_ (scheduleUpdate_keepsIds _ _ _)
    exact modifyJob_keepsIds s job _ (fun _ => rfl)

theorem setDismissed_keepsIds (s : Model) (job : JobPtr) (dismissed : Bool) :
    keepsIds s (setDismissed s job dismissed) := by
  unfold setDismissed
  split
  · exact keepsIds_refl s
  · refine keepsIds_trans ?_ (scheduleUpdate_keepsIds _ _ _)
    exact modifyJob_keepsIds s job _ (fun _ => rfl)

theorem markFailedLoop_keepsIds (L : List JobPtr) (s : Model) :
    keepsIds s (L.foldl markFailed s) := by
  induction L generalizing s with
  | nil => exact keepsIds_refl s
  | cons job rest ih =>
    rw [List.foldl_cons]
    exact keepsIds_trans (keepsIds_trans (keepsIds_trans (setError_keepsIds _ _ _)
      (setErrorText_keepsIds _ _ _)) (setState_keepsIds _ _ _)) (ih _)

theorem compressUpdatesTimeout_keepsIds (s : Model) :
    keepsIds s (compressUpdatesTimeout s) := by
  obtain ⟨E, hE, _⟩ := compressUpdatesLoop_mem s.m_pendingDirtyRoles
    { s with m_compressUpdatesTimer := none }
  unfold compressUpdatesTimeout
  simp only [hE]
  exact ⟨rfl, rfl, fun _ => rfl⟩

theorem removeAt_keepsIds {s t : Model} (row : Int) (h : removeAt s row = some t) :
    keepsIds s t := by
  unfold removeAt at h
  split at h
  · split at h
    · exact Option.noConfusion h
    · simp only [Option.some.injEq] at h
      subst h
      refine ⟨?_, ?_, fun p => ?_⟩
      · simp only [Model.emit]
        split <;> rfl
      · simp only [Model.emit]
        split <;> rfl
      · simp only [Model.emit]
        split <;> rfl
  · exact Option.noConfusion h

theorem remove_keepsIds {s t : Model} (job : JobPtr) (h : remove s job = some t) :
    keepsIds s t := by
  unfold remove at h
  simp only at h
  split at h
  · exact removeAt_keepsIds _ h
  · simp only [Option.some.injEq] at h
    exact h ▸ keepsIds_refl s

theorem pendingJobViewsLoop_keepsIds (L : List JobPtr) {s t : Model}
    (h : pendingJobViewsLoop s L = some t) : keepsIds s t := by
  induction L generalizing s with
  | nil =>
    simp only [pendingJobViewsLoop, Option.some.injEq] at h
    exact h ▸ keepsIds_refl s
  | cons job rest ih =>
    simp only [pendingJobViewsLoop] at h
    split at h
    · exact Option.noConfusion h
    · rename_i u hu
      refine keepsIds_trans ?_ (ih h)
      unfold pendingJobViewsStep at hu
      split at hu
      · exact remove_keepsIds job hu
      · simp only [Option.some.injEq] at hu
        subst hu
        exact keepsIds_trans (s := s) ⟨rfl, rfl, fun _ => rfl⟩
          (updateApplicationPercentage_keepsIds _ _)

theorem pendingJobViewsTimeout_keepsIds {s t : Model}
    (h : pendingJobViewsTimeout s = some t) : keepsIds s t := by
  unfold pendingJobViewsTimeout at h
  simp only at h
  split at h
  · exact Option.noConfusion h
  · rename_i u hu
    simp only [Option.some.injEq] at h
    subst h
    have := pendingJobViewsLoop_keepsIds _ hu
    exact ⟨this.1, this.2.1, this.2.2⟩

/-- Every operation other than `requestView` creates no job and rewrites no id. -/
theorem applyOp_keepsIds {s t : Model} (op : Op) (hop : op.isRequestView = false)
    (h : applyOp s op = some t) : keepsIds s t := by
  cases op with
  | requestView d a i c im sv pn => simp [Op.isRequestView] at hop
  | setState job v =>
    simp only [applyOp] at h
    split at h
    · simp only [Option.some.injEq] at h
      exact h ▸ setState_keepsIds s job v
    · exact Option.noConfusion h
  | setPercentage job v =>
    simp only [applyOp] at h
    split at h
    · simp only [Option.some.injEq] at h
      exact h ▸ setPercentage_keepsIds s job v
    · exact Option.noConfusion h
  | setError job v =>
    simp only [applyOp] at h
    split at h
    · simp only [Option.some.injEq] at h
      exact h ▸ setError_keepsIds s job v
    · exact Option.noConfusion h
  | setErrorText job v =>
    simp only [applyOp] at h
    split at h
    · simp only [Option.some.injEq] at h
      exact h ▸ setErrorText_keepsIds s job v
    · exact Option.noConfusion h
  | setSummary job v =>
    simp only [applyOp] at h
    split at h
    · simp only [Option.some.injEq] at h
      exact h ▸ setSummary_keepsIds s job v
    · exact Option.noConfusion h
  | setDestUrl job v =>
    simp only [applyOp] at h
    split at h
    · simp only [Option.some.injEq] at h
      exact h ▸ setDestUrl_keepsIds s job v
    · exact Option.noConfusion h
  | setExpired job v =>
    simp only [applyOp] at h
    split at h
    · simp only [Option.some.injEq] at h
      exact h ▸ setExpired_keepsIds s job v
    · exact Option.noConfusion h
  | setDismissed job v =>
    simp only [applyOp] at h
    split at h
    · simp only [Option.some.injEq] at h
      exact h ▸ setDismissed_keepsIds s job v
    · exact Option.noConfusion h
  | compressUpdatesTimeout =>
    simp only [applyOp, Option.some.injEq] at h
    exact h ▸ compressUpdatesTimeout_keepsIds s
  | pendingJobViewsTimeout => exact pendingJobViewsTimeout_keepsIds h
  | removeAt row => exact removeAt_keepsIds row h
  | remove job => exact remove_keepsIds job h
  | onServiceUnregistered sv =>
    simp only [applyOp, Option.some.injEq] at h
    subst h
    have := markFailedLoop_keepsIds (QHash.keys s.m_jobServices sv)
      { s with watchedServices := s.watchedServices.erase sv }
    exact ⟨this.1, this.2.1, this.2.2⟩
  | advance dt =>
    simp only [applyOp, Option.some.injEq] at h
    exact h ▸ ⟨rfl, rfl, fun _ => rfl⟩

theorem idsIssued_of_keepsIds {s t : Model} (h : keepsIds s t) (hs : idsIssued s) :
    idsIssued t := by
  obtain ⟨hn, hc, hj⟩ := h
  unfold idsIssued
  rw [hn, hc]
  exact ⟨hs.1, fun p hp hb => (hj p).trans (hs.2 p hp hb)⟩

theorem requestView_ids (s : Model) (desktopEntry appName appIconName : String)
    (capabilities : Int) (immediate : Bool) (serviceName processName : String) :
    (requestView s desktopEntry appName appIconName capabilities immediate serviceName
      processName).nextPtr = s.nextPtr + 1 ∧
    (requestView s desktopEntry appName appIconName capabilities immediate serviceName
      processName).m_highestJobId =
      wrapInt ((if s.m_highestJobId = 0 then wrapInt (s.m_highestJobId + 1)
        else s.m_highestJobId) + 1) ∧
    ((requestView s desktopEntry appName appIconName capabilities immediate serviceName
      processName).jobs s.nextPtr).id =
      (if s.m_highestJobId = 0 then wrapInt (s.m_highestJobId + 1) else s.m_highestJobId) ∧
    ∀ p, p ≠ s.nextPtr →
      (requestView s desktopEntry appName appIconName capabilities immediate serviceName
        processName).jobs p = s.jobs p := by
  cases immediate with
  | true =>
    refine ⟨by simp [requestView, Model.emit], by simp [requestView, Model.emit], ?_, ?_⟩
    · simp only [requestView, if_true, updateApplicationPercentage_jobs, Model.emit,
        Function.update_same]
      split <;> (try split) <;> rfl
    · intro p hp
      simp only [requestView, if_true, updateApplicationPercentage_jobs, Model.emit]
      exact Function.update_noteq hp _ _
  | false =>
    refine ⟨by simp [requestView], by simp [requestView], ?_, ?_⟩
    · simp only [requestView, Bool.false_eq_true, if_false, Function.update_same]
      split <;> (try split) <;> rfl
    · intro p hp
      simp only [requestView, Bool.false_eq_true, if_false]
      exact Function.update_noteq hp _ _

theorem requestView_idsIssued (s : Model) (desktopEntry appName appIconName : String)
    (capabilities : Int) (immediate : Bool) (serviceName processName : String)
    (hs : idsIssued s) :
    idsIssued (requestView s desktopEntry appName appIconName capabilities immediate
      serviceName processName) := by
  obtain ⟨hn, hc, hid, hold⟩ := requestView_ids s desktopEntry appName appIconName
    capabilities immediate serviceName processName
  obtain ⟨hcounter, hjobs⟩ := hs
  unfold idsIssued
  rw [hn, hc]
  constructor
  · right
    refine ⟨Nat.succ_pos _, ?_⟩
    intro hb
    rcases hcounter with ⟨hk, h01⟩ | ⟨hk, hnext⟩
    · rcases h01 with h | h <;> simp [h, hk, wrapInt]
    · have hb' : (s.nextPtr : Int) + 1 < 2147483648 := by push_cast at hb; omega
      have h1 := hnext hb'
      have hne : s.m_highestJobId ≠ 0 := by omega
      rw [if_neg hne, h1]
      push_cast at hb ⊢
      unfold wrapInt
      omega
  · intro p hp hb
    by_cases hpk : p = s.nextPtr
    · rw [hpk, hid]
      rw [hpk] at hb
      rcases hcounter with ⟨hk, h01⟩ | ⟨hk, hnext⟩
      · rcases h01 with h | h <;> simp [h, hk, wrapInt]
      · have h1 := hnext hb
        have hne : s.m_highestJobId ≠ 0 := by omega
        rw [if_neg hne, h1]
    · rw [hold p hpk]
      exact hjobs p (Nat.lt_of_le_of_ne (Nat.lt_succ_iff.1 hp) hpk) hb

theorem initial_idsIssued (h0 : Int) (hfresh : h0 = 0 ∨ h0 = 1) :
    idsIssued (Model.initial h0) :=
  ⟨Or.inl ⟨rfl, hfresh⟩, fun p hp => absurd hp (Nat.not_lt_zero p)⟩

/-- Along a run the id invariant is kept and `nextPtr` counts the `requestView`
calls. -/
theorem run_idsIssued (ops : List Op) {s t : Model} (hs : idsIssued s)
    (h : run s ops = some t) :
    idsIssued t ∧ t.nextPtr = s.nextPtr + requestCount ops := by
  induction ops generalizing s with
  | nil =>
    simp only [run, Option.some.injEq] at h
    subst h
    exact ⟨hs, by simp [requestCount]⟩
  | cons op rest ih =>
    simp only [run] at h
    split at h
    · exact Option.noConfusion h
    · rename_i u hu
      by_cases hop : op.isRequestView = true
      · cases op with
        | requestView d a i c im sv pn =>
          simp only [applyOp, Option.some.injEq] at hu
          subst hu
          obtain ⟨h1, h2⟩ := ih (requestView_idsIssued s d a i c im sv pn hs) h
          refine ⟨h1, ?_⟩
          rw [h2, (requestView_ids s d a i c im sv pn).1]
          simp only [requestCount, List.filter_cons, Op.isRequestView, if_true,
            List.length_cons]
          ring
        | _ => simp [Op.isRequestView] at hop
      · have hop' : op.isRequestView = false := by simpa using hop
        have hk := applyOp_keepsIds op hop' hu
        obtain ⟨h1, h2⟩ := ih (idsIssued_of_keepsIds hk hs) h
        refine ⟨h1, ?_⟩
        rw [h2, hk.1]
        simp [requestCount, List.filter_cons, hop']

/-- C12: starting from a fresh registry whose id counter is 0 or 1, after any run of
operations containing `n - 1` calls of `requestView` (with `n` below the overflow of
`int`), the next `requestView` call, the `n`-th, creates its job at address `n - 1` and
gives it the id `n`; every job created earlier still has the id of its call number
(the job of call `p + 1` has id `p + 1`), so every earlier id is positive and strictly
smaller than the new one: the first id is 1, 0 is never issued, and no id is issued
twice. -/
theorem requestView_issues_next_id (h0 : Int) (hfresh : h0 = 0 ∨ h0 = 1) (pre : List Op)
    (s : Model) (hrun : run (Model.initial h0) pre = some s)
    (hbound : (requestCount pre : Int) + 1 < 2147483648)
    (desktopEntry appName appIconName : String) (capabilities : Int) (immediate : Bool)
    (serviceName processName : String) :
    s.nextPtr = requestCount pre ∧
    ((requestView s desktopEntry appName appIconName capabilities immediate serviceName
      processName).jobs s.nextPtr).id = (requestCount pre : Int) + 1 ∧
    (∀ p, p < s.nextPtr →
      ((requestView s desktopEntry appName appIconName capabilities immediate serviceName
        processName).jobs p).id = (p : Int) + 1) ∧
    (∀ p, p < s.nextPtr →
      0 < ((requestView s desktopEntry appName appIconName capabilities immediate
        serviceName processName).jobs p).id ∧
      ((requestView s desktopEntry appName appIconName capabilities immediate serviceName
        processName).jobs p).id <
      ((requestView s desktopEntry appName appIconName capabilities immediate serviceName
        processName).jobs s.nextPtr).id) := by
  obtain ⟨hs, hn⟩ := run_idsIssued pre (initial_idsIssued h0 hfresh) hrun
  have hn' : s.nextPtr = requestCount pre := by
    rw [hn]
    simp [Model.initial]
  have hafter := requestView_idsIssued s desktopEntry appName appIconName capabilities
    immediate serviceName processName hs
  obtain ⟨hnext, _, _, _⟩ := requestView_ids s desktopEntry appName appIconName
    capabilities immediate serviceName processName
  have hids := hafter.2
  rw [hnext] at hids
  have hnew := hids s.nextPtr (Nat.lt_succ_self _) (by rw [hn']; exact hbound)
  have hold : ∀ p, p < s.nextPtr →
      ((requestView s desktopEntry appName appIconName capabilities immediate serviceName
        processName).jobs p).id = (p : Int) + 1 := by
    intro p hp
    apply hids p (Nat.lt_succ_of_lt hp)
    have : (p : Int) < (s.nextPtr : Int) := by exact_mod_cast hp
    rw [hn'] at this
    omega
  refine ⟨hn', ?_, hold, ?_⟩
  · rw [hnew, hn']
  · intro p hp
    rw [hold p hp, hnew]
    have : (p : Int) < (s.nextPtr : Int) := by exact_mod_cast hp
    omega

/-- C12 at an example: from a counter of 0, after a run holding one `requestView` call,
the next call creates the job at address 1 with id 2, and the first job has id 1. -/
theorem requestView_issues_next_id_witness :
    ∃ s, run (Model.initial 0) stoppedBeforeExpiry = some s ∧
      s.nextPtr = 1 ∧
      ((requestView s "" "wget" "" 0 true ":1.12" "").jobs 1).id = 2 ∧
      ((requestView s "" "wget" "" 0 true ":1.12" "").jobs 0).id = 1 := by
  have hsome : (run (Model.initial 0) stoppedBeforeExpiry).isSome = true := by decide
  have hcount : requestCount stoppedBeforeExpiry = 1 := by decide
  cases h : run (Model.initial 0) stoppedBeforeExpiry with
  | none =>
    rw [h] at hsome
    exact absurd hsome (by simp)
  | some s =>
    obtain ⟨hn, hnew, hold, _⟩ := requestView_issues_next_id 0 (Or.inl rfl)
      stoppedBeforeExpiry s h (by rw [hcount]; decide) "" "wget" "" 0 true ":1.12" ""
    rw [hcount] at hn hnew
    rw [hn] at hnew hold
    exact ⟨s, rfl, hn, by simpa using hnew, by simpa using hold 0 (by decide)⟩

/-! ## The jobs of the dirty-roles map -/

theorem dirtiesOnly_refl (s : Model) (job : JobPtr) : dirtiesOnly s s job :=
  fun _ hk => Or.inr hk

theorem dirtiesOnly_trans {s t u : Model} {job : JobPtr} (h1 : dirtiesOnly s t job)
    (h2 : dirtiesOnly t u job) : dirtiesOnly s u job := by
  intro k hk
  rcases h2 k hk with h | h
  · exact Or.inl h
  · exact h1 k h

theorem dirtiesOnly_of_eq {s t : Model} (job : JobPtr)
    (h : t.m_pendingDirtyRoles = s.m_pendingDirtyRoles) : dirtiesOnly s t job := by
  intro k hk
  rw [h] at hk
  exact Or.inr hk

theorem scheduleUpdate_dirtiesOnly (s : Model) (job : JobPtr) (role : Roles) :
    dirtiesOnly s (scheduleUpdate s job role) job := by
  intro k hk
  have hkeys := appendRole_keys s.m_pendingDirtyRoles job role
  simp only [scheduleUpdate] at hk
  rw [hkeys] at hk
  split at hk
  · exact Or.inr hk
  · rcases List.mem_append.1 hk with h | h
    · exact Or.inr h
    · exact Or.inl (by simpa using h)

theorem onStateChanged_dirtiesOnly (s : Model) (job : JobPtr) :
    dirtiesOnly s (onStateChanged s job) job := by
  have h3 : dirtiesOnly s (scheduleUpdate (scheduleUpdate (scheduleUpdate s job
      Roles.JobStateRole) job Roles.TimeoutRole) job Roles.ClosableRole) job :=
    dirtiesOnly_trans (dirtiesOnly_trans (scheduleUpdate_dirtiesOnly _ _ _)
      (scheduleUpdate_dirtiesOnly _ _ _)) (scheduleUpdate_dirtiesOnly _ _ _)
  unfold onStateChanged
  simp only
  split
  · refine dirtiesOnly_trans h3 (dirtiesOnly_of_eq job ?_)
    simp [emitJobUrlsChanged, Model.emit]
  · exact h3

theorem setState_dirtiesOnly (s : Model) (job : JobPtr) (state : JobState) :
    dirtiesOnly s (setState s job state) job := by
  unfold setState
  split
  · exact dirtiesOnly_refl s job
  · refine dirtiesOnly_trans ?_ (onStateChanged_dirtiesOnly _ _)
    exact dirtiesOnly_of_eq job rfl

theorem setPercentage_dirtiesOnly (s : Model) (job : JobPtr) (percentage : Int) :
    dirtiesOnly s (setPercentage s job percentage) job := by
  unfold setPercentage
  split
  · exact dirtiesOnly_refl s job
  · refine dirtiesOnly_trans ?_ (scheduleUpdate_dirtiesOnly _ _ _)
    exact dirtiesOnly_of_eq job rfl

theorem setError_dirtiesOnly (s : Model) (job : JobPtr) (error : Int) :
    dirtiesOnly s (setError s job error) job := by
  unfold setError
  split
  · exact dirtiesOnly_refl s job
  · refine dirtiesOnly_trans ?_ (scheduleUpdate_dirtiesOnly _ _ _)
    exact dirtiesOnly_of_eq job rfl

theorem setErrorText_dirtiesOnly (s : Model) (job : JobPtr) (errorText : String) :
    dirtiesOnly s (setErrorText s job errorText) job := by
  unfold setErrorText
  split
  · exact dirtiesOnly_refl s job
  · refine dirtiesOnly_trans ?_ (scheduleUpdate_dirtiesOnly _ _ _)
    exact dirtiesOnly_of_eq job rfl

theorem setSummary_dirtiesOnly (s : Model) (job : JobPtr) (summary : String) :
    dirtiesOnly s (setSummary s job summary) job := by
  unfold setSummary
  split
  · exact dirtiesOnly_refl s job
  · refine dirtiesOnly_trans ?_ (scheduleUpdate_dirtiesOnly _ _ _)
    exact dirtiesOnly_of_eq job rfl

theorem setDestUrl_dirtiesOnly (s : Model) (job : JobPtr) (destUrl : QUrl) :
    dirtiesOnly s (setDestUrl s job destUrl) job := by
  unfold setDestUrl onDestUrlChanged
  split
  · exact dirtiesOnly_refl s job
  · refine dirtiesOnly_trans ?_ (dirtiesOnly_trans (scheduleUpdate_dirtiesOnly _ _ _)
      (dirtiesOnly_of_eq job rfl))
    exact dirtiesOnly_of_eq job rfl

theorem setExpired_dirtiesOnly (s : Model) (job : JobPtr) (expired : Bool) :
    dirtiesOnly s (setExpired s job expired) job := by
  unfold setExpired
  split
  · exact dirtiesOnly_refl s job
  · refine dirtiesOnly_trans ?_ (scheduleUpdate_dirtiesOnly _ _ _)
    exact dirtiesOnly_of_eq job rfl

theorem setDismissed_dirtiesOnly (s : Model) (job : JobPtr) (dismissed : Bool) :
    dirtiesOnly s (setDismissed s job dismissed) job := by
  unfold setDismissed
  split
  · exact dirtiesOnly_refl s job
  · refine dirtiesOnly_trans ?_ (scheduleUpdate_dirtiesOnly _ _ _)
    exact dirtiesOnly_of_eq job rfl

/-- A step that leaves the live jobs, the allocation mark and the owner map alone and
dirties only a live job keeps the bookkeeping invariant. -/
theorem liveInvariant_of_dirtiesOnly {s t : Model} {job : JobPtr} (hreg : sameRegistry s t)
    (hd : dirtiesOnly s t job) (hl : job ∈ s.live) (hs : liveInvariant s) :
    liveInvariant t := by
  obtain ⟨_, _, ho, _, hlive, hn⟩ := hreg
  obtain ⟨n, b, o, d⟩ := hs
  unfold liveInvariant
  rw [hlive, hn, ho]
  refine ⟨n, b, o, ?_⟩
  intro entry he
  rcases hd entry.1 (List.mem_map_of_mem _ he) with h | h
  · rw [h]
    exact hl
  · obtain ⟨e, hemem, hek⟩ := List.mem_map.1 h
    rw [← hek]
    exact d e hemem

theorem markFailedLoop_liveInvariant (L : List JobPtr) (s : Model)
    (hL : ∀ job ∈ L, job ∈ s.live) (hs : liveInvariant s) :
    liveInvariant (L.foldl markFailed s) := by
  induction L generalizing s with
  | nil => exact hs
  | cons job rest ih =>
    rw [List.foldl_cons]
    have hjob := hL job (List.mem_cons_self _ _)
    have hreg := (markFailed_spec s job).1.1
    have hd : dirtiesOnly s (markFailed s job) job :=
      dirtiesOnly_trans (dirtiesOnly_trans (setError_dirtiesOnly _ _ _)
        (setErrorText_dirtiesOnly _ _ _)) (setState_dirtiesOnly _ _ _)
    apply ih
    · intro x hx
      rw [hreg.2.2.2.2.1]
      exact hL x (List.mem_cons_of_mem _ hx)
    · exact liveInvariant_of_dirtiesOnly hreg hd hjob hs

theorem removeAt_fields {s t : Model} (row : Int) (h : removeAt s row = some t) :
    ∃ job, t.live = s.live.erase job ∧
      t.m_pendingDirtyRoles = QHash.remove s.m_pendingDirtyRoles job ∧
      t.m_jobServices = QHash.remove s.m_jobServices job ∧
      t.nextPtr = s.nextPtr := by
  unfold removeAt at h
  split at h
  · split at h
    · exact Option.noConfusion h
    · rename_i job _
      simp only [Option.some.injEq] at h
      subst h
      refine ⟨job, ?_, ?_, ?_, ?_⟩
      · simp only [Model.emit]
        split <;> rfl
      · simp only [Model.emit]
        split <;> rfl
      · simp only [Model.emit]
        split <;> rfl
      · simp only [Model.emit]
        split <;> rfl
  · exact Option.noConfusion h

theorem liveInvariant_removeAt {s t : Model} (row : Int) (h : removeAt s row = some t)
    (hs : liveInvariant s) : liveInvariant t := by
  obtain ⟨job, hl, hd, ho, hn⟩ := removeAt_fields row h
  obtain ⟨n, b, o, d⟩ := hs
  unfold liveInvariant
  rw [hl, hd, ho, hn]
  have hkey : ∀ {V : Type} (m : List (JobPtr × V)), (∀ e ∈ m, e.1 ∈ s.live) →
      ∀ e ∈ QHash.remove m job, e.1 ∈ s.live.erase job := by
    intro V m hm e he
    obtain ⟨hmem, hne⟩ := List.mem_filter.1 he
    have hne' : e.1 ≠ job := by simpa using hne
    exact (List.Nodup.mem_erase_iff n).2 ⟨hne', hm e hmem⟩
  exact ⟨n.erase job, fun x hx => b x (List.mem_of_mem_erase hx), hkey _ o, hkey _ d⟩

theorem liveInvariant_requestView (s : Model) (desktopEntry appName appIconName : String)
    (capabilities : Int) (immediate : Bool) (serviceName processName : String)
    (hs : liveInvariant s) :
    liveInvariant (requestView s desktopEntry appName appIconName capabilities immediate
      serviceName processName) := by
  obtain ⟨n, b, o, d⟩ := hs
  have hfresh : s.nextPtr ∉ s.live := fun h => Nat.lt_irrefl _ (b _ h)
  have hlive : (requestView s desktopEntry appName appIconName capabilities immediate
      serviceName processName).live = s.live ++ [s.nextPtr] := by
    cases immediate <;> simp [requestView, Model.emit]
  have hdirty : (requestView s desktopEntry appName appIconName capabilities immediate
      serviceName processName).m_pendingDirtyRoles = s.m_pendingDirtyRoles := by
    cases immediate <;> simp [requestView, Model.emit]
  have howner : (requestView s desktopEntry appName appIconName capabilities immediate
      serviceName processName).m_jobServices =
      QHash.insert s.m_jobServices s.nextPtr serviceName := by
    cases immediate <;> simp [requestView, Model.emit]
  have hnext := (requestView_ids s desktopEntry appName appIconName capabilities immediate
    serviceName processName).1
  unfold liveInvariant
  rw [hlive, hdirty, howner, hnext]
  refine ⟨?_, ?_, ?_, ?_⟩
  · rw [List.nodup_append]
    exact ⟨n, List.nodup_singleton _, by simpa using hfresh⟩
  · intro x hx
    rcases List.mem_append.1 hx with h | h
    · exact Nat.lt_succ_of_lt (b x h)
    · have : x = s.nextPtr := by simpa using h
      rw [this]
      exact Nat.lt_succ_self _
  · intro e he
    unfold QHash.insert at he
    rcases List.mem_append.1 he with h | h
    · exact List.mem_append_left _ (o e (List.mem_filter.1 h).1)
    · have : e = (s.nextPtr, serviceName) := by simpa using h
      rw [this]
      simp
  · intro e he
    exact List.mem_append_left _ (d e he)

/-- Every reachable state satisfies the bookkeeping invariant of the live jobs. -/
theorem reachable_liveInvariant {s : Model} (h : Reachable s) : liveInvariant s := by
  induction h with
  | initial id => exact ⟨List.nodup_nil, by simp [Model.initial], by simp [Model.initial],
      by simp [Model.initial]⟩
  | requestView _ d a i c im sv pn ih => exact liveInvariant_requestView _ d a i c im sv pn ih
  | setState _ job hl v ih =>
    exact liveInvariant_of_dirtiesOnly (setState_spec _ job v).1.1
      (setState_dirtiesOnly _ job v) hl ih
  | setPercentage _ job hl v ih =>
    exact liveInvariant_of_dirtiesOnly (setPercentage_onlyNotifies _ job v).1
      (setPercentage_dirtiesOnly _ job v) hl ih
  | setError _ job hl v ih =>
    exact liveInvariant_of_dirtiesOnly (setError_spec _ job v).1.1
      (setError_dirtiesOnly _ job v) hl ih
  | setErrorText _ job hl v ih =>
    exact liveInvariant_of_dirtiesOnly (setErrorText_spec _ job v).1.1
      (setErrorText_dirtiesOnly _ job v) hl ih
  | setSummary _ job hl v ih =>
    exact liveInvariant_of_dirtiesOnly (setSummary_onlyNotifies _ job v).1
      (setSummary_dirtiesOnly _ job v) hl ih
  | setDestUrl _ job hl v ih =>
    exact liveInvariant_of_dirtiesOnly (setDestUrl_onlyNotifies _ job v).1
      (setDestUrl_dirtiesOnly _ job v) hl ih
  | setExpired _ job hl v ih =>
    exact liveInvariant_of_dirtiesOnly (setExpired_onlyNotifies _ job v).1
      (setExpired_dirtiesOnly _ job v) hl ih
  | setDismissed _ job hl v ih =>
    exact liveInvariant_of_dirtiesOnly (setDismissed_onlyNotifies _ job v).1
      (setDismissed_dirtiesOnly _ job v) hl ih
  | @compressUpdatesTimeout s _ ih =>
    obtain ⟨_, _, ho, _, hl, hn⟩ := compressUpdatesTimeout_sameRegistry s
    obtain ⟨n, b, o, _⟩ := ih
    unfold liveInvariant
    rw [hl, hn, ho]
    exact ⟨n, b, o, by simp [compressUpdatesTimeout]⟩
  | @pendingJobViewsTimeout s t hreach ht ih =>
    have hwf := reachable_wellFormed hreach
    obtain ⟨E, hE, _⟩ := pendingJobViewsLoop_spec s.m_pendingJobViews
      { s with m_pendingJobViewsTimer := none } (fun job hj _ => hwf.2.2.2.2 job hj)
    unfold pendingJobViewsTimeout at ht
    simp only [hE, Option.some.injEq] at ht
    subst ht
    exact ih
  | removeAt _ row ht ih => exact liveInvariant_removeAt row ht ih
  | remove _ job ht ih =>
    unfold remove at ht
    simp only at ht
    split at ht
    · exact liveInvariant_removeAt _ ht ih
    · simp only [Option.some.injEq] at ht
      exact ht ▸ ih
  | @onServiceUnregistered s _ serviceName ih =>
    have h1 : liveInvariant { s with watchedServices := s.watchedServices.erase serviceName } :=
      ih
    apply markFailedLoop_liveInvariant _ _ _ h1
    intro job hjob
    exact ih.2.2.1 (job, serviceName) ((mem_keys_iff _ _ _).1 hjob)
  | advance _ dt ih => exact ih

/-- One iteration of the flush loop only appends events, each of them sent for the
entry at hand, whose job is visible: the entry's `jobViewChanged`, or an aggregate
broadcast when the entry holds the percentage role. -/
theorem compressUpdatesStep_attribution (u : Model) (entry : JobPtr × List Roles) :
    ∃ E, compressUpdatesStep u entry = { u with events := u.events ++ E } ∧
      ∀ e ∈ E, entry.1 ∈ u.m_jobViews ∧
        (e = Event.jobViewChanged (indexOf u.m_jobViews entry.1) entry.1 entry.2 ∨
          (Roles.PercentageRole ∈ entry.2 ∧ e.isLauncherEntryUpdate = true)) := by
  unfold compressUpdatesStep
  by_cases hrow : indexOf u.m_jobViews entry.1 = -1
  · exact ⟨[], by simp [hrow], by simp⟩
  · have hmem : entry.1 ∈ u.m_jobViews := by
      by_contra hc
      exact hrow ((indexOf_eq_neg_one_iff _ _).2 hc)
    simp only [hrow, if_false]
    by_cases hp : Roles.PercentageRole ∈ entry.2
    · rw [if_pos hp]
      obtain ⟨F, hF, hFl⟩ := updateApplicationPercentage_frame
        (u.emit (Event.jobViewChanged (indexOf u.m_jobViews entry.1) entry.1 entry.2))
        (((u.emit (Event.jobViewChanged (indexOf u.m_jobViews entry.1) entry.1
          entry.2)).jobs entry.1).desktopEntry)
      refine ⟨[Event.jobViewChanged (indexOf u.m_jobViews entry.1) entry.1 entry.2] ++ F,
        ?_, ?_⟩
      · rw [hF]
        simp [Model.emit]
      · intro e he
        refine ⟨hmem, ?_⟩
        rcases List.mem_append.1 he with h | h
        · exact Or.inl (by simpa using h)
        · exact Or.inr ⟨hp, hFl e h⟩
    · rw [if_neg hp]
      refine ⟨[Event.jobViewChanged (indexOf u.m_jobViews entry.1) entry.1 entry.2],
        by simp [Model.emit], ?_⟩
      intro e he
      exact ⟨hmem, Or.inl (by simpa using he)⟩

/-- The flush loop only appends events, each of them sent for an entry of the
dirty-roles map whose job is visible. -/
theorem compressUpdatesLoop_attribution (D : List (JobPtr × List Roles)) (u : Model) :
    ∃ E, D.foldl compressUpdatesStep u = { u with events := u.events ++ E } ∧
      ∀ e ∈ E, ∃ entry ∈ D, entry.1 ∈ u.m_jobViews ∧
        (e = Event.jobViewChanged (indexOf u.m_jobViews entry.1) entry.1 entry.2 ∨
          (Roles.PercentageRole ∈ entry.2 ∧ e.isLauncherEntryUpdate = true)) := by
  induction D generalizing u with
  | nil => exact ⟨[], by simp, by simp⟩
  | cons first rest ih =>
    obtain ⟨E1, hE1, h1⟩ := compressUpdatesStep_attribution u first
    obtain ⟨E2, hE2, h2⟩ := ih { u with events := u.events ++ E1 }
    refine ⟨E1 ++ E2, ?_, ?_⟩
    · rw [List.foldl_cons, hE1, hE2]
      simp
    · intro e he
      rcases List.mem_append.1 he with h | h
      · obtain ⟨hv, hcase⟩ := h1 e h
        exact ⟨first, List.mem_cons_self _ _, hv, hcase⟩
      · obtain ⟨entry, hentry, hv, hcase⟩ := h2 e h
        exact ⟨entry, List.mem_cons_of_mem _ hentry, hv, hcase⟩

/-- The events of a flush: each of them is sent for an entry of the dirty-roles map
whose job is visible. -/
theorem compressUpdatesTimeout_attribution (u : Model) :
    (compressUpdatesTimeout u).m_pendingDirtyRoles = [] ∧
    ∀ e ∈ emitted u (compressUpdatesTimeout u), ∃ entry ∈ u.m_pendingDirtyRoles,
      entry.1 ∈ u.m_jobViews ∧
      (e = Event.jobViewChanged (indexOf u.m_jobViews entry.1) entry.1 entry.2 ∨
        (Roles.PercentageRole ∈ entry.2 ∧ e.isLauncherEntryUpdate = true)) := by
  obtain ⟨E, hE, hattr⟩ := compressUpdatesLoop_attribution u.m_pendingDirtyRoles
    { u with m_compressUpdatesTimer := none }
  have hflush : (compressUpdatesTimeout u).events = u.events ++ E := by
    unfold compressUpdatesTimeout
    simp only [hE]
  refine ⟨rfl, ?_⟩
  rw [emitted_of_events_eq _ _ E hflush]
  exact hattr

/-- A flush emits no `jobViewChanged` for a job that is not visible or has no entry in
the dirty-roles map. -/
theorem compressUpdatesTimeout_no_changed (u : Model) (job : JobPtr)
    (h : job ∉ u.m_jobViews ∨ ∀ entry ∈ u.m_pendingDirtyRoles, entry.1 ≠ job) :
    changedEventsOf (emitted u (compressUpdatesTimeout u)) job = [] := by
  obtain ⟨_, hattr⟩ := compressUpdatesTimeout_attribution u
  unfold changedEventsOf
  rw [List.filter_eq_nil_iff]
  intro e he hchanged
  obtain ⟨entry, hentry, hvis, hcase⟩ := hattr e he
  rcases hcase with hc | ⟨_, hl⟩
  · rw [hc] at hchanged
    have hkey : entry.1 = job := by simpa [Event.isChangedOf] using hchanged
    rcases h with h | h
    · exact h (hkey ▸ hvis)
    · exact h entry hentry hkey
  · cases e <;> simp_all [Event.isLauncherEntryUpdate, Event.isChangedOf]

/-- C17 (amended): in every reachable state every job that has an entry in the
dirty-roles map is a live job (it was not deleted), visible or not; a notification
(`scheduleUpdate`, which every field-change slot calls) adds an entry for its job
whether or not the job is in the visible sequence; the flush emits no `jobViewChanged`
for a job that is not in the visible sequence and leaves the map empty. -/
theorem reachable_dirty_jobs_live (s : Model) (h : Reachable s) :
    (∀ entry ∈ s.m_pendingDirtyRoles, entry.1 ∈ s.live) ∧
    (∀ job role, hasDirtyRole (scheduleUpdate s job role) job role) ∧
    (∀ job, job ∉ s.m_jobViews →
      changedEventsOf (emitted s (compressUpdatesTimeout s)) job = []) ∧
    (compressUpdatesTimeout s).m_pendingDirtyRoles = [] :=
  ⟨(reachable_liveInvariant h).2.2.2, fun job role => scheduleUpdate_hasDirtyRole s job role,
    fun job hjob => compressUpdatesTimeout_no_changed s job (Or.inl hjob), rfl⟩

/-- C17 (amended) at an example: after a percentage change on a pending job the
dirty-roles map holds an entry for that live job, and the flush emits nothing for
it. -/
theorem reachable_dirty_jobs_live_witness :
    ∃ t, run (Model.initial 1) percentageWhilePending = some t ∧ Reachable t ∧
      (∀ entry ∈ t.m_pendingDirtyRoles, entry.1 ∈ t.live) ∧
      changedEventsOf (emitted t (compressUpdatesTimeout t)) 0 = [] := by
  have hsome : (run (Model.initial 1) percentageWhilePending).isSome = true := by decide
  have hv : (run (Model.initial 1) percentageWhilePending).map Model.m_jobViews = some [] := by
    decide
  cases h : run (Model.initial 1) percentageWhilePending with
  | none =>
    rw [h] at hsome
    exact absurd hsome (by simp)
  | some t =>
    rw [h] at hv
    simp only [Option.map_some', Option.some.injEq] at hv
    have hreach := run_reachable (Reachable.initial 1) _ h
    obtain ⟨hlive, _, hflush, _⟩ := reachable_dirty_jobs_live t hreach
    exact ⟨t, rfl, hreach, hlive, hflush 0 (by rw [hv]; simp)⟩

/-- C17 (counterexample): a job is registered without the `immediate` hint and its
percentage changes while it is pending.  In the reachable state so obtained the
dirty-roles map has an entry for job 0, which is in the pending list and not in the
visible sequence. -/
theorem pending_job_has_dirty_entry :
    ∃ t, run (Model.initial 1) percentageWhilePending = some t ∧ Reachable t ∧
      t.m_pendingDirtyRoles = [(0, [Roles.PercentageRole])] ∧
      t.m_pendingJobViews = [0] ∧ t.m_jobViews = [] := by
  have hd : (run (Model.initial 1) percentageWhilePending).map Model.m_pendingDirtyRoles =
      some [(0, [Roles.PercentageRole])] := by decide
  have hp : (run (Model.initial 1) percentageWhilePending).map Model.m_pendingJobViews =
      some [0] := by decide
  have hv : (run (Model.initial 1) percentageWhilePending).map Model.m_jobViews = some [] := by
    decide
  cases h : run (Model.initial 1) percentageWhilePending with
  | none =>
    rw [h] at hd
    exact Option.noConfusion hd
  | some t =>
    rw [h] at hd hp hv
    simp only [Option.map_some', Option.some.injEq] at hd hp hv
    exact ⟨t, rfl, run_reachable (Reachable.initial 1) _ h, hd, hp, hv⟩

/-! ## A removal between a notification and the flush -/

/-- C18: when `scheduleUpdate(job, role)` on a visible job is followed by
`remove(job)`, the removal returns and leaves no entry for the job in the dirty-roles
map; the following flush emits no `jobViewChanged` for the job, and every event it
emits (a `jobViewChanged` or an aggregate broadcast) is sent for an entry of another
job, so no aggregate recompute is run on the removed job's behalf.  And for every
state, each `jobViewChanged(row, job, roles)` that a flush emits has
`0 <= row < length` of the visible sequence with `job` at index `row`. -/
theorem flush_after_removal (s : Model) (job : JobPtr) (role : Roles)
    (hvis : job ∈ s.m_jobViews) :
    (∃ t, remove (scheduleUpdate s job role) job = some t ∧
      (∀ entry ∈ t.m_pendingDirtyRoles, entry.1 ≠ job) ∧
      changedEventsOf (emitted t (compressUpdatesTimeout t)) job = [] ∧
      (∀ e ∈ emitted t (compressUpdatesTimeout t), ∃ entry ∈ t.m_pendingDirtyRoles,
        entry.1 ≠ job ∧ entry.1 ∈ t.m_jobViews ∧
        (e = Event.jobViewChanged (indexOf t.m_jobViews entry.1) entry.1 entry.2 ∨
          (Roles.PercentageRole ∈ entry.2 ∧ e.isLauncherEntryUpdate = true)))) ∧
    (∀ (u : Model) (row : Int) (k : JobPtr) (roles : List Roles),
      Event.jobViewChanged row k roles ∈ emitted u (compressUpdatesTimeout u) →
      0 ≤ row ∧ row < (u.m_jobViews.length : Int) ∧ u.m_jobViews[row.toNat]? = some k) := by
  constructor
  · have hvis1 : job ∈ (scheduleUpdate s job role).m_jobViews := hvis
    obtain ⟨hrem, hat⟩ := remove_eq_removeAt (scheduleUpdate s job role) job hvis1
    have heq := removeAt_eq (scheduleUpdate s job role) _ job hat
    have hnone : ∀ entry ∈ QHash.remove (scheduleUpdate s job role).m_pendingDirtyRoles job,
        entry.1 ≠ job := by
      intro entry he
      have := (List.mem_filter.1 he).2
      simpa using this
    refine ⟨_, hrem.trans heq, hnone, ?_, ?_⟩
    · exact compressUpdatesTimeout_no_changed _ job (Or.inr hnone)
    · intro e he
      obtain ⟨entry, hentry, hv, hcase⟩ := (compressUpdatesTimeout_attribution _).2 e he
      exact ⟨entry, hentry, hnone entry hentry, hv, hcase⟩
  · intro u row k roles he
    obtain ⟨entry, _, hv, hcase⟩ := (compressUpdatesTimeout_attribution u).2 _ he
    rcases hcase with hc | ⟨_, hl⟩
    · simp only [Event.jobViewChanged.injEq] at hc
      obtain ⟨hrow, hk, _⟩ := hc
      rw [← hk] at hv
      have hidx : indexOf u.m_jobViews k = (List.indexOf k u.m_jobViews : Int) := by
        simp [indexOf, hv]
      rw [hrow, ← hk, hidx]
      refine ⟨by omega, ?_, ?_⟩
      · exact_mod_cast List.indexOf_lt_length.2 hv
      · rw [Int.toNat_ofNat]
        exact (remove_eq_removeAt u k hv).2
    · simp [Event.isLauncherEntryUpdate] at hl

/-- C18 at an example: a percentage notification on the visible job 1 followed by its
removal; the flush that follows emits no `jobViewChanged` for job 1. -/
theorem flush_after_removal_witness :
    (1 : JobPtr) ∈ threeOwnedJobs.m_jobViews ∧
    ∃ t, remove (scheduleUpdate threeOwnedJobs 1 Roles.PercentageRole) 1 = some t ∧
      (∀ entry ∈ t.m_pendingDirtyRoles, entry.1 ≠ 1) ∧
      changedEventsOf (emitted t (compressUpdatesTimeout t)) 1 = [] := by
  obtain ⟨t, ht, hnone, hchanged, _⟩ :=
    (flush_after_removal threeOwnedJobs 1 Roles.PercentageRole (by decide)).1
  exact ⟨by decide, t, ht, hnone, hchanged⟩

/-! ## What the loss of a client writes -/

/-- C19: `onServiceUnregistered(C)` sets the error code 127 and the fixed error text on
every job that has an owner-map entry with owner `C`, whatever its state and earlier
error were (the job object ends up as before except for error, error text and the
stopped state); and it leaves the job object of every job without such an entry
exactly as it was. -/
theorem onServiceUnregistered_writes (s : Model) (C : String) :
    (∀ job, (job, C) ∈ s.m_jobServices →
      ((onServiceUnregistered s C).jobs job).error = 127 ∧
      ((onServiceUnregistered s C).jobs job).errorText = "Application closed unexpectedly." ∧
      (onServiceUnregistered s C).jobs job = (s.jobs job).failed) ∧
    (∀ job, (job, C) ∉ s.m_jobServices →
      (onServiceUnregistered s C).jobs job = s.jobs job) := by
  obtain ⟨_, hjobs, _⟩ := markFailedLoop_spec
    (QHash.keys s.m_jobServices C) { s with watchedServices := s.watchedServices.erase C }
  have ht : onServiceUnregistered s C = (QHash.keys s.m_jobServices C).foldl markFailed
      { s with watchedServices := s.watchedServices.erase C } := rfl
  rw [← ht] at hjobs
  constructor
  · intro job howner
    have hmem : job ∈ QHash.keys s.m_jobServices C := (mem_keys_iff _ _ _).2 howner
    rw [hjobs job, if_pos hmem]
    exact ⟨rfl, rfl, rfl⟩
  · intro job hnot
    have hmem : job ∉ QHash.keys s.m_jobServices C := fun h => hnot ((mem_keys_iff _ _ _).1 h)
    rw [hjobs job, if_neg hmem]

/-- C19 at an example: job 0 of client `:1.20` was already stopped with error 1 and a
text of its own; after the loss of `:1.20` it carries error 127 and the fixed text,
while job 3 of client `:1.21` is untouched. -/
theorem onServiceUnregistered_writes_witness :
    (((0 : JobPtr), ":1.20") ∈ threeOwnedJobs.m_jobServices ∧
      (threeOwnedJobs.jobs 0).state = JobState.JobStateStopped ∧
      (threeOwnedJobs.jobs 0).error = 1 ∧
      (threeOwnedJobs.jobs 0).errorText = "Could not read file." ∧
      ((3 : JobPtr), ":1.20") ∉ threeOwnedJobs.m_jobServices) ∧
    ((onServiceUnregistered threeOwnedJobs ":1.20").jobs 0).error = 127 ∧
    ((onServiceUnregistered threeOwnedJobs ":1.20").jobs 0).errorText =
      "Application closed unexpectedly." ∧
    (onServiceUnregistered threeOwnedJobs ":1.20").jobs 3 = threeOwnedJobs.jobs 3 := by
  obtain ⟨howned, hother⟩ := onServiceUnregistered_writes threeOwnedJobs ":1.20"
  obtain ⟨he, ht, _⟩ := howned 0 (by decide)
  exact ⟨by decide, he, ht, hother 3 (by decide)⟩

/-! ## Jobs without a display group -/

theorem requestView_new_desktopEntry (s : Model) (desktopEntry appName appIconName : String)
    (capabilities : Int) (immediate : Bool) (serviceName processName : String) :
    ((requestView s desktopEntry appName appIconName capabilities immediate serviceName
      processName).jobs s.nextPtr).desktopEntry = desktopEntry := by
  cases immediate with
  | true =>
    simp only [requestView, if_true, updateApplicationPercentage_jobs, Model.emit,
      Function.update_same]
    split <;> (try split) <;> rfl
  | false =>
    simp only [requestView, Bool.false_eq_true, if_false, Function.update_same]
    split <;> (try split) <;> rfl

/-- C20: `updateApplicationPercentage` with an empty group key returns the state
unchanged, so it sends no broadcast, whatever jobs are visible.  Hence a `requestView`
call with the `immediate` hint and an empty `desktopEntry` emits the two add signals
and nothing else; promoting a pending non-stopped job whose `desktopEntry` is empty
emits the two add signals and nothing else; and the three-argument `requestView`, when
no service is found for the application name, registers the job with an empty
`desktopEntry`. -/
theorem updateApplicationPercentage_empty_key (s : Model) :
    updateApplicationPercentage s "" = s ∧
    (∀ (appName appIconName : String) (capabilities : Int) (serviceName processName : String),
      emitted s (requestView s "" appName appIconName capabilities true serviceName
        processName) =
        [Event.jobViewAboutToBeAdded (s.m_jobViews.length : Int) s.nextPtr,
         Event.jobViewAdded (s.m_jobViews.length : Int) s.nextPtr]) ∧
    (∀ job, (s.jobs job).state ≠ JobState.JobStateStopped → (s.jobs job).desktopEntry = "" →
      ∃ t, pendingJobViewsStep s job = some t ∧
        t.m_jobViews = s.m_jobViews ++ [job] ∧
        emitted s t =
          [Event.jobViewAboutToBeAdded (s.m_jobViews.length : Int) job,
           Event.jobViewAdded (s.m_jobViews.length : Int) job]) ∧
    (∀ (serviceByStorageId : String → Option KService) (appName appIconName : String)
      (capabilities : Int) (serviceName processName : String),
      serviceByStorageId appName = none →
      serviceByStorageId ("org.kde." ++ appName) = none →
      requestViewV1 s serviceByStorageId appName appIconName capabilities serviceName
        processName =
        requestView s "" appName appIconName capabilities false serviceName processName ∧
      ((requestViewV1 s serviceByStorageId appName appIconName capabilities serviceName
        processName).jobs s.nextPtr).desktopEntry = "") := by
  have hempty : ∀ u : Model, updateApplicationPercentage u "" = u := by
    intro u
    simp [updateApplicationPercentage]
  refine ⟨hempty s, ?_, ?_, ?_⟩
  · intro appName appIconName capabilities serviceName processName
    apply emitted_of_events_eq
    have hd := requestView_new_desktopEntry s "" appName appIconName capabilities true
      serviceName processName
    simp only [requestView, if_true, updateApplicationPercentage_jobs, Model.emit,
      Function.update_same] at hd ⊢
    rw [hd, hempty]
    simp
  · intro job hstate hd
    have hstep : pendingJobViewsStep s job = some
        ({ s with
            m_jobViews := s.m_jobViews ++ [job]
            events := s.events ++
              [Event.jobViewAboutToBeAdded (s.m_jobViews.length : Int) job,
               Event.jobViewAdded (s.m_jobViews.length : Int) job] } : Model) := by
      unfold pendingJobViewsStep
      rw [if_neg hstate]
      simp only [Model.emit]
      rw [hd, hempty]
      simp
    exact ⟨_, hstep, rfl, emitted_of_events_eq s _ _ rfl⟩
  · intro serviceByStorageId appName appIconName capabilities serviceName processName h1 h2
    have hv1 : requestViewV1 s serviceByStorageId appName appIconName capabilities serviceName
        processName =
        requestView s "" appName appIconName capabilities false serviceName processName := by
      simp [requestViewV1, h1, h2]
    exact ⟨hv1, by rw [hv1]; exact requestView_new_desktopEntry _ _ _ _ _ _ _ _⟩

/-- C20 at an example: job 3 of `promotionExample` is pending, running and has an empty
`desktopEntry`; promoting it emits the add pair for row 1 and no aggregate broadcast. -/
theorem updateApplicationPercentage_empty_key_witness :
    ((promotionExample.jobs 3).state ≠ JobState.JobStateStopped ∧
      (promotionExample.jobs 3).desktopEntry = "") ∧
    ∃ t, pendingJobViewsStep promotionExample 3 = some t ∧
      t.m_jobViews = [0, 3] ∧
      emitted promotionExample t =
        [Event.jobViewAboutToBeAdded 1 3, Event.jobViewAdded 1 3] := by
  obtain ⟨t, ht, hv, hev⟩ :=
    (updateApplicationPercentage_empty_key promotionExample).2.2.1 3 (by decide) (by decide)
  refine ⟨by decide, t, ht, ?_, ?_⟩
  · rw [hv]
    decide
  · rw [hev]
    decide

end NotificationManager
